import Mathlib

set_option autoImplicit false
set_option maxRecDepth 2000
set_option linter.unusedSectionVars false

/-!
Verification of the core algorithms of the preprocessing-MPSI-with-VOLE
repository: the PaXoS solver (hashing, cuckoo-graph DFS encoding, Gaussian
elimination over GF(2), decoding), the Vandermonde solver, the OT-based VOLE
sharing, the separated OPRF / OPPRF online phases and the MPSI orchestration.

The field `F` is kept abstract as a commutative ring; theorems that need the
characteristic-2 structure of the concrete field `GF(2^128)` assume `CharP F 2`.
The external SHA-256 digest and the byte serialization of field elements are
kept abstract as a `HashModel`; `u64` values are embedded as `Nat`.
Rust panics (out-of-bounds indexing, `% 0`) and `anyhow` errors are both
embedded as `none` / failure values, so a function returning `some`/`ok`
models a Rust call that returns `Ok` without panicking.
-/

namespace PPM

/-- Big-endian byte representation of a 64-bit integer (Rust `u64::to_be_bytes`). -/
def u64be (k : Nat) : List Nat :=
  (List.range 8).map (fun i => k / 2 ^ (8 * (7 - i)) % 256)

/-- Big-endian value of a byte list (Rust `u64::from_be_bytes`). -/
def beNat (bs : List Nat) : Nat :=
  bs.foldl (fun acc b => acc * 256 + b) 0

/-- Abstract model of the external collaborators used by the hashing code:
the SHA-256 digest function (crate `sha2`) on byte lists, and the
byte serialization `F::to_bytes` (scuttlebutt `CanonicalSerialize`). -/
structure HashModel (F : Type) where
  sha256 : List Nat → List Nat
  toBytes : F → List Nat

/-- Rust `usize::next_power_of_two`: the smallest power of two that is `≥ n`
(and `1` for `n = 0`). -/
def next_power_of_two (n : Nat) : Nat :=
  2 ^ Nat.size (n - 1)

/-- Rust `u64::trailing_zeros` (the `n = 0` case, where Rust returns the bit
width, is never reached here since the argument is always a power of two). -/
def trailing_zeros (n : Nat) : Nat :=
  if n = 0 then 0
  else if n % 2 = 1 then 0
  else trailing_zeros (n / 2) + 1
termination_by n
decreasing_by
  have : n / 2 < n := by omega
  omega

namespace Paxos

/-- `PaxosSolverParams` from `src/solver/paxos/mod.rs`. -/
structure Params where
  l_size : Nat
  r_size : Nat
deriving DecidableEq

/-- `PaxosSolverParams::code_length`. -/
def Params.code_length (p : Params) : Nat := p.l_size + p.r_size

/-- `PaxosSolver::calc_params`: `l_size = 2n + n/100`,
`r_size = n.next_power_of_two().trailing_zeros() + 40`. -/
def calc_params (n : Nat) : Params :=
  { l_size := 2 * n + n / 100
    r_size := trailing_zeros (next_power_of_two n) + 40 }

variable {F : Type} [CommRing F]

/-- `hash2index`: first 8 bytes of `SHA-256(k.to_be_bytes() ‖ x.to_bytes())`
as a big-endian integer, reduced `mod max`.  Rust panics when the digest has
fewer than 8 bytes or when `max = 0`; both are embedded as `none`. -/
def hash2index (hm : HashModel F) (k : Nat) (x : F) (max : Nat) : Option Nat :=
  let res := hm.sha256 (u64be k ++ hm.toBytes x)
  if 8 ≤ res.length ∧ 0 < max then some (beNat (res.take 8) % max) else none

/-- `r`: the first `m` bits of `SHA-256(k.to_be_bytes() ‖ x.to_bytes())`,
read least-significant-bit first within each byte
(`byte & (1 << i) != 0` for `i` in `0..8`). -/
def r (hm : HashModel F) (k : Nat) (x : F) (m : Nat) : List Bool :=
  ((hm.sha256 (u64be k ++ hm.toBytes x)).flatMap
    (fun byte => (List.range 8).map (fun i => byte.testBit i))).take m

/-- The accumulation loop of `calc_r_inner_product`: starting at index `i`,
add `vecR[i + t]` for every set bit `t` of `bits`.  An out-of-bounds read
(a Rust panic) is embedded as `none`. -/
def bitSum (vecR : List F) : Nat → List Bool → Option F
  | _, [] => some 0
  | i, b :: bs => do
    let rest ← bitSum vecR (i + 1) bs
    if b then
      match vecR.get? i with
      | some v => some (v + rest)
      | none => none
    else
      some rest

/-- `calc_r_inner_product`: `Σ_{i : r(k3,x)[i]} vec_r[i]`. -/
def calc_r_inner_product (hm : HashModel F) (x : F) (vecR : List F)
    (k3 : Nat) (rSize : Nat) : Option F :=
  bitSum vecR 0 (r hm k3 x rSize)

/-- `PaxosSolver::decode`:
`p[h1 x] + p[h2 x] + Σ_{i : r(k3,x)[i]} p[l_size + i]`. -/
def decode (hm : HashModel F) (p : List F) (x : F) (aux : Nat × Nat × Nat)
    (params : Params) : Option F := do
  let i ← hash2index hm aux.1 x params.l_size
  let j ← hash2index hm aux.2.1 x params.l_size
  let l1 ← p.get? i
  let l2 ← p.get? j
  let vecR := p.drop params.l_size
  let ip ← calc_r_inner_product hm x vecR aux.2.2 params.r_size
  some (l1 + l2 + ip)

/-- Refinement counterpart for the decode rule, following the spec text:
`H_k(x)` is "the first 8 bytes of `SHA-256(k ‖ bytes(x))` as a big-endian
unsigned integer", reduced `mod L`.  Written positionally (byte `t` weighted
by `256 ^ (7 - t)`), to be compared with the source-translated `hash2index`. -/
def specHashIndex (hm : HashModel F) (k : Nat) (x : F) (L : Nat) : Nat :=
  ((List.range 8).map (fun t =>
    (hm.sha256 (u64be k ++ hm.toBytes x)).getD t 0 * 256 ^ (7 - t))).sum % L

/-- Refinement counterpart following the spec text: bit `b` of `r(k3, x)` is
the `b`-th bit of the digest "read little-endian within each byte". -/
def specRBit (hm : HashModel F) (k3 : Nat) (x : F) (b : Nat) : Bool :=
  ((hm.sha256 (u64be k3 ++ hm.toBytes x)).getD (b / 8) 0).testBit (b % 8)

/-- Refinement counterpart following the spec's decoding rule:
`y = P[i] + P[j] + Σ_{b ∈ bits(r(k3,x))} P[L + b]` with `i = H₁(k1,x) mod L`
and `j = H₂(k2,x) mod L`, the sum ranging over the first `R` bits. -/
def decodeSpec (hm : HashModel F) (p : List F) (x : F) (k1 k2 k3 : Nat)
    (L R : Nat) : F :=
  p.getD (specHashIndex hm k1 x L) 0 + p.getD (specHashIndex hm k2 x L) 0 +
    ((List.range R).map (fun b =>
      if specRBit hm k3 x b then p.getD (L + b) 0 else 0)).sum

theorem beNat_foldl (bs : List Nat) (acc : Nat) :
    bs.foldl (fun a b => a * 256 + b) acc = acc * 256 ^ bs.length + beNat bs := by
  induction bs generalizing acc with
  | nil => simp [beNat]
  | cons b bs ih =>
    simp only [List.foldl_cons, List.length_cons]
    rw [ih (acc * 256 + b)]
    have hb : beNat (b :: bs) = b * 256 ^ bs.length + beNat bs := by
      simp only [beNat, List.foldl_cons]
      rw [show ((0 : Nat) * 256 + b) = b by ring]
      exact ih b
    rw [hb]
    ring

theorem beNat_positional (bs : List Nat) :
    beNat bs = ((List.range bs.length).map
      (fun t => bs.getD t 0 * 256 ^ (bs.length - 1 - t))).sum := by
  induction bs with
  | nil => simp [beNat]
  | cons b bs ih =>
    have h1 : beNat (b :: bs) = b * 256 ^ bs.length + beNat bs := by
      simp only [beNat, List.foldl_cons]
      rw [show ((0 : Nat) * 256 + b) = b by ring]
      rw [beNat_foldl bs b]
      simp [beNat]
    rw [h1, ih]
    simp only [List.length_cons, List.range_succ_eq_map, List.map_cons, List.map_map,
      List.sum_cons, List.getD_cons_zero, Function.comp_def, List.getD_cons_succ]
    have h0 : bs.length + 1 - 1 - 0 = bs.length := by omega
    rw [h0]
    congr 1
    apply congrArg List.sum
    apply List.map_congr_left
    intro t ht
    have h2 : bs.length + 1 - 1 - Nat.succ t = bs.length - 1 - t := by omega
    rw [h2]


theorem getD_of_get? {α : Type} (l : List α) (i : Nat) (d a : α) (h : l.get? i = some a) :
    l.getD i d = a := by
  induction l generalizing i with
  | nil => simp at h
  | cons x l ih =>
    cases i with
    | zero =>
      simp only [List.get?_cons_zero, Option.some_inj] at h
      simp [h]
    | succ i =>
      simp only [List.get?_cons_succ] at h
      simpa using ih i h

theorem get?_eq_some_getD {α : Type} (l : List α) (d : α) (i : Nat) (h : i < l.length) :
    l.get? i = some (l.getD i d) := by
  induction l generalizing i with
  | nil => simp at h
  | cons a l ih =>
    cases i with
    | zero => simp
    | succ i =>
      simp only [List.get?_cons_succ, List.getD_cons_succ]
      exact ih i (by simpa using h)

theorem getD_take {α : Type} (l : List α) (n t : Nat) (d : α) (h : t < n) :
    (l.take n).getD t d = l.getD t d := by
  induction l generalizing n t with
  | nil => simp
  | cons a l ih =>
    cases n with
    | zero => omega
    | succ n =>
      cases t with
      | zero => simp
      | succ t => simpa using ih n t (by omega)

theorem getD_drop {α : Type} (l : List α) (n m : Nat) (d : α) :
    (l.drop n).getD m d = l.getD (n + m) d := by
  induction l generalizing n with
  | nil => simp
  | cons a l ih =>
    cases n with
    | zero => simp
    | succ n =>
      simp only [List.drop_succ_cons]
      rw [ih n]
      have h : n + 1 + m = (n + m) + 1 := by omega
      rw [h, List.getD_cons_succ]

theorem flatMap_bits_length (bs : List Nat) :
    (bs.flatMap (fun byte => (List.range 8).map (fun i => byte.testBit i))).length
      = 8 * bs.length := by
  induction bs with
  | nil => simp
  | cons b bs ih =>
    simp [ih]
    ring

theorem flatMap_bits_get? (bs : List Nat) (n : Nat) :
    (bs.flatMap (fun byte => (List.range 8).map (fun i => byte.testBit i))).get? n =
      if n < 8 * bs.length then some ((bs.getD (n / 8) 0).testBit (n % 8)) else none := by
  induction bs generalizing n with
  | nil => simp
  | cons b bs ih =>
    simp only [List.flatMap_cons, List.length_cons]
    have hl : (List.map (fun i => Nat.testBit b i) (List.range 8)).length = 8 := by simp
    rcases Nat.lt_or_ge n 8 with h8 | h8
    · rw [List.get?_append (by rw [hl]; exact h8)]
      rw [List.get?_map, List.get?_range h8]
      have h1 : n / 8 = 0 := by omega
      have h2 : n % 8 = n := by omega
      have h3 : n < 8 * (bs.length + 1) := by omega
      simp [h1, h2, h3]
    · rw [List.get?_append_right (by rw [hl]; exact h8)]
      rw [hl, ih]
      have hd : (n - 8) / 8 + 1 = n / 8 := by omega
      have hm : (n - 8) % 8 = n % 8 := by omega
      rcases Nat.lt_or_ge (n - 8) (8 * bs.length) with hc | hc
      · rw [if_pos hc, if_pos (by omega), hm, ← hd, List.getD_cons_succ]
      · rw [if_neg (by omega), if_neg (by omega)]

theorem bitSum_eq_sum (vr : List F) (bits : List Bool) (i : Nat)
    (h : i + bits.length ≤ vr.length) :
    bitSum vr i bits = some (((List.range bits.length).map
      (fun t => if bits.getD t false then vr.getD (i + t) 0 else 0)).sum) := by
  induction bits generalizing i with
  | nil => simp [bitSum]
  | cons b bs ih =>
    simp only [bitSum, List.length_cons] at h ⊢
    rw [ih (i + 1) (by omega)]
    simp only [Option.bind_eq_bind, Option.some_bind]
    have hrw : ((List.range (bs.length + 1)).map
        (fun t => if (b :: bs).getD t false then vr.getD (i + t) 0 else 0)).sum
        = (if b then vr.getD i 0 else 0) +
          ((List.range bs.length).map
            (fun t => if bs.getD t false then vr.getD (i + 1 + t) 0 else 0)).sum := by
      rw [List.range_succ_eq_map]
      simp only [List.map_cons, List.map_map, List.sum_cons, Function.comp_def,
        List.getD_cons_zero, List.getD_cons_succ, Nat.add_zero]
      congr 1
      apply congrArg List.sum
      apply List.map_congr_left
      intro t ht
      have h2 : i + Nat.succ t = i + 1 + t := by omega
      rw [h2]
    rw [hrw]
    cases b with
    | false => simp
    | true =>
      rw [get?_eq_some_getD vr 0 i (by omega)]
      simp

theorem hash2index_eq_spec (hm : HashModel F)
    (hdig : ∀ bs, (hm.sha256 bs).length = 32) (k : Nat) (x : F) (L : Nat) (hL : 0 < L) :
    hash2index hm k x L = some (specHashIndex hm k x L) := by
  unfold hash2index specHashIndex
  rw [if_pos (by rw [hdig]; omega)]
  have hbe : beNat ((hm.sha256 (u64be k ++ hm.toBytes x)).take 8)
      = ((List.range 8).map
          (fun t => (hm.sha256 (u64be k ++ hm.toBytes x)).getD t 0 * 256 ^ (7 - t))).sum := by
    rw [beNat_positional]
    have hlen : ((hm.sha256 (u64be k ++ hm.toBytes x)).take 8).length = 8 := by
      rw [List.length_take, hdig]
      omega
    rw [hlen]
    apply congrArg List.sum
    apply List.map_congr_left
    intro t ht
    rw [List.mem_range] at ht
    rw [getD_take _ 8 t 0 ht]
  rw [hbe]

theorem length_r_bits (hm : HashModel F)
    (hdig : ∀ bs, (hm.sha256 bs).length = 32) (k : Nat) (x : F) (m : Nat)
    (h256 : m ≤ 256) : (r hm k x m).length = m := by
  unfold r
  rw [List.length_take, flatMap_bits_length, hdig]
  omega

theorem getD_r_bits (hm : HashModel F)
    (hdig : ∀ bs, (hm.sha256 bs).length = 32) (k : Nat) (x : F) (m t : Nat)
    (h256 : m ≤ 256) (ht : t < m) :
    (r hm k x m).getD t false = specRBit hm k x t := by
  unfold r specRBit
  have h1 : ((hm.sha256 (u64be k ++ hm.toBytes x)).flatMap
      (fun byte => (List.range 8).map (fun i => byte.testBit i))).get? t =
      some (((hm.sha256 (u64be k ++ hm.toBytes x)).getD (t / 8) 0).testBit (t % 8)) := by
    rw [flatMap_bits_get?, if_pos (by rw [hdig]; omega)]
  have h2 : (((hm.sha256 (u64be k ++ hm.toBytes x)).flatMap
      (fun byte => (List.range 8).map (fun i => byte.testBit i))).take m).get? t =
      some (((hm.sha256 (u64be k ++ hm.toBytes x)).getD (t / 8) 0).testBit (t % 8)) := by
    rw [List.get?_take ht]
    exact h1
  exact getD_of_get? _ t false _ h2

/-- The source `decode` computes exactly the spec's decoding rule, whenever
the digest is 32 bytes, `0 < L`, `R ≤ 256` and `p` has length `L + R`. -/
theorem decode_eq_decodeSpec (hm : HashModel F)
    (hdig : ∀ bs, (hm.sha256 bs).length = 32) (p : List F) (x : F)
    (k1 k2 k3 : Nat) (L R : Nat) (hL : 0 < L) (hp : p.length = L + R) (hR : R ≤ 256) :
    decode hm p x (k1, k2, k3) ⟨L, R⟩ =
      some (decodeSpec hm p x k1 k2 k3 L R) := by
  unfold decode
  rw [hash2index_eq_spec hm hdig k1 x L hL, hash2index_eq_spec hm hdig k2 x L hL]
  have hi1 : specHashIndex hm k1 x L < L := Nat.mod_lt _ hL
  have hi2 : specHashIndex hm k2 x L < L := Nat.mod_lt _ hL
  simp only [Option.bind_eq_bind, Option.some_bind]
  rw [get?_eq_some_getD p 0 _ (by omega), get?_eq_some_getD p 0 _ (by omega)]
  unfold calc_r_inner_product
  have hlenr : (r hm k3 x R).length = R := length_r_bits hm hdig k3 x R hR
  have hdrop : (p.drop L).length = R := by
    rw [List.length_drop, hp]
    omega
  rw [bitSum_eq_sum (p.drop L) (r hm k3 x R) 0 (by omega)]
  simp only [Option.bind_eq_bind, Option.some_bind]
  unfold decodeSpec
  congr 1
  congr 1
  apply congrArg List.sum
  rw [hlenr]
  apply List.map_congr_left
  intro t ht
  rw [List.mem_range] at ht
  rw [getD_r_bits hm hdig k3 x R t hR ht, zero_add, getD_drop]

end Paxos

theorem trailing_zeros_two_pow (k : Nat) : trailing_zeros (2 ^ k) = k := by
  induction k with
  | zero => rw [trailing_zeros]; norm_num
  | succ k ih =>
    rw [trailing_zeros]
    have h1 : ¬(2 ^ (k + 1) = 0) := by positivity
    have h2 : ¬(2 ^ (k + 1) % 2 = 1) := by
      rw [pow_succ, Nat.mul_mod_left]
      omega
    rw [if_neg h1, if_neg h2]
    have h3 : 2 ^ (k + 1) / 2 = 2 ^ k := by
      rw [pow_succ, Nat.mul_div_cancel _ (by norm_num)]
    rw [h3, ih]

theorem size_pred_eq_clog (n : Nat) (h : 1 ≤ n) :
    Nat.size (n - 1) = Nat.clog 2 n := by
  apply le_antisymm
  · rw [Nat.size_le]
    have h1 : n ≤ 2 ^ Nat.clog 2 n := Nat.le_pow_clog (by norm_num) n
    omega
  · have h2 : n - 1 < 2 ^ Nat.size (n - 1) := Nat.lt_size_self _
    exact (Nat.le_pow_iff_clog_le (by norm_num)).mp (by omega)

theorem r_size_eq_clog (n : Nat) (h : 1 ≤ n) :
    (Paxos.calc_params n).r_size = Nat.clog 2 n + 40 := by
  unfold Paxos.calc_params next_power_of_two
  simp only
  rw [trailing_zeros_two_pow, size_pred_eq_clog n h]

/-- Concrete hash model used by witnesses: a constant 32-byte digest of
ones and an empty serialization, over `GF(2)`. -/
def hmW : HashModel (ZMod 2) :=
  ⟨fun _ => List.replicate 32 1, fun _ => []⟩

/-- C5: `PaxosSolver::decode` is bit-exact per the spec.  For every code
vector `p` of length `L + R`, input `x` and aux `(k1, k2, k3)`, it returns
`P[i] + P[j] + Σ_{b ∈ bits(r(k3,x))} P[L+b]`, where `i` and `j` are the first
8 bytes of `SHA-256(k ‖ bytes x)` read as big-endian integers reduced mod `L`,
and `r(k3, x)` is the first `R` bits of `SHA-256(k3 ‖ bytes x)` read
least-significant-bit first within each byte (stated under the SHA-256
interface contract of a 32-byte digest, with `0 < L` and `R ≤ 256`). -/
theorem claim_C5 {F : Type} [CommRing F] (hm : HashModel F)
    (hdig : ∀ bs, (hm.sha256 bs).length = 32) (p : List F) (x : F)
    (k1 k2 k3 L R : Nat) (hL : 0 < L) (hp : p.length = L + R) (hR : R ≤ 256) :
    Paxos.decode hm p x (k1, k2, k3) ⟨L, R⟩ =
      some (Paxos.decodeSpec hm p x k1 k2 k3 L R) :=
  Paxos.decode_eq_decodeSpec hm hdig p x k1 k2 k3 L R hL hp hR

theorem claim_C5_witness :
    (∀ bs, (hmW.sha256 bs).length = 32) ∧ 0 < 1 ∧
      ([1, 0, 1] : List (ZMod 2)).length = 1 + 2 ∧ 2 ≤ 256 ∧
      Paxos.decode hmW [1, 0, 1] 0 (0, 0, 0) ⟨1, 2⟩ =
        some (Paxos.decodeSpec hmW [1, 0, 1] 0 0 0 0 1 2) :=
  ⟨fun bs => by simp [hmW], by decide, by decide, by decide,
    claim_C5 hmW (fun bs => by simp [hmW]) [1, 0, 1] 0 0 0 0 1 2
      (by decide) (by decide) (by decide)⟩

/-- C10: with `1 ≤ l_size`, a code vector of length exactly
`l_size + r_size`, and `r_size ≤ 256` (and the 32-byte digest contract),
`PaxosSolver::decode` is total: both hash indices are reduced mod `l_size`
and hence in bounds, and decode always returns `Ok` (modelled: `some`). -/
theorem claim_C10 {F : Type} [CommRing F] (hm : HashModel F)
    (hdig : ∀ bs, (hm.sha256 bs).length = 32) (p : List F) (x : F)
    (k1 k2 k3 : Nat) (params : Paxos.Params) (hL : 0 < params.l_size)
    (hp : p.length = params.l_size + params.r_size) (hR : params.r_size ≤ 256) :
    (∃ i, Paxos.hash2index hm k1 x params.l_size = some i ∧ i < params.l_size) ∧
      (∃ j, Paxos.hash2index hm k2 x params.l_size = some j ∧ j < params.l_size) ∧
      ∃ y, Paxos.decode hm p x (k1, k2, k3) params = some y := by
  obtain ⟨L, R⟩ := params
  exact ⟨⟨_, Paxos.hash2index_eq_spec hm hdig k1 x L hL, Nat.mod_lt _ hL⟩,
    ⟨_, Paxos.hash2index_eq_spec hm hdig k2 x L hL, Nat.mod_lt _ hL⟩,
    ⟨_, Paxos.decode_eq_decodeSpec hm hdig p x k1 k2 k3 L R hL hp hR⟩⟩

theorem claim_C10_witness :
    (∀ bs, (hmW.sha256 bs).length = 32) ∧
      (0 : Nat) < 1 ∧ ([1, 0, 1] : List (ZMod 2)).length = 1 + 2 ∧ 2 ≤ 256 ∧
      ((∃ i, Paxos.hash2index hmW 0 (0 : ZMod 2) 1 = some i ∧ i < 1) ∧
        (∃ j, Paxos.hash2index hmW 0 (0 : ZMod 2) 1 = some j ∧ j < 1) ∧
        ∃ y, Paxos.decode hmW [1, 0, 1] 0 (0, 0, 0) ⟨1, 2⟩ = some y) :=
  ⟨fun bs => by simp [hmW], by decide, by decide, by decide,
    claim_C10 hmW (fun bs => by simp [hmW]) [1, 0, 1] 0 0 0 0 ⟨1, 2⟩
      (by decide) (by decide) (by decide)⟩

namespace GE

/-- `Row` from `src/solver/gaussian_eliminations/row.rs`. -/
structure Row (F : Type) where
  values : List Bool
  target : F

variable {F : Type} [CommRing F]

/-- Map with an explicit running index (helper for `add_rows`). -/
def mapWithIdx {α β : Type} (f : Nat → α → β) : Nat → List α → List β
  | _, [] => []
  | i, a :: l => f i a :: mapWithIdx f (i + 1) l

/-- `matrix[k][j]` (a Rust panic on an out-of-range read is impossible in
this code: `check_matrix` enforces `n` uniform rows of length `m` and all
reads use `k < n`, `j < m`). -/
def rowEntry (mat : List (Row F)) (k j : Nat) : Bool :=
  match mat.get? k with
  | some rw => rw.values.getD j false
  | none => false

/-- `add_rows`: XOR row `i` into row `k` on the column range `j..m`, and add
the full targets. -/
def add_rows (mat : List (Row F)) (k i : Nat) (j : Nat) : List (Row F) :=
  match mat.get? k, mat.get? i with
  | some rk, some ri =>
    mat.set k
      ⟨mapWithIdx (fun idx b => if j ≤ idx then xor b (ri.values.getD idx false) else b)
          0 rk.values,
        rk.target + ri.target⟩
  | _, _ => mat

/-- The pivot search `for k in i..n { if matrix[k][j] { ... } }`. -/
def findPivotRow (mat : List (Row F)) (i n j : Nat) : Option Nat :=
  (List.range' i (n - i)).find? (fun k => rowEntry mat k j)

/-- Swap rows `i` and `t` (in range in this code). -/
def listSwap {α : Type} (mat : List α) (i t : Nat) : List α :=
  match mat.get? i, mat.get? t with
  | some a, some b => (mat.set i b).set t a
  | _, _ => mat

/-- The elimination loop `for k in 0..n { if k != i && matrix[k][j] { add_rows } }`,
with the index list made explicit. -/
def elimGo (i j : Nat) : List Nat → List (Row F) → List (Row F)
  | [], mat => mat
  | k :: ks, mat =>
    elimGo i j ks (if k ≠ i ∧ rowEntry mat k j then add_rows mat k i j else mat)

def elimColumn (mat : List (Row F)) (i j n : Nat) : List (Row F) :=
  elimGo i j (List.range n) mat

/-- The `while i < n` loop of `gaussian_elimination`, with fuel (the loop
increases `j` every iteration, so fuel `m + 1` always suffices; `none` is
fuel exhaustion, `some none` is the source's `Ok(None)` no-solution return). -/
def geLoop (n m : Nat) : Nat → List (Row F) → Nat → Nat → List Nat →
    Option (Option (List Nat × List (Row F)))
  | 0, _, _, _, _ => none
  | fuel + 1, mat, i, j, fi =>
    if i < n then
      if m ≤ j then some none
      else
        match findPivotRow mat i n j with
        | none =>
          if m ≤ j + 1 then some none
          else geLoop n m fuel mat i (j + 1) fi
        | some t =>
          geLoop n m fuel (elimColumn (listSwap mat i t) i j n) (i + 1) (j + 1) (fi ++ [j])
    else some (some (fi, mat))

/-- `check_matrix`: non-empty, `n ≤ m`, `m > 0`, all rows of length `m`. -/
def check_matrix (matrix : List (List Bool × F)) : Bool :=
  match matrix with
  | [] => false
  | row0 :: _ =>
    let m := row0.1.length
    if matrix.length > m then false
    else if m = 0 then false
    else matrix.all (fun rw => rw.1.length = m)

/-- Result of `gaussian_elimination`: `err` is the `check_matrix` bail
(`Err(..)` in the source), `noSolution` is `Ok(None)` ("matrix is not full
rank" / `SolverNoSolution`), and `solved` is `Ok(Some(..))`: the reduced rows
zipped with their pivot columns. -/
inductive GeResult (F : Type) where
  | err : GeResult F
  | noSolution : GeResult F
  | solved : List (Nat × List Bool × F) → GeResult F
deriving DecidableEq

def gaussian_elimination (matrix : List (List Bool × F)) : GeResult F :=
  if check_matrix matrix then
    let n := matrix.length
    let m := (matrix.headD ([], 0)).1.length
    let mat := matrix.map (fun rt => Row.mk rt.1 rt.2)
    match geLoop n m (m + 1) mat 0 0 [] with
    | none => GeResult.err
    | some none => GeResult.noSolution
    | some (some (fi, mat2)) =>
      GeResult.solved ((fi.zip mat2).map (fun q => (q.1, q.2.values, q.2.target)))
  else GeResult.err

/-- `Σ_{t ≠ p, bits[t]} vr[t]` starting at index `j`: the accumulation of
`adjust_vec_r` (`if *i == j { continue; } if *b { sum += vec_r[j] }`). -/
def sumExcept (vr : List F) (p : Nat) : Nat → List Bool → F
  | _, [] => 0
  | j, b :: bs => (if j ≠ p ∧ b then vr.getD j 0 else 0) + sumExcept vr p (j + 1) bs

/-- `adjust_vec_r` from `src/solver/paxos/mod.rs`:
`vec_r[i] = val + Σ_{j ≠ i, bits[j]} vec_r[j]`, rows processed in order. -/
def adjust_vec_r (equations : List (Nat × List Bool × F)) (vec_r : List F) : List F :=
  equations.foldl (fun vr eq => vr.set eq.1 (eq.2.2 + sumExcept vr eq.1 0 eq.2.1)) vec_r

/-- `Σ_{bits[t]} vr[t]` starting at index `j`: the value a boolean row takes
under an assignment `vr` (the semantics a constraint row is checked against). -/
def rowValFrom (vr : List F) : Nat → List Bool → F
  | _, [] => 0
  | j, b :: bs => (if b then vr.getD j 0 else 0) + rowValFrom vr (j + 1) bs

theorem get?_set_ne {α : Type} (l : List α) (i q : Nat) (v : α) (h : i ≠ q) :
    (l.set i v).get? q = l.get? q := by
  induction l generalizing i q with
  | nil => simp
  | cons a l ih =>
    cases i with
    | zero =>
      cases q with
      | zero => omega
      | succ q => simp
    | succ i =>
      cases q with
      | zero => simp
      | succ q => simpa using ih i q (by omega)

theorem get?_set_self {α : Type} (l : List α) (i : Nat) (v : α) (h : i < l.length) :
    (l.set i v).get? i = some v := by
  induction l generalizing i with
  | nil => simp at h
  | cons a l ih =>
    cases i with
    | zero => simp
    | succ i => simpa using ih i (by simpa using h)

theorem getD_set_ne {α : Type} (l : List α) (i q : Nat) (v d : α) (h : i ≠ q) :
    (l.set i v).getD q d = l.getD q d := by
  induction l generalizing i q with
  | nil => simp
  | cons a l ih =>
    cases i with
    | zero =>
      cases q with
      | zero => omega
      | succ q => simp
    | succ i =>
      cases q with
      | zero => simp
      | succ q => simpa using ih i q (by omega)

theorem getD_set_self {α : Type} (l : List α) (i : Nat) (v d : α) (h : i < l.length) :
    (l.set i v).getD i d = v := by
  induction l generalizing i with
  | nil => simp at h
  | cons a l ih =>
    cases i with
    | zero => simp
    | succ i => simpa using ih i (by simpa using h)

theorem length_mapWithIdx {α β : Type} (f : Nat → α → β) (s : Nat) (l : List α) :
    (mapWithIdx f s l).length = l.length := by
  induction l generalizing s with
  | nil => rfl
  | cons a l ih => simp [mapWithIdx, ih]

theorem get?_mapWithIdx {α β : Type} (f : Nat → α → β) (s : Nat) (l : List α) (c : Nat) :
    (mapWithIdx f s l).get? c = (l.get? c).map (f (s + c)) := by
  induction l generalizing s c with
  | nil => simp [mapWithIdx]
  | cons a l ih =>
    cases c with
    | zero => simp [mapWithIdx]
    | succ c =>
      simp only [mapWithIdx, List.get?_cons_succ]
      rw [ih (s + 1) c]
      have h : s + 1 + c = s + (c + 1) := by omega
      rw [h]

theorem rowValFrom_eq_sum (vr : List F) (bits : List Bool) (j : Nat) :
    rowValFrom vr j bits = ∑ t ∈ Finset.range bits.length,
      (if bits.getD t false then vr.getD (j + t) 0 else 0) := by
  induction bits generalizing j with
  | nil => simp [rowValFrom]
  | cons b bs ih =>
    simp only [rowValFrom, List.length_cons]
    rw [ih (j + 1), Finset.sum_range_succ']
    simp only [List.getD_cons_zero, List.getD_cons_succ, Nat.add_zero]
    have h : ∀ t : Nat, j + 1 + t = j + (t + 1) := fun t => by omega
    simp only [h]
    exact (add_comm _ _)

theorem sumExcept_eq_sum (vr : List F) (p : Nat) (bits : List Bool) (j : Nat) :
    sumExcept vr p j bits = ∑ t ∈ Finset.range bits.length,
      (if j + t ≠ p ∧ bits.getD t false then vr.getD (j + t) 0 else 0) := by
  induction bits generalizing j with
  | nil => simp [sumExcept]
  | cons b bs ih =>
    simp only [sumExcept, List.length_cons]
    rw [ih (j + 1), Finset.sum_range_succ']
    simp only [List.getD_cons_zero, List.getD_cons_succ, Nat.add_zero]
    have h : ∀ t : Nat, j + 1 + t = j + (t + 1) := fun t => by omega
    simp only [h]
    exact (add_comm _ _)

theorem rowVal_pivot_split [CharP F 2] (vr : List F) (bits : List Bool) (p : Nat)
    (hp : bits.getD p false = true) (hplen : p < bits.length) :
    rowValFrom vr 0 bits = vr.getD p 0 + sumExcept vr p 0 bits := by
  rw [rowValFrom_eq_sum, sumExcept_eq_sum]
  simp only [zero_add]
  have hmem : p ∈ Finset.range bits.length := Finset.mem_range.mpr hplen
  rw [← Finset.sum_erase_add _ _ hmem]
  rw [← Finset.sum_erase_add _ (fun t => if t ≠ p ∧ bits.getD t false then vr.getD t 0 else 0) hmem]
  rw [if_pos hp]
  rw [if_neg (by simp)]
  rw [add_zero]
  rw [add_comm (vr.getD p 0)]
  congr 1
  apply Finset.sum_congr rfl
  intro t ht
  have htp : t ≠ p := Finset.ne_of_mem_erase ht
  by_cases hb : bits.getD t false
  · rw [if_pos hb, if_pos ⟨htp, hb⟩]
  · rw [if_neg hb, if_neg (by tauto)]

theorem ite_xor_split [CharP F 2] (a b : Bool) (v : F) :
    (if xor a b then v else 0) = (if a then v else 0) + (if b then v else 0) := by
  cases a <;> cases b <;> simp [CharTwo.add_self_eq_zero]

theorem getD_eq_option {α : Type} (l : List α) (c : Nat) (d : α) :
    l.getD c d = (l.get? c).getD d := by
  induction l generalizing c with
  | nil => simp
  | cons a l ih =>
    cases c with
    | zero => simp
    | succ c => simpa using ih c

theorem lt_length_of_get?_eq_some {α : Type} {l : List α} {n : Nat} {a : α}
    (h : l.get? n = some a) : n < l.length := by
  by_contra hn
  rw [List.get?_eq_none.mpr (by omega)] at h
  exact Option.noConfusion h

theorem exists_get?_eq_some {α : Type} (l : List α) (n : Nat) (h : n < l.length) :
    ∃ a, l.get? n = some a := by
  cases hg : l.get? n
  · rw [List.get?_eq_none] at hg
    omega
  · exact ⟨_, rfl⟩

/-- Satisfaction of every row of a boolean matrix by an assignment `vr`. -/
def SatAll (vr : List F) (mat : List (Row F)) : Prop :=
  ∀ rq ∈ mat, rowValFrom vr 0 rq.values = rq.target

theorem length_add_rows (mat : List (Row F)) (k i j : Nat) :
    (add_rows mat k i j).length = mat.length := by
  unfold add_rows
  cases mat.get? k <;> cases mat.get? i <;> simp

theorem add_rows_get?_ne (mat : List (Row F)) (k i j l : Nat) (h : l ≠ k) :
    (add_rows mat k i j).get? l = mat.get? l := by
  unfold add_rows
  cases hk : mat.get? k <;> cases hi2 : mat.get? i <;> simp only
  rw [get?_set_ne _ _ _ _ (by omega)]

theorem add_rows_get?_self (mat : List (Row F)) (k i j : Nat) (rk ri : Row F)
    (hk : mat.get? k = some rk) (hi2 : mat.get? i = some ri) :
    (add_rows mat k i j).get? k = some
      ⟨mapWithIdx (fun idx b => if j ≤ idx then xor b (ri.values.getD idx false) else b)
          0 rk.values,
        rk.target + ri.target⟩ := by
  unfold add_rows
  rw [hk, hi2]
  exact get?_set_self _ _ _ (lt_length_of_get?_eq_some hk)

theorem rowVal_mapWithIdx_add [CharP F 2] (vr : List F) (rkv riv : List Bool) (j : Nat)
    (hlen : riv.length = rkv.length)
    (hLZ : ∀ c, c < j → riv.getD c false = false) :
    rowValFrom vr 0
        (mapWithIdx (fun idx b => if j ≤ idx then xor b (riv.getD idx false) else b) 0 rkv)
      = rowValFrom vr 0 rkv + rowValFrom vr 0 riv := by
  rw [rowValFrom_eq_sum, rowValFrom_eq_sum, rowValFrom_eq_sum]
  rw [length_mapWithIdx, hlen, ← Finset.sum_add_distrib]
  apply Finset.sum_congr rfl
  intro t ht
  rw [Finset.mem_range] at ht
  have hget : (mapWithIdx (fun idx b =>
      if j ≤ idx then xor b (riv.getD idx false) else b) 0 rkv).getD t false
      = (if j ≤ t then xor (rkv.getD t false) (riv.getD t false) else rkv.getD t false) := by
    rw [getD_eq_option, get?_mapWithIdx]
    rw [Paxos.get?_eq_some_getD rkv false t ht]
    simp
  rw [hget]
  simp only [zero_add]
  by_cases hj : j ≤ t
  · rw [if_pos hj]
    exact ite_xor_split _ _ _
  · rw [if_neg hj]
    have hz : riv.getD t false = false := hLZ t (by omega)
    rw [hz, if_neg Bool.false_ne_true, add_zero]

theorem SatAll_add_rows_backward [CharP F 2] (mat : List (Row F)) (k i j : Nat)
    (rk ri : Row F) (hk : mat.get? k = some rk) (hi2 : mat.get? i = some ri) (hki : k ≠ i)
    (hlen : ri.values.length = rk.values.length)
    (hLZ : ∀ c, c < j → ri.values.getD c false = false)
    (vr : List F) (h : SatAll vr (add_rows mat k i j)) : SatAll vr mat := by
  intro rq hmem
  obtain ⟨l, hl⟩ := List.mem_iff_get?.mp hmem
  by_cases hlk : l = k
  · subst hlk
    rw [hk] at hl
    have hrkq : rk = rq := by injection hl
    subst hrkq
    have hnew := add_rows_get?_self mat l i j rk ri hk hi2
    have hsatnew := h _ (List.mem_iff_get?.mpr ⟨l, hnew⟩)
    have hrowi : (add_rows mat l i j).get? i = some ri := by
      rw [add_rows_get?_ne mat l i j i (by omega)]
      exact hi2
    have hsati := h _ (List.mem_iff_get?.mpr ⟨i, hrowi⟩)
    simp only at hsatnew hsati
    rw [rowVal_mapWithIdx_add vr rk.values ri.values j hlen hLZ, hsati] at hsatnew
    exact add_right_cancel hsatnew
  · have hl2 : (add_rows mat k i j).get? l = some rq := by
      rw [add_rows_get?_ne mat k i j l hlk]
      exact hl
    exact h rq (List.mem_iff_get?.mpr ⟨l, hl2⟩)

theorem length_listSwap {α : Type} (mat : List α) (i t : Nat) :
    (listSwap mat i t).length = mat.length := by
  unfold listSwap
  cases mat.get? i <;> cases mat.get? t <;> simp

theorem listSwap_get? {α : Type} (mat : List α) (i t q : Nat)
    (hi : i < mat.length) (ht : t < mat.length) :
    (listSwap mat i t).get? q =
      if q = t then mat.get? i else if q = i then mat.get? t else mat.get? q := by
  obtain ⟨a, ha⟩ := exists_get?_eq_some mat i hi
  obtain ⟨b, hb⟩ := exists_get?_eq_some mat t ht
  unfold listSwap
  rw [ha, hb]
  by_cases hqt : q = t
  · subst hqt
    rw [if_pos rfl, get?_set_self _ _ _ (by rw [List.length_set]; exact ht)]
  · rw [if_neg hqt, get?_set_ne _ _ _ _ (fun hh => hqt hh.symm)]
    by_cases hqi : q = i
    · subst hqi
      rw [if_pos rfl, get?_set_self _ _ _ hi]
    · rw [if_neg hqi, get?_set_ne _ _ _ _ (fun hh => hqi hh.symm)]

theorem listSwap_mem {α : Type} (mat : List α) (i t : Nat)
    (hi : i < mat.length) (ht : t < mat.length) (rq : α) :
    rq ∈ listSwap mat i t ↔ rq ∈ mat := by
  constructor
  · intro h
    obtain ⟨l, hl⟩ := List.mem_iff_get?.mp h
    rw [listSwap_get? mat i t l hi ht] at hl
    split_ifs at hl <;> exact List.mem_iff_get?.mpr ⟨_, hl⟩
  · intro h
    obtain ⟨l, hl⟩ := List.mem_iff_get?.mp h
    by_cases hli : l = i
    · subst hli
      refine List.mem_iff_get?.mpr ⟨t, ?_⟩
      rw [listSwap_get? mat l t t hi ht, if_pos rfl]
      exact hl
    · by_cases hlt : l = t
      · subst hlt
        refine List.mem_iff_get?.mpr ⟨i, ?_⟩
        rw [listSwap_get? mat i l i hi ht]
        by_cases hit : i = l
        · rw [if_pos hit, hit]
          exact hl
        · rw [if_neg hit, if_pos rfl]
          exact hl
      · refine List.mem_iff_get?.mpr ⟨l, ?_⟩
        rw [listSwap_get? mat i t l hi ht, if_neg hlt, if_neg hli]
        exact hl

theorem SatAll_listSwap {F2 : Type} [CommRing F2] (mat : List (Row F2)) (i t : Nat)
    (hi : i < mat.length) (ht : t < mat.length) (vr : List F2) :
    SatAll vr (listSwap mat i t) ↔ SatAll vr mat := by
  unfold SatAll
  constructor
  · intro h rq hm
    exact h rq ((listSwap_mem mat i t hi ht rq).mpr hm)
  · intro h rq hm
    exact h rq ((listSwap_mem mat i t hi ht rq).mp hm)

theorem add_rows_eq_of_none (mat : List (Row F)) (k i j : Nat)
    (h : mat.get? k = none ∨ mat.get? i = none) : add_rows mat k i j = mat := by
  unfold add_rows
  rcases h with h | h <;> rw [h] <;> cases mat.get? i <;> cases mat.get? k <;> simp

theorem add_rows_rowlen (mat : List (Row F)) (k i j : Nat) (m : Nat)
    (h : ∀ rq ∈ mat, rq.values.length = m) :
    ∀ rq ∈ add_rows mat k i j, rq.values.length = m := by
  intro rq hmem
  obtain ⟨l, hl⟩ := List.mem_iff_get?.mp hmem
  by_cases hlk : l = k
  · subst hlk
    cases hk : mat.get? l with
    | none =>
      rw [add_rows_eq_of_none mat l i j (Or.inl hk)] at hl
      exact h rq (List.mem_iff_get?.mpr ⟨l, hl⟩)
    | some rk =>
      cases hi2 : mat.get? i with
      | none =>
        rw [add_rows_eq_of_none mat l i j (Or.inr hi2)] at hl
        exact h rq (List.mem_iff_get?.mpr ⟨l, hl⟩)
      | some ri =>
        rw [add_rows_get?_self mat l i j rk ri hk hi2] at hl
        have hrq : rq = ⟨mapWithIdx (fun idx b =>
            if j ≤ idx then xor b (ri.values.getD idx false) else b) 0 rk.values,
            rk.target + ri.target⟩ := by
          injection hl with h2
          exact h2.symm
        subst hrq
        show (mapWithIdx _ 0 rk.values).length = m
        rw [length_mapWithIdx]
        exact h rk (List.mem_iff_get?.mpr ⟨l, hk⟩)
  · rw [add_rows_get?_ne mat k i j l hlk] at hl
    exact h rq (List.mem_iff_get?.mpr ⟨l, hl⟩)

theorem rowEntry_add_rows_lt (mat : List (Row F)) (k i j l c : Nat) (hc : c < j) :
    rowEntry (add_rows mat k i j) l c = rowEntry mat l c := by
  by_cases hlk : l = k
  · subst hlk
    cases hk : mat.get? l with
    | none => rw [add_rows_eq_of_none mat l i j (Or.inl hk)]
    | some rk =>
      cases hi2 : mat.get? i with
      | none => rw [add_rows_eq_of_none mat l i j (Or.inr hi2)]
      | some ri =>
        unfold rowEntry
        rw [add_rows_get?_self mat l i j rk ri hk hi2, hk]
        simp only
        rw [getD_eq_option, get?_mapWithIdx, getD_eq_option rk.values]
        cases rk.values.get? c with
        | none => rfl
        | some v => simp [Nat.not_le_of_lt hc]
  · unfold rowEntry
    rw [add_rows_get?_ne mat k i j l hlk]

theorem rowEntry_add_rows_self (mat : List (Row F)) (k i j c : Nat) (rk ri : Row F)
    (hk : mat.get? k = some rk) (hi2 : mat.get? i = some ri)
    (hlen : ri.values.length = rk.values.length) :
    rowEntry (add_rows mat k i j) k c =
      if j ≤ c then xor (rowEntry mat k c) (rowEntry mat i c) else rowEntry mat k c := by
  unfold rowEntry
  rw [add_rows_get?_self mat k i j rk ri hk hi2, hk, hi2]
  simp only
  rw [getD_eq_option, get?_mapWithIdx, getD_eq_option rk.values]
  cases hgc : rk.values.get? c with
  | none =>
    have hcb : rk.values.length ≤ c := by
      rw [← List.get?_eq_none]
      exact hgc
    have hib : ri.values.getD c false = false := by
      rw [getD_eq_option, List.get?_eq_none.mpr (by omega)]
      rfl
    simp only [Nat.zero_add]
    rw [hib]
    by_cases hjc : j ≤ c
    · rw [if_pos hjc]
      rfl
    · rw [if_neg hjc]
      rfl
  | some v => simp

theorem length_elimGo (i j : Nat) (ks : List Nat) (mat : List (Row F)) :
    (elimGo i j ks mat).length = mat.length := by
  induction ks generalizing mat with
  | nil => rfl
  | cons k ks ih =>
    show (elimGo i j ks _).length = _
    rw [ih]
    by_cases hc : k ≠ i ∧ rowEntry mat k j
    · rw [if_pos hc, length_add_rows]
    · rw [if_neg hc]

theorem elimGo_rowlen (i j : Nat) (ks : List Nat) (mat : List (Row F)) (m : Nat)
    (h : ∀ rq ∈ mat, rq.values.length = m) :
    ∀ rq ∈ elimGo i j ks mat, rq.values.length = m := by
  induction ks generalizing mat with
  | nil => exact h
  | cons k ks ih =>
    show ∀ rq ∈ elimGo i j ks _, rq.values.length = m
    apply ih
    by_cases hc : k ≠ i ∧ rowEntry mat k j
    · rw [if_pos hc]
      exact add_rows_rowlen mat k i j m h
    · rw [if_neg hc]
      exact h

theorem elimGo_get?_preserved (i j : Nat) (ks : List Nat) (mat : List (Row F)) (l : Nat)
    (hl : l ∉ ks ∨ l = i) :
    (elimGo i j ks mat).get? l = mat.get? l := by
  induction ks generalizing mat with
  | nil => rfl
  | cons k ks ih =>
    show (elimGo i j ks _).get? l = _
    rw [ih _ (by
      rcases hl with h | h
      · exact Or.inl (fun hm => h (List.mem_cons_of_mem k hm))
      · exact Or.inr h)]
    by_cases hc : k ≠ i ∧ rowEntry mat k j
    · rw [if_pos hc]
      apply add_rows_get?_ne
      rcases hl with h | h
      · intro he
        exact h (he ▸ List.mem_cons_self k ks)
      · omega
    · rw [if_neg hc]

theorem rowEntry_elimGo_preserved (i j : Nat) (ks : List Nat) (mat : List (Row F))
    (l c : Nat) (hl : l ∉ ks ∨ l = i) :
    rowEntry (elimGo i j ks mat) l c = rowEntry mat l c := by
  unfold rowEntry
  rw [elimGo_get?_preserved i j ks mat l hl]

theorem rowEntry_elimGo_lt (i j : Nat) (ks : List Nat) (mat : List (Row F))
    (l c : Nat) (hc : c < j) :
    rowEntry (elimGo i j ks mat) l c = rowEntry mat l c := by
  induction ks generalizing mat with
  | nil => rfl
  | cons k ks ih =>
    show rowEntry (elimGo i j ks _) l c = _
    rw [ih]
    by_cases hcond : k ≠ i ∧ rowEntry mat k j
    · rw [if_pos hcond, rowEntry_add_rows_lt mat k i j l c hc]
    · rw [if_neg hcond]

theorem elimGo_entry_j_false (i j : Nat) (ks : List Nat)
    (mat : List (Row F)) (m : Nat) (hnd : ks.Nodup)
    (hks : ∀ k ∈ ks, k < mat.length) (hil : i < mat.length)
    (hij : rowEntry mat i j = true)
    (hrlen : ∀ rq ∈ mat, rq.values.length = m) :
    ∀ k ∈ ks, k ≠ i → rowEntry (elimGo i j ks mat) k j = false := by
  induction ks generalizing mat with
  | nil =>
    intro k hk
    simp at hk
  | cons k0 ks ih =>
    have hk0len : k0 < mat.length := hks k0 (List.mem_cons_self k0 ks)
    obtain ⟨rk0, hrk0⟩ := exists_get?_eq_some mat k0 hk0len
    obtain ⟨ri0, hri0⟩ := exists_get?_eq_some mat i hil
    have hMlen : (if k0 ≠ i ∧ rowEntry mat k0 j then add_rows mat k0 i j
        else mat).length = mat.length := by
      by_cases hc : k0 ≠ i ∧ rowEntry mat k0 j
      · rw [if_pos hc, length_add_rows]
      · rw [if_neg hc]
    have hMrow : ∀ l c, l = i ∨ l ≠ k0 → rowEntry (if k0 ≠ i ∧ rowEntry mat k0 j
        then add_rows mat k0 i j else mat) l c = rowEntry mat l c := by
      intro l c hcase
      by_cases hc : k0 ≠ i ∧ rowEntry mat k0 j
      · rw [if_pos hc]
        unfold rowEntry
        rw [add_rows_get?_ne mat k0 i j l (by
          rcases hcase with h | h
          · subst h
            exact fun hh => hc.1 hh.symm
          · exact h)]
      · rw [if_neg hc]
    have hMrlen : ∀ rq ∈ (if k0 ≠ i ∧ rowEntry mat k0 j then add_rows mat k0 i j
        else mat), rq.values.length = m := by
      by_cases hc : k0 ≠ i ∧ rowEntry mat k0 j
      · rw [if_pos hc]
        exact add_rows_rowlen mat k0 i j m hrlen
      · rw [if_neg hc]
        exact hrlen
    intro k hk hki
    rcases List.mem_cons.mp hk with hkk | hkk
    · subst hkk
      show rowEntry (elimGo i j ks (if k ≠ i ∧ rowEntry mat k j
          then add_rows mat k i j else mat)) k j = false
      rw [rowEntry_elimGo_preserved i j ks _ k j (Or.inl (List.nodup_cons.mp hnd).1)]
      by_cases hc : rowEntry mat k j = true
      · rw [if_pos ⟨hki, hc⟩]
        rw [rowEntry_add_rows_self mat k i j j rk0 ri0 hrk0 hri0
          (by rw [hrlen ri0 (List.mem_iff_get?.mpr ⟨i, hri0⟩),
                  hrlen rk0 (List.mem_iff_get?.mpr ⟨k, hrk0⟩)])]
        rw [if_pos (le_refl j), hc, hij]
        rfl
      · rw [if_neg (fun hand => hc hand.2)]
        exact (Bool.not_eq_true _).mp hc
    · show rowEntry (elimGo i j ks (if k0 ≠ i ∧ rowEntry mat k0 j
          then add_rows mat k0 i j else mat)) k j = false
      apply ih _ (List.nodup_cons.mp hnd).2
        (fun k2 hk2 => by rw [hMlen]; exact hks k2 (List.mem_cons_of_mem k0 hk2))
        (by rw [hMlen]; exact hil)
        (by rw [hMrow i j (Or.inl rfl)]; exact hij)
        hMrlen k hkk hki

theorem SatAll_elimGo_backward [CharP F 2] (i j : Nat) (ks : List Nat)
    (mat : List (Row F)) (m : Nat)
    (hil : i < mat.length)
    (hrlen : ∀ rq ∈ mat, rq.values.length = m)
    (hLZi : ∀ c, c < j → rowEntry mat i c = false)
    (vr : List F) (h : SatAll vr (elimGo i j ks mat)) : SatAll vr mat := by
  induction ks generalizing mat with
  | nil => exact h
  | cons k0 ks ih =>
    obtain ⟨ri0, hri0⟩ := exists_get?_eq_some mat i hil
    have hMlen : (if k0 ≠ i ∧ rowEntry mat k0 j then add_rows mat k0 i j
        else mat).length = mat.length := by
      by_cases hc : k0 ≠ i ∧ rowEntry mat k0 j
      · rw [if_pos hc, length_add_rows]
      · rw [if_neg hc]
    have hMrowi : ∀ c, rowEntry (if k0 ≠ i ∧ rowEntry mat k0 j
        then add_rows mat k0 i j else mat) i c = rowEntry mat i c := by
      intro c
      by_cases hc : k0 ≠ i ∧ rowEntry mat k0 j
      · rw [if_pos hc]
        unfold rowEntry
        rw [add_rows_get?_ne mat k0 i j i (fun hh => hc.1 hh.symm)]
      · rw [if_neg hc]
    have hMrlen : ∀ rq ∈ (if k0 ≠ i ∧ rowEntry mat k0 j then add_rows mat k0 i j
        else mat), rq.values.length = m := by
      by_cases hc : k0 ≠ i ∧ rowEntry mat k0 j
      · rw [if_pos hc]
        exact add_rows_rowlen mat k0 i j m hrlen
      · rw [if_neg hc]
        exact hrlen
    have h2 : SatAll vr (if k0 ≠ i ∧ rowEntry mat k0 j then add_rows mat k0 i j
        else mat) := by
      apply ih _ (by rw [hMlen]; exact hil) hMrlen
        (fun c hcj => by rw [hMrowi c]; exact hLZi c hcj)
      exact h
    by_cases hc : k0 ≠ i ∧ rowEntry mat k0 j
    · rw [if_pos hc] at h2
      cases hk0 : mat.get? k0 with
      | none =>
        rw [add_rows_eq_of_none mat k0 i j (Or.inl hk0)] at h2
        exact h2
      | some rk0 =>
        apply SatAll_add_rows_backward mat k0 i j rk0 ri0 hk0 hri0 hc.1
          (by rw [hrlen ri0 (List.mem_iff_get?.mpr ⟨i, hri0⟩),
                  hrlen rk0 (List.mem_iff_get?.mpr ⟨k0, hk0⟩)])
          (fun c hcj => by
            have := hLZi c hcj
            unfold rowEntry at this
            rw [hri0] at this
            exact this)
          vr h2
    · rw [if_neg hc] at h2
      exact h2

theorem rowEntry_listSwap (mat : List (Row F)) (i t q c : Nat)
    (hi : i < mat.length) (ht : t < mat.length) :
    rowEntry (listSwap mat i t) q c =
      if q = t then rowEntry mat i c
      else if q = i then rowEntry mat t c
      else rowEntry mat q c := by
  unfold rowEntry
  rw [listSwap_get? mat i t q hi ht]
  by_cases h1 : q = t
  · rw [if_pos h1, if_pos h1]
  · rw [if_neg h1, if_neg h1]
    by_cases h2 : q = i
    · rw [if_pos h2, if_pos h2]
    · rw [if_neg h2, if_neg h2]

theorem findPivotRow_none (mat : List (Row F)) (i n j : Nat)
    (h : findPivotRow mat i n j = none) :
    ∀ k, i ≤ k → k < n → rowEntry mat k j = false := by
  intro k hik hkn
  have hmem : k ∈ List.range' i (n - i) := by
    rw [List.mem_range'_1]
    omega
  have h2 := List.find?_eq_none.mp h k hmem
  exact (Bool.not_eq_true _).mp h2

theorem findPivotRow_some (mat : List (Row F)) (i n j t : Nat)
    (h : findPivotRow mat i n j = some t) :
    i ≤ t ∧ t < n ∧ rowEntry mat t j = true := by
  have h1 := List.find?_some h
  have h2 := List.mem_of_find?_eq_some h
  rw [List.mem_range'_1] at h2
  exact ⟨h2.1, by omega, h1⟩

/-- The invariant of the `while i < n` loop of `gaussian_elimination`,
relative to the input matrix `mat0`. -/
structure LoopInv (mat0 : List (Row F)) (n m : Nat) (mat : List (Row F))
    (i j : Nat) (fi : List Nat) : Prop where
  hn : mat.length = n
  hrow : ∀ rq ∈ mat, rq.values.length = m
  hi : i ≤ n
  hfi : fi.length = i
  hpivlt : ∀ p ∈ fi, p < j
  pv1 : ∀ k p, fi.get? k = some p → rowEntry mat k p = true
  pv2 : ∀ k p, fi.get? k = some p → ∀ l, l < n → l ≠ k → rowEntry mat l p = false
  lz : ∀ k, i ≤ k → k < n → ∀ c, c < j → rowEntry mat k c = false
  ss : ∀ vr : List F, SatAll vr mat → SatAll vr mat0

theorem geLoop_spec [CharP F 2] (mat0 : List (Row F)) (n m : Nat) :
    ∀ (fuel : Nat) (mat : List (Row F)) (i j : Nat) (fi fi2 : List Nat)
      (mat2 : List (Row F)),
      LoopInv mat0 n m mat i j fi → j ≤ m →
      geLoop n m fuel mat i j fi = some (some (fi2, mat2)) →
      ∃ j2, j2 ≤ m ∧ LoopInv mat0 n m mat2 n j2 fi2 := by
  intro fuel
  induction fuel with
  | zero =>
    intro mat i j fi fi2 mat2 _ _ hrun
    simp [geLoop] at hrun
  | succ fuel ih =>
    intro mat i j fi fi2 mat2 inv hjm hrun
    simp only [geLoop] at hrun
    by_cases hin : i < n
    · rw [if_pos hin] at hrun
      by_cases hmj : m ≤ j
      · rw [if_pos hmj] at hrun
        simp at hrun
      · rw [if_neg hmj] at hrun
        cases hfp : findPivotRow mat i n j with
        | none =>
          rw [hfp] at hrun
          by_cases hmj1 : m ≤ j + 1
          · rw [if_pos hmj1] at hrun
            simp at hrun
          · rw [if_neg hmj1] at hrun
            have hz := findPivotRow_none mat i n j hfp
            refine ih mat i (j + 1) fi fi2 mat2 ?_ (by omega) hrun
            exact { hn := inv.hn, hrow := inv.hrow, hi := inv.hi, hfi := inv.hfi
                    hpivlt := fun p hp => Nat.lt_succ_of_lt (inv.hpivlt p hp)
                    pv1 := inv.pv1, pv2 := inv.pv2
                    lz := fun k hik hkn c hc => by
                      rcases Nat.lt_or_ge c j with hcj | hcj
                      · exact inv.lz k hik hkn c hcj
                      · have hcj2 : c = j := by omega
                        subst hcj2
                        exact hz k hik hkn
                    ss := inv.ss }
        | some t =>
          rw [hfp] at hrun
          obtain ⟨hit, htn, hentry⟩ := findPivotRow_some mat i n j t hfp
          have hiL : i < mat.length := by rw [inv.hn]; exact hin
          have htL : t < mat.length := by rw [inv.hn]; exact htn
          have h1len : (listSwap mat i t).length = mat.length := length_listSwap mat i t
          have h1row : ∀ rq ∈ listSwap mat i t, rq.values.length = m :=
            fun rq hq => inv.hrow rq ((listSwap_mem mat i t hiL htL rq).mp hq)
          have h1entry : ∀ q c, rowEntry (listSwap mat i t) q c =
              if q = t then rowEntry mat i c
              else if q = i then rowEntry mat t c
              else rowEntry mat q c := fun q c => rowEntry_listSwap mat i t q c hiL htL
          have h1ij : rowEntry (listSwap mat i t) i j = true := by
            rw [h1entry]
            by_cases hitq : i = t
            · rw [if_pos hitq, hitq]
              exact hentry
            · rw [if_neg hitq, if_pos rfl]
              exact hentry
          have h1lz : ∀ k, i ≤ k → k < n → ∀ c, c < j →
              rowEntry (listSwap mat i t) k c = false := by
            intro k hik hkn c hc
            rw [h1entry]
            by_cases hkt : k = t
            · rw [if_pos hkt]
              exact inv.lz i (le_refl i) hin c hc
            · rw [if_neg hkt]
              by_cases hki : k = i
              · rw [if_pos hki]
                exact inv.lz t hit htn c hc
              · rw [if_neg hki]
                exact inv.lz k hik hkn c hc
          have h1lo : ∀ q c, q < i → rowEntry (listSwap mat i t) q c = rowEntry mat q c := by
            intro q c hq
            rw [h1entry, if_neg (by omega), if_neg (by omega)]
          have h1iL : i < (listSwap mat i t).length := by rw [h1len]; exact hiL
          set matE := elimGo i j (List.range n) (listSwap mat i t) with hmatE
          have hElen : matE.length = n := by
            rw [hmatE, length_elimGo, h1len, inv.hn]
          have hErow : ∀ rq ∈ matE, rq.values.length = m :=
            elimGo_rowlen i j (List.range n) (listSwap mat i t) m h1row
          have hElt : ∀ l c, c < j → rowEntry matE l c = rowEntry (listSwap mat i t) l c :=
            fun l c hc => rowEntry_elimGo_lt i j (List.range n) (listSwap mat i t) l c hc
          have hErowi : ∀ c, rowEntry matE i c = rowEntry (listSwap mat i t) i c :=
            fun c => rowEntry_elimGo_preserved i j (List.range n) (listSwap mat i t) i c
              (Or.inr rfl)
          have hEj : ∀ l, l < n → l ≠ i → rowEntry matE l j = false := by
            intro l hln hli
            exact elimGo_entry_j_false i j (List.range n) (listSwap mat i t) m
              (List.nodup_range n)
              (fun k2 hk2 => by rw [h1len, inv.hn]; exact List.mem_range.mp hk2)
              h1iL h1ij h1row l (List.mem_range.mpr hln) hli
          have hEij : rowEntry matE i j = true := by
            rw [hErowi]
            exact h1ij
          have hEss : ∀ vr, SatAll vr matE → SatAll vr mat0 := by
            intro vr hsat
            apply inv.ss
            apply (SatAll_listSwap mat i t hiL htL vr).mp
            exact SatAll_elimGo_backward i j (List.range n) (listSwap mat i t) m
              h1iL h1row (fun c hc => h1lz i (le_refl i) hin c hc) vr hsat
          refine ih matE (i + 1) (j + 1) (fi ++ [j]) fi2 mat2 ?_ (by omega) hrun
          refine { hn := hElen, hrow := hErow, hi := by omega
                   hfi := by rw [List.length_append, inv.hfi]; rfl
                   hpivlt := ?_, pv1 := ?_, pv2 := ?_, lz := ?_, ss := hEss }
          · intro p hp
            rcases List.mem_append.mp hp with hp | hp
            · exact Nat.lt_succ_of_lt (inv.hpivlt p hp)
            · simp at hp
              omega
          · intro k p hkp
            rcases Nat.lt_or_ge k fi.length with hkfi | hkfi
            · rw [List.get?_append hkfi] at hkp
              have hplt : p < j := inv.hpivlt p (List.mem_iff_get?.mpr ⟨k, hkp⟩)
              have hklt : k < i := by rw [← inv.hfi]; exact hkfi
              rw [hElt k p hplt, h1lo k p hklt]
              exact inv.pv1 k p hkp
            · rw [List.get?_append_right hkfi] at hkp
              have hk0 : k - fi.length = 0 := by
                rcases Nat.lt_or_ge (k - fi.length) 1 with h0 | h0
                · omega
                · rw [List.get?_eq_none.mpr (by simpa using h0)] at hkp
                  exact Option.noConfusion hkp
              rw [hk0] at hkp
              simp at hkp
              subst hkp
              have hfiL : fi.length = i := inv.hfi
              have hki : k = i := by omega
              subst hki
              exact hEij
          · intro k p hkp l hln hlk
            rcases Nat.lt_or_ge k fi.length with hkfi | hkfi
            · rw [List.get?_append hkfi] at hkp
              have hplt : p < j := inv.hpivlt p (List.mem_iff_get?.mpr ⟨k, hkp⟩)
              have hklt : k < i := by rw [← inv.hfi]; exact hkfi
              rw [hElt l p hplt, h1entry]
              by_cases hlt : l = t
              · rw [if_pos hlt]
                exact inv.pv2 k p hkp i hin (by omega)
              · rw [if_neg hlt]
                by_cases hli : l = i
                · rw [if_pos hli]
                  exact inv.pv2 k p hkp t htn (by omega)
                · rw [if_neg hli]
                  exact inv.pv2 k p hkp l hln hlk
            · rw [List.get?_append_right hkfi] at hkp
              have hk0 : k - fi.length = 0 := by
                rcases Nat.lt_or_ge (k - fi.length) 1 with h0 | h0
                · omega
                · rw [List.get?_eq_none.mpr (by simpa using h0)] at hkp
                  exact Option.noConfusion hkp
              rw [hk0] at hkp
              simp at hkp
              subst hkp
              have hfiL : fi.length = i := inv.hfi
              have hki : k = i := by omega
              subst hki
              exact hEj l hln hlk
          · intro k hik hkn c hc
            rcases Nat.lt_or_ge c j with hcj | hcj
            · rw [hElt k c hcj]
              exact h1lz k (by omega) hkn c hcj
            · have hcj2 : c = j := by omega
              subst hcj2
              exact hEj k hkn (by omega)
    · rw [if_neg hin] at hrun
      simp only [Option.some_inj, Prod.mk.injEq] at hrun
      obtain ⟨rfl, rfl⟩ := hrun
      have hieq : i = n := by
        have := inv.hi
        omega
      subst hieq
      exact ⟨j, hjm, inv⟩

theorem adjust_length (eqs : List (Nat × List Bool × F)) (w : List F) :
    (adjust_vec_r eqs w).length = w.length := by
  induction eqs generalizing w with
  | nil => rfl
  | cons e eqs ih =>
    show (adjust_vec_r eqs _).length = _
    rw [ih, List.length_set]

theorem adjust_preserve (eqs : List (Nat × List Bool × F)) (w : List F) (q : Nat)
    (d : F) (hq : ∀ e ∈ eqs, e.1 ≠ q) :
    (adjust_vec_r eqs w).getD q d = w.getD q d := by
  induction eqs generalizing w with
  | nil => rfl
  | cons e eqs ih =>
    show (adjust_vec_r eqs _).getD q d = _
    rw [ih _ (fun e2 he2 => hq e2 (List.mem_cons_of_mem e he2))]
    exact getD_set_ne _ _ _ _ _ (hq e (List.mem_cons_self e eqs))

theorem sumExcept_set_self (w : List F) (p : Nat) (v : F) (bits : List Bool) (j : Nat) :
    sumExcept (w.set p v) p j bits = sumExcept w p j bits := by
  induction bits generalizing j with
  | nil => rfl
  | cons b bs ih =>
    simp only [sumExcept]
    rw [ih (j + 1)]
    congr 1
    by_cases hc : j ≠ p ∧ b
    · rw [if_pos hc, if_pos hc, getD_set_ne _ _ _ _ _ (fun hh => hc.1 hh.symm)]
    · rw [if_neg hc, if_neg hc]

theorem rowVal_congr (w1 w2 : List F) (bits : List Bool)
    (h : ∀ t, t < bits.length → bits.getD t false = true → w1.getD t 0 = w2.getD t 0) :
    rowValFrom w1 0 bits = rowValFrom w2 0 bits := by
  rw [rowValFrom_eq_sum, rowValFrom_eq_sum]
  apply Finset.sum_congr rfl
  intro t ht
  rw [Finset.mem_range] at ht
  by_cases hb : bits.getD t false = true
  · rw [if_pos hb, if_pos hb]
    simp only [Nat.zero_add]
    exact h t ht hb
  · rw [if_neg hb, if_neg hb]

theorem adjust_correct [CharP F 2] (eqs : List (Nat × List Bool × F)) (m : Nat)
    (hbits : ∀ e ∈ eqs, e.2.1.length = m ∧ e.1 < m ∧ e.2.1.getD e.1 false = true)
    (hexcl : ∀ k l ek el, eqs.get? k = some ek → eqs.get? l = some el → k ≠ l →
      ek.2.1.getD el.1 false = false)
    (vr : List F) (hvr : vr.length = m) :
    ∀ e ∈ eqs, rowValFrom (adjust_vec_r eqs vr) 0 e.2.1 = e.2.2 := by
  induction eqs generalizing vr with
  | nil =>
    intro e he
    simp at he
  | cons e0 eqs ih =>
    have hstep : adjust_vec_r (e0 :: eqs) vr =
        adjust_vec_r eqs (vr.set e0.1 (e0.2.2 + sumExcept vr e0.1 0 e0.2.1)) := rfl
    obtain ⟨hlen0, hp0, hpt0⟩ := hbits e0 (List.mem_cons_self e0 eqs)
    have hvr1 : (vr.set e0.1 (e0.2.2 + sumExcept vr e0.1 0 e0.2.1)).length = m := by
      rw [List.length_set]
      exact hvr
    intro e he
    rcases List.mem_cons.mp he with he0 | hetail
    · subst he0
      rw [hstep]
      have hagree : rowValFrom
          (adjust_vec_r eqs (vr.set e.1 (e.2.2 + sumExcept vr e.1 0 e.2.1))) 0 e.2.1 =
          rowValFrom (vr.set e.1 (e.2.2 + sumExcept vr e.1 0 e.2.1)) 0 e.2.1 := by
        apply rowVal_congr
        intro t htl hbt
        apply adjust_preserve
        intro e2 he2
        obtain ⟨l, hl⟩ := List.mem_iff_get?.mp he2
        intro he2t
        have hfalse := hexcl 0 (l + 1) e e2 rfl (by simpa using hl) (by omega)
        rw [he2t, hbt] at hfalse
        exact Bool.noConfusion hfalse
      rw [hagree]
      rw [rowVal_pivot_split _ e.2.1 e.1 hpt0 (by omega)]
      rw [getD_set_self _ _ _ _ (by omega), sumExcept_set_self]
      rw [add_assoc, CharTwo.add_self_eq_zero, add_zero]
    · rw [hstep]
      apply ih
      · exact fun e2 he2 => hbits e2 (List.mem_cons_of_mem e0 he2)
      · intro k l ek el hk hl hkl
        exact hexcl (k + 1) (l + 1) ek el (by simpa using hk) (by simpa using hl)
          (by omega)
      · exact hvr1
      · exact hetail

theorem get?_zip {α β : Type} (l1 : List α) (l2 : List β) (k : Nat) :
    (l1.zip l2).get? k = (l1.get? k).bind (fun a => (l2.get? k).map (fun b => (a, b))) := by
  induction l1 generalizing l2 k with
  | nil => simp
  | cons a l1 ih =>
    cases l2 with
    | nil => simp
    | cons b l2 =>
      cases k with
      | zero => simp
      | succ k => simpa using ih l2 k

theorem check_matrix_props (matrix : List (List Bool × F)) (h : check_matrix matrix = true) :
    matrix.length ≤ (matrix.headD ([], 0)).1.length ∧
      0 < (matrix.headD ([], 0)).1.length ∧
      ∀ rq ∈ matrix, rq.1.length = (matrix.headD ([], 0)).1.length := by
  cases matrix with
  | nil => simp [check_matrix] at h
  | cons row0 rest =>
    unfold check_matrix at h
    simp only at h
    by_cases h1 : (row0 :: rest).length > row0.1.length
    · rw [if_pos h1] at h
      exact Bool.noConfusion h
    · rw [if_neg h1] at h
      by_cases h2 : row0.1.length = 0
      · rw [if_pos h2] at h
        exact Bool.noConfusion h
      · rw [if_neg h2] at h
        have hall := List.all_eq_true.mp h
        refine ⟨?_, ?_, ?_⟩ <;> simp only [List.headD_cons]
        · exact Nat.le_of_not_lt h1
        · omega
        · intro rq hrq
          have h3 := hall rq hrq
          simpa using h3

theorem gaussian_solved_props [CharP F 2] (matrix : List (List Bool × F))
    (eqs : List (Nat × List Bool × F))
    (hsolved : gaussian_elimination matrix = GeResult.solved eqs) :
    (∀ e ∈ eqs, e.2.1.length = (matrix.headD ([], 0)).1.length ∧
        e.1 < (matrix.headD ([], 0)).1.length ∧ e.2.1.getD e.1 false = true) ∧
      (∀ k l ek el, eqs.get? k = some ek → eqs.get? l = some el → k ≠ l →
        ek.2.1.getD el.1 false = false) ∧
      ∀ vr0 : List F, vr0.length = (matrix.headD ([], 0)).1.length →
        ∀ rq ∈ matrix, rowValFrom (adjust_vec_r eqs vr0) 0 rq.1 = rq.2 := by
  by_cases hchk : check_matrix matrix = true
  case neg =>
    unfold gaussian_elimination at hsolved
    rw [if_neg hchk] at hsolved
    exact GeResult.noConfusion hsolved
  case pos =>
    obtain ⟨hnm, hm0, hrows⟩ := check_matrix_props matrix hchk
    unfold gaussian_elimination at hsolved
    rw [if_pos hchk] at hsolved
    simp only at hsolved
    cases hrun : geLoop matrix.length (matrix.headD ([], 0)).1.length
        ((matrix.headD ([], 0)).1.length + 1)
        (matrix.map (fun rt => Row.mk rt.1 rt.2)) 0 0 [] with
    | none =>
      rw [hrun] at hsolved
      exact GeResult.noConfusion hsolved
    | some o =>
      cases o with
      | none =>
        rw [hrun] at hsolved
        exact GeResult.noConfusion hsolved
      | some pr =>
        obtain ⟨fi2, mat2⟩ := pr
        rw [hrun] at hsolved
        have heqs : eqs = (fi2.zip mat2).map (fun q => (q.1, q.2.values, q.2.target)) := by
          injection hsolved with h
          exact h.symm
        have hinv0 : LoopInv (matrix.map (fun rt => Row.mk rt.1 rt.2)) matrix.length
            (matrix.headD ([], 0)).1.length (matrix.map (fun rt => Row.mk rt.1 rt.2))
            0 0 [] := by
          refine { hn := List.length_map _ _, hrow := ?_, hi := by omega, hfi := rfl
                   hpivlt := by intro p hp; simp at hp
                   pv1 := by intro k p hkp; simp at hkp
                   pv2 := by intro k p hkp; simp at hkp
                   lz := by intro k h1 h2 c hc; omega
                   ss := fun vr h => h }
          intro rq hrq
          obtain ⟨rt, hrt, hrteq⟩ := List.mem_map.mp hrq
          rw [← hrteq]
          exact hrows rt hrt
        obtain ⟨j2, hj2, invF⟩ := geLoop_spec (matrix.map (fun rt => Row.mk rt.1 rt.2))
          matrix.length (matrix.headD ([], 0)).1.length
          ((matrix.headD ([], 0)).1.length + 1)
          (matrix.map (fun rt => Row.mk rt.1 rt.2)) 0 0 [] fi2 mat2 hinv0
          (by omega) hrun
        have heGet : ∀ k, eqs.get? k = (fi2.get? k).bind
            (fun p => (mat2.get? k).map (fun rowk => (p, rowk.values, rowk.target))) := by
          intro k
          rw [heqs, List.get?_map, get?_zip]
          cases fi2.get? k <;> cases mat2.get? k <;> simp
        have hbits : ∀ e ∈ eqs, e.2.1.length = (matrix.headD ([], 0)).1.length ∧
            e.1 < (matrix.headD ([], 0)).1.length ∧ e.2.1.getD e.1 false = true := by
          intro e he
          obtain ⟨k, hk⟩ := List.mem_iff_get?.mp he
          rw [heGet k] at hk
          cases hfik : fi2.get? k with
          | none =>
            rw [hfik] at hk
            simp at hk
          | some p =>
            cases hmk : mat2.get? k with
            | none =>
              rw [hfik, hmk] at hk
              simp at hk
            | some rowk =>
              rw [hfik, hmk] at hk
              simp only [Option.some_bind, Option.map_some', Option.some_inj] at hk
              subst hk
              refine ⟨invF.hrow rowk (List.mem_iff_get?.mpr ⟨k, hmk⟩), ?_, ?_⟩
              · have hpj : p < j2 := invF.hpivlt p (List.mem_iff_get?.mpr ⟨k, hfik⟩)
                omega
              · have := invF.pv1 k p hfik
                unfold rowEntry at this
                rw [hmk] at this
                exact this
        have hexcl : ∀ k l ek el, eqs.get? k = some ek → eqs.get? l = some el →
            k ≠ l → ek.2.1.getD el.1 false = false := by
          intro k l ek el hk hl hkl
          rw [heGet k] at hk
          rw [heGet l] at hl
          cases hfik : fi2.get? k with
          | none => rw [hfik] at hk; simp at hk
          | some pk =>
            cases hmk : mat2.get? k with
            | none => rw [hfik, hmk] at hk; simp at hk
            | some rowk =>
              cases hfil : fi2.get? l with
              | none => rw [hfil] at hl; simp at hl
              | some pl =>
                cases hml : mat2.get? l with
                | none => rw [hfil, hml] at hl; simp at hl
                | some rowl =>
                  rw [hfik, hmk] at hk
                  rw [hfil, hml] at hl
                  simp only [Option.some_bind, Option.map_some', Option.some_inj] at hk hl
                  subst hk
                  subst hl
                  have hkn : k < matrix.length := by
                    have := lt_length_of_get?_eq_some hmk
                    rw [invF.hn] at this
                    exact this
                  have h2 := invF.pv2 l pl hfil k hkn hkl
                  unfold rowEntry at h2
                  rw [hmk] at h2
                  exact h2
        refine ⟨hbits, hexcl, ?_⟩
        intro vr0 hvr0 rq hrq
        have hsat2 : SatAll (adjust_vec_r eqs vr0) mat2 := by
          intro rowq hmemq
          obtain ⟨k, hk⟩ := List.mem_iff_get?.mp hmemq
          have hkn : k < mat2.length := lt_length_of_get?_eq_some hk
          have hkfi : k < fi2.length := by
            rw [invF.hfi, ← invF.hn]
            exact hkn
          obtain ⟨p, hp⟩ := exists_get?_eq_some fi2 k hkfi
          have hke : eqs.get? k = some (p, rowq.values, rowq.target) := by
            rw [heGet k, hp, hk]
            rfl
          exact adjust_correct eqs (matrix.headD ([], 0)).1.length hbits hexcl vr0 hvr0
            (p, rowq.values, rowq.target) (List.mem_iff_get?.mpr ⟨k, hke⟩)
        have hsat0 := invF.ss (adjust_vec_r eqs vr0) hsat2
        have hmem0 : Row.mk rq.1 rq.2 ∈ matrix.map (fun rt => Row.mk rt.1 rt.2) :=
          List.mem_map.mpr ⟨rq, hrq, rfl⟩
        exact hsat0 _ hmem0

end GE

/-- C6: Gaussian elimination over GF(2): when it succeeds, every returned row
carries its pivot column (the pivot bit of the row is set), and after
`adjust_vec_r` assigns `R[p] = value + Σ_{j ≠ p, bit_j = 1} R[j]` for each
reduced row, every row `(v, y)` of the original constraint matrix satisfies
`Σ_{j : bit_j = 1} R[j] = y`; the single row `[1 0 0 | v]` reduces to itself
with pivot 0, and the single row `[0 0 0 | v]` reports no solution. -/
theorem claim_C6 {F : Type} [CommRing F] [CharP F 2]
    (matrix : List (List Bool × F)) (eqs : List (Nat × List Bool × F))
    (hsolved : GE.gaussian_elimination matrix = GE.GeResult.solved eqs)
    (vr0 : List F) (hvr0 : vr0.length = (matrix.headD ([], 0)).1.length) :
    (∀ e ∈ eqs, e.2.1.getD e.1 false = true) ∧
      (∀ rq ∈ matrix, GE.rowValFrom (GE.adjust_vec_r eqs vr0) 0 rq.1 = rq.2) ∧
      (∀ v : F, GE.gaussian_elimination [([true, false, false], v)] =
        GE.GeResult.solved [(0, [true, false, false], v)]) ∧
      (∀ v : F, GE.gaussian_elimination [([false, false, false], v)] =
        GE.GeResult.noSolution) := by
  obtain ⟨hbits, hexcl, hadj⟩ := GE.gaussian_solved_props matrix eqs hsolved
  exact ⟨fun e he => (hbits e he).2.2, hadj vr0 hvr0, fun v => rfl, fun v => rfl⟩

theorem claim_C6_witness :
    (GE.gaussian_elimination [([true, false, false], (1 : ZMod 2))] =
        GE.GeResult.solved [(0, [true, false, false], 1)]) ∧
      ([(0 : ZMod 2), 0, 0].length =
        ([([true, false, false], (1 : ZMod 2))].headD ([], 0)).1.length) ∧
      ((∀ e ∈ [(0, [true, false, false], (1 : ZMod 2))], e.2.1.getD e.1 false = true) ∧
        (∀ rq ∈ [([true, false, false], (1 : ZMod 2))],
          GE.rowValFrom (GE.adjust_vec_r [(0, [true, false, false], (1 : ZMod 2))]
            [0, 0, 0]) 0 rq.1 = rq.2) ∧
        (∀ v : ZMod 2, GE.gaussian_elimination [([true, false, false], v)] =
          GE.GeResult.solved [(0, [true, false, false], v)]) ∧
        (∀ v : ZMod 2, GE.gaussian_elimination [([false, false, false], v)] =
          GE.GeResult.noSolution)) :=
  ⟨by decide, by decide,
    claim_C6 [([true, false, false], (1 : ZMod 2))] [(0, [true, false, false], 1)]
      (by decide) [0, 0, 0] (by decide)⟩

namespace Paxos

variable {F : Type} [CommRing F]

/-- `ConstraintParts`: an `r_size`-bit boolean vector paired with a field
value. -/
structure CP (F : Type) where
  v : List Bool
  f : F

/-- The XOR loop of `ConstraintParts::add_other`:
`for (i, val) in other.v.iter().enumerate() { v[i] ^= val }`.  Rust panics
when the second operand is longer; in this code the second operand is never
longer than the first (accumulators have length `r_size` and `r(..)` bit
vectors have length at most `r_size`), so the `[]`-vs-cons case is
unreachable. -/
def xorInto : List Bool → List Bool → List Bool
  | v, [] => v
  | [], _ :: _ => []
  | a :: v, b :: w => xor a b :: xorInto v w

/-- `ConstraintParts::zero`. -/
def CP.zero (F : Type) [CommRing F] (rSize : Nat) : CP F :=
  ⟨List.replicate rSize false, 0⟩

/-- `ConstraintParts::add_other`. -/
def CP.add_other (a b : CP F) : CP F := ⟨xorInto a.v b.v, a.f + b.f⟩

/-- `ConstraintParts::into`. -/
def CP.toPair (a : CP F) : List Bool × F := (a.v, a.f)

/-- The per-edge hash endpoints `(h1(x), h2(x))` computed by
`construct_cuckoo_graph` (a `% 0` or short-digest panic is `none`). -/
def edgeEndpoints (hm : HashModel F) (k1 k2 : Nat) (lSize : Nat) :
    List (F × F) → Option (List (Nat × Nat))
  | [] => some []
  | pt :: pts => do
    let i ← hash2index hm k1 pt.1 lSize
    let j ← hash2index hm k2 pt.1 lSize
    let rest ← edgeEndpoints hm k1 k2 lSize pts
    pure ((i, j) :: rest)

/-- `node.dirs` for node `v` in `construct_cuckoo_graph`: each edge `e`
between `i = h1(x)` and `j = h2(x)` pushes `(to := j, e)` onto node `i` and
then `(to := i, e)` onto node `j` (a self loop pushes both onto the same
node), edges in input order. -/
def dirs (eps : List (Nat × Nat)) (v : Nat) : List (Nat × Nat) :=
  (eps.enum.map (fun q =>
    (if q.2.1 = v then [(q.2.2, q.1)] else []) ++
      (if q.2.2 = v then [(q.2.1, q.1)] else []))).join

/-- The node list returned by `construct_cuckoo_graph` (`result`): nodes in
order of first appearance, scanning each edge's `h1` endpoint then its `h2`
endpoint. -/
def creationOrder (eps : List (Nat × Nat)) : List Nat :=
  ((eps.map (fun q => [q.1, q.2])).join).foldl
    (fun acc v => if v ∈ acc then acc else acc ++ [v]) []

/-- Pointwise function update (mutation of a node/edge field). -/
def upd {β : Type} (f : Nat → β) (x : Nat) (v : β) : Nat → β :=
  fun y => if y = x then v else f y

/-- First-DFS state: node visit flags and accumulators, edge visit and
back-edge flags, and the emitted constraint list. -/
structure St1 (F : Type) where
  nodeVis : Nat → Bool
  acc : Nat → CP F
  edgeVis : Nat → Bool
  edgeBack : Nat → Bool
  constraints : List (List Bool × F)

def initSt1 (F : Type) [CommRing F] (rSize : Nat) : St1 F :=
  ⟨fun _ => false, fun _ => CP.zero F rSize, fun _ => false, fun _ => false, []⟩

/-- `next_dirs` in `FindConstraints` mode: keep directions whose edge is
neither visited nor a back edge. -/
def next_dirs1 (eps : List (Nat × Nat)) (st : St1 F) (v : Nat) : List (Nat × Nat) :=
  (dirs eps v).filter (fun d => !(st.edgeVis d.2 || st.edgeBack d.2))

/-- The `(x, y)` point of edge `e` (always in range: edges are indices into
`points`). -/
def pointOf (points : List (F × F)) (e : Nat) : F × F := points.getD e (0, 0)

/-- The constraint parts `(r(k3, x), y)` of edge `e`. -/
def edgeCP (hm : HashModel F) (k3 rSize : Nat) (points : List (F × F)) (e : Nat) : CP F :=
  ⟨r hm k3 (pointOf points e).1 rSize, (pointOf points e).2⟩

inductive TofcRecRes (F : Type) where
  | NoProblem : TofcRecRes F
  | BackEdge : CP F → TofcRecRes F

/-- The edge loop of `dfs_tofc_rec` over the `next_dirs` snapshot; `step` is
the recursive DFS call (at one less fuel). -/
def tofcLoop (hm : HashModel F) (k3 rSize : Nat) (points : List (F × F))
    (step : Nat → CP F → St1 F → Option (TofcRecRes F × St1 F)) :
    CP F → St1 F → List (Nat × Nat) → Option (St1 F)
  | _total, st, [] => some st
  | total, st, d :: rest =>
    if st.edgeVis d.2 then tofcLoop hm k3 rSize points step total st rest
    else
      let st1 : St1 F := { st with edgeVis := upd st.edgeVis d.2 true }
      let cp := edgeCP hm k3 rSize points d.2
      let next_total := total.add_other cp
      match step d.1 next_total st1 with
      | none => none
      | some (res, st2) =>
        let st3 : St1 F :=
          match res with
          | TofcRecRes.NoProblem => st2
          | TofcRecRes.BackEdge c =>
            { st2 with edgeBack := upd st2.edgeBack d.2 true
                       constraints := st2.constraints ++ [(next_total.add_other c).toPair] }
        tofcLoop hm k3 rSize points step total st3 rest

/-- `dfs_tofc_rec`: on a visited node return `BackEdge(accumulator)`;
otherwise mark it, record the accumulator, and loop over the snapshot of
unvisited non-back directions.  Fuel bounds the recursion depth (one unit
per node on the DFS stack); running out of fuel is `none`. -/
def dfs_tofc_rec (hm : HashModel F) (k3 rSize : Nat) (points : List (F × F))
    (eps : List (Nat × Nat)) :
    Nat → Nat → CP F → St1 F → Option (TofcRecRes F × St1 F)
  | 0, _, _, _ => none
  | fuel + 1, v, total, st =>
    if st.nodeVis v then some (TofcRecRes.BackEdge (st.acc v), st)
    else
      let st1 : St1 F := { st with nodeVis := upd st.nodeVis v true
                                   acc := upd st.acc v total }
      let snap := next_dirs1 eps st1 v
      match tofcLoop hm k3 rSize points
          (fun w tt ss => dfs_tofc_rec hm k3 rSize points eps fuel w tt ss)
          total st1 snap with
      | none => none
      | some st2 => some (TofcRecRes.NoProblem, st2)

/-- The root loop of `dfs_to_find_constraints` over the created nodes,
also collecting `new_graph` (the component roots). -/
def tofcRoots (hm : HashModel F) (k3 rSize : Nat) (points : List (F × F))
    (eps : List (Nat × Nat)) (fuel : Nat) :
    List Nat → List Nat → St1 F → Option (List Nat × St1 F)
  | [], ng, st => some (ng, st)
  | v :: vs, ng, st =>
    if st.nodeVis v then tofcRoots hm k3 rSize points eps fuel vs ng st
    else
      match dfs_tofc_rec hm k3 rSize points eps fuel v (CP.zero F rSize) st with
      | none => none
      | some (_res, st2) => tofcRoots hm k3 rSize points eps fuel vs (ng ++ [v]) st2

/-- `dfs_to_find_constraints`: run the first DFS from every unvisited created
node; return the constraints, the root list `new_graph`, and the final
state. -/
def dfs_to_find_constraints (hm : HashModel F) (k3 rSize : Nat)
    (points : List (F × F)) (eps : List (Nat × Nat)) (fuel : Nat) :
    Option (List (List Bool × F) × List Nat × St1 F) :=
  match tofcRoots hm k3 rSize points eps fuel (creationOrder eps) [] (initSt1 F rSize) with
  | none => none
  | some (ng, st) => some (st.constraints, ng, st)

/-- Second-DFS state: `VisitedTwice` flags for nodes and edges, plus the
mutable `vec_l`. -/
structure St2 (F : Type) where
  nodeVis : Nat → Bool
  edgeVis : Nat → Bool
  vecL : List F

/-- `next_dirs` in `CalcVecL` mode: filter visited-twice and back edges. -/
def next_dirs2 (eps : List (Nat × Nat)) (back : Nat → Bool) (st : St2 F)
    (v : Nat) : List (Nat × Nat) :=
  (dirs eps v).filter (fun d => !(st.edgeVis d.2 || back d.2))

/-- The edge loop of `dfs_tocvl_rec`: mark the edge, compute the inner
product, set `vec_l[to] = vec_l[u] + ⟨r(x), R⟩ + y`, and recurse.  Rust
panics (out-of-bounds `vec_l` access) are `none`. -/
def tocvlLoop (hm : HashModel F) (k3 rSize : Nat) (points : List (F × F))
    (vecR : List F) (back : Nat → Bool)
    (step : Nat → St2 F → Option (St2 F)) :
    Nat → St2 F → List (Nat × Nat) → Option (St2 F)
  | _u, st, [] => some st
  | u, st, d :: rest =>
    if st.edgeVis d.2 then tocvlLoop hm k3 rSize points vecR back step u st rest
    else
      let st1 : St2 F := { st with edgeVis := upd st.edgeVis d.2 true }
      match calc_r_inner_product hm (pointOf points d.2).1 vecR k3 rSize with
      | none => none
      | some ip =>
        match st1.vecL.get? u with
        | none => none
        | some lu =>
          if d.1 < st1.vecL.length then
            let st2 : St2 F :=
              { st1 with vecL := st1.vecL.set d.1 (lu + ip + (pointOf points d.2).2) }
            match step d.1 st2 with
            | none => none
            | some st3 => tocvlLoop hm k3 rSize points vecR back step u st3 rest
          else none

/-- `dfs_tocvl_rec`: panics (`none`) on a visited node ("Unreachable");
otherwise mark the node and loop over its snapshot. -/
def dfs_tocvl_rec (hm : HashModel F) (k3 rSize : Nat) (points : List (F × F))
    (eps : List (Nat × Nat)) (vecR : List F) (back : Nat → Bool) :
    Nat → Nat → St2 F → Option (St2 F)
  | 0, _, _ => none
  | fuel + 1, v, st =>
    if st.nodeVis v then none
    else
      let st1 : St2 F := { st with nodeVis := upd st.nodeVis v true }
      let snap := next_dirs2 eps back st1 v
      tocvlLoop hm k3 rSize points vecR back
        (fun w ss => dfs_tocvl_rec hm k3 rSize points eps vecR back fuel w ss) v st1 snap

/-- `dfs_to_calc_vec_l`: run the second DFS from every root of `new_graph`
that is not yet visited twice. -/
def dfs_to_calc_vec_l (hm : HashModel F) (k3 rSize : Nat) (points : List (F × F))
    (eps : List (Nat × Nat)) (vecR : List F) (back : Nat → Bool) (fuel : Nat) :
    List Nat → St2 F → Option (St2 F)
  | [], st => some st
  | v :: vs, st =>
    if st.nodeVis v then dfs_to_calc_vec_l hm k3 rSize points eps vecR back fuel vs st
    else
      match dfs_tocvl_rec hm k3 rSize points eps vecR back fuel v st with
      | none => none
      | some st2 => dfs_to_calc_vec_l hm k3 rSize points eps vecR back fuel vs st2

/-- `PaxosSolver::encode`: build the cuckoo graph, sample `L` and `R` from
the `rng` stream, run the first DFS, check `constraints.len() ≤ r_size`,
solve by Gaussian elimination and adjust `R`, run the second DFS, and output
`L ‖ R`.  Any bail or panic is `none`. -/
def encode (hm : HashModel F) (rng : Nat → F) (points : List (F × F))
    (aux : Nat × Nat × Nat) (params : Params) : Option (List F) :=
  match edgeEndpoints hm aux.1 aux.2.1 params.l_size points with
  | none => none
  | some eps =>
    let vecL0 := (List.range params.l_size).map rng
    let vecR0 := (List.range params.r_size).map (fun i => rng (params.l_size + i))
    match dfs_to_find_constraints hm aux.2.2 params.r_size points eps
        (params.l_size + 1) with
    | none => none
    | some (constraints, newGraph, st1) =>
      if params.r_size < constraints.length then none
      else
        match (if 0 < constraints.length then
            match GE.gaussian_elimination constraints with
            | GE.GeResult.err => none
            | GE.GeResult.noSolution => none
            | GE.GeResult.solved equations => some (GE.adjust_vec_r equations vecR0)
          else some vecR0) with
        | none => none
        | some vecR =>
          match dfs_to_calc_vec_l hm aux.2.2 params.r_size points eps vecR
              st1.edgeBack (params.l_size + 1) newGraph
              ⟨fun _ => false, fun _ => false, vecL0⟩ with
          | none => none
          | some st2 => some (st2.vecL ++ vecR)

theorem length_xorInto (v w : List Bool) (h : w.length ≤ v.length) :
    (xorInto v w).length = v.length := by
  induction v generalizing w with
  | nil =>
    cases w with
    | nil => rfl
    | cons b w => simp at h
  | cons a v ih =>
    cases w with
    | nil => rfl
    | cons b w =>
      show (xor a b :: xorInto v w).length = _
      simp only [List.length_cons]
      rw [ih w (by simpa using h)]

theorem rowVal_xorInto [CharP F 2] (vr : List F) (v w : List Bool) (j : Nat)
    (h : w.length ≤ v.length) :
    GE.rowValFrom vr j (xorInto v w) =
      GE.rowValFrom vr j v + GE.rowValFrom vr j w := by
  induction v generalizing w j with
  | nil =>
    cases w with
    | nil => simp [xorInto, GE.rowValFrom]
    | cons b w => simp at h
  | cons a v ih =>
    cases w with
    | nil => simp [xorInto, GE.rowValFrom]
    | cons b w =>
      show GE.rowValFrom vr j (xor a b :: xorInto v w) = _
      simp only [GE.rowValFrom]
      rw [ih w (j + 1) (by simpa using h)]
      rw [GE.ite_xor_split a b (vr.getD j 0)]
      ring

theorem length_r_le (hm : HashModel F) (k : Nat) (x : F) (m : Nat) :
    (r hm k x m).length ≤ m := by
  unfold r
  simp [List.length_take]

theorem CP.add_other_length (a b : CP F) (h : b.v.length ≤ a.v.length) :
    (a.add_other b).v.length = a.v.length :=
  length_xorInto a.v b.v h

/-- The semantic value of constraint parts under the solved vector. -/
def cpSem (vr : List F) (c : CP F) : F := GE.rowValFrom vr 0 c.v + c.f

theorem cpSem_add_other [CharP F 2] (vr : List F) (a b : CP F)
    (h : b.v.length ≤ a.v.length) :
    cpSem vr (a.add_other b) = cpSem vr a + cpSem vr b := by
  unfold cpSem CP.add_other
  simp only
  rw [rowVal_xorInto vr a.v b.v 0 h]
  ring

theorem rowVal_replicate_false (vr : List F) (n j : Nat) :
    GE.rowValFrom vr j (List.replicate n false) = 0 := by
  induction n generalizing j with
  | zero => rfl
  | succ n ih =>
    show GE.rowValFrom vr j (false :: List.replicate n false) = 0
    simp only [GE.rowValFrom]
    rw [ih (j + 1)]
    simp

theorem cpSem_zero (vr : List F) (rSize : Nat) :
    cpSem vr (CP.zero F rSize) = 0 := by
  unfold cpSem CP.zero
  simp only
  rw [rowVal_replicate_false]
  simp

/-- The first component of a `dirs` entry together with the node is the pair
of endpoints of the edge. -/
theorem mem_enum_iff {α : Type} (l : List α) (q : Nat × α) :
    q ∈ l.enum ↔ l.get? q.1 = some q.2 := by
  rw [List.mem_enum_iff_getElem?, List.get?_eq_getElem?]

theorem dirs_mem (eps : List (Nat × Nat)) (v : Nat) (d : Nat × Nat)
    (hd : d ∈ dirs eps v) :
    ∃ i j, eps.get? d.2 = some (i, j) ∧
      ((i = v ∧ j = d.1) ∨ (j = v ∧ i = d.1)) := by
  unfold dirs at hd
  rw [List.mem_join] at hd
  obtain ⟨l, hl, hdl⟩ := hd
  rw [List.mem_map] at hl
  obtain ⟨q, hq, hqeq⟩ := hl
  rw [mem_enum_iff] at hq
  subst hqeq
  rw [List.mem_append] at hdl
  rcases hdl with h | h
  · by_cases hc : q.2.1 = v
    · rw [if_pos hc] at h
      simp only [List.mem_singleton] at h
      subst h
      exact ⟨q.2.1, q.2.2, by simpa using hq, Or.inl ⟨hc, rfl⟩⟩
    · rw [if_neg hc] at h
      simp at h
  · by_cases hc : q.2.2 = v
    · rw [if_pos hc] at h
      simp only [List.mem_singleton] at h
      subst h
      exact ⟨q.2.1, q.2.2, by simpa using hq, Or.inr ⟨hc, rfl⟩⟩
    · rw [if_neg hc] at h
      simp at h

theorem dirs_of_endpoint (eps : List (Nat × Nat)) (e : Nat) (i j : Nat)
    (he : eps.get? e = some (i, j)) :
    (j, e) ∈ dirs eps i ∧ (i, e) ∈ dirs eps j := by
  constructor
  · unfold dirs
    rw [List.mem_join]
    refine ⟨(if i = i then [(j, e)] else []) ++ (if j = i then [(i, e)] else []), ?_, ?_⟩
    · rw [List.mem_map]
      exact ⟨(e, (i, j)), (mem_enum_iff eps (e, (i, j))).mpr he, rfl⟩
    · rw [if_pos rfl, List.mem_append]
      exact Or.inl (List.mem_singleton.mpr rfl)
  · unfold dirs
    rw [List.mem_join]
    refine ⟨(if i = j then [(j, e)] else []) ++ (if j = j then [(i, e)] else []), ?_, ?_⟩
    · rw [List.mem_map]
      exact ⟨(e, (i, j)), (mem_enum_iff eps (e, (i, j))).mpr he, rfl⟩
    · rw [if_pos rfl, List.mem_append]
      exact Or.inr (List.mem_singleton.mpr rfl)

theorem mem_creationOrder_foldl (l : List Nat) (acc : List Nat) (x : Nat) :
    x ∈ l.foldl (fun acc v => if v ∈ acc then acc else acc ++ [v]) acc ↔
      x ∈ acc ∨ x ∈ l := by
  induction l generalizing acc with
  | nil => simp
  | cons a l ih =>
    simp only [List.foldl_cons]
    rw [ih]
    by_cases hc : a ∈ acc
    · rw [if_pos hc]
      constructor
      · intro h
        rcases h with h | h
        · exact Or.inl h
        · exact Or.inr (List.mem_cons_of_mem a h)
      · intro h
        rcases h with h | h
        · exact Or.inl h
        · rcases List.mem_cons.mp h with h | h
          · exact Or.inl (h ▸ hc)
          · exact Or.inr h
    · rw [if_neg hc]
      constructor
      · intro h
        rcases h with h | h
        · rcases List.mem_append.mp h with h | h
          · exact Or.inl h
          · simp only [List.mem_singleton] at h
            exact Or.inr (h ▸ List.mem_cons_self a l)
        · exact Or.inr (List.mem_cons_of_mem a h)
      · intro h
        rcases h with h | h
        · exact Or.inl (List.mem_append.mpr (Or.inl h))
        · rcases List.mem_cons.mp h with h | h
          · exact Or.inl (List.mem_append.mpr (Or.inr (by simp [h])))
          · exact Or.inr h

theorem endpoint_mem_creationOrder (eps : List (Nat × Nat)) (e : Nat) (i j : Nat)
    (he : eps.get? e = some (i, j)) :
    i ∈ creationOrder eps ∧ j ∈ creationOrder eps := by
  have hmem : (i, j) ∈ eps := List.mem_iff_get?.mpr ⟨e, he⟩
  have hj : ∀ x, (∃ q ∈ eps, x = q.1 ∨ x = q.2) → x ∈ creationOrder eps := by
    intro x ⟨q, hq, hx⟩
    unfold creationOrder
    rw [mem_creationOrder_foldl]
    right
    rw [List.mem_join]
    refine ⟨[q.1, q.2], List.mem_map.mpr ⟨q, hq, rfl⟩, ?_⟩
    rcases hx with hx | hx <;> simp [hx]
  exact ⟨hj i ⟨(i, j), hmem, Or.inl rfl⟩, hj j ⟨(i, j), hmem, Or.inr rfl⟩⟩

variable (hm : HashModel F) (k3 rSize : Nat) (points : List (F × F))
variable (eps : List (Nat × Nat))

/-- First endpoint (`h1` index) of edge `e`. -/
def eI (e : Nat) : Nat := (eps.getD e (0, 0)).1

/-- Second endpoint (`h2` index) of edge `e`. -/
def eJ (e : Nat) : Nat := (eps.getD e (0, 0)).2

theorem eps_get?_eq (e : Nat) (h : e < eps.length) :
    eps.get? e = some (eI eps e, eJ eps e) := by
  rw [get?_eq_some_getD eps (0, 0) e h]
  rfl

/-- Edge `e` is a tree edge of the first DFS: visited and not flagged back. -/
def Tedge (st : St1 F) (e : Nat) : Prop :=
  e < eps.length ∧ st.edgeVis e = true ∧ st.edgeBack e = false

/-- One tree-edge step between nodes. -/
def Tstep (st : St1 F) (u w : Nat) : Prop :=
  ∃ e, Tedge eps st e ∧
    ((eI eps e = u ∧ eJ eps e = w) ∨ (eI eps e = w ∧ eJ eps e = u))

/-- Connectivity along tree edges. -/
def Tconn (st : St1 F) : Nat → Nat → Prop :=
  Relation.ReflTransGen (Tstep eps st)

/-- Every direction out of `u` has a visited edge. -/
def Complete1 (st : St1 F) (u : Nat) : Prop :=
  ∀ d ∈ dirs eps u, st.edgeVis d.2 = true

theorem dirs_mem_endpoints (v : Nat) (d : Nat × Nat) (hd : d ∈ dirs eps v) :
    d.2 < eps.length ∧
      ((eI eps d.2 = v ∧ eJ eps d.2 = d.1) ∨
        (eJ eps d.2 = v ∧ eI eps d.2 = d.1)) := by
  obtain ⟨i, j, hget, hor⟩ := dirs_mem eps v d hd
  have hlt : d.2 < eps.length := GE.lt_length_of_get?_eq_some hget
  have hgd : eps.getD d.2 (0, 0) = (i, j) := getD_of_get? _ _ _ _ hget
  have hi : eI eps d.2 = i := by rw [eI, hgd]
  have hj : eJ eps d.2 = j := by rw [eJ, hgd]
  refine ⟨hlt, ?_⟩
  rcases hor with ⟨h1, h2⟩ | ⟨h1, h2⟩
  · exact Or.inl ⟨by rw [hi, h1], by rw [hj, h2]⟩
  · exact Or.inr ⟨by rw [hj, h1], by rw [hi, h2]⟩

theorem dirs_endpoint_self (e : Nat) (h : e < eps.length) :
    (eJ eps e, e) ∈ dirs eps (eI eps e) ∧ (eI eps e, e) ∈ dirs eps (eJ eps e) :=
  dirs_of_endpoint eps e (eI eps e) (eJ eps e) (eps_get?_eq eps e h)

/-- State growth across first-DFS steps: flags only get set, accumulators
and tree edges of visited parts persist, constraints only get appended. -/
structure St1Mono (st st2 : St1 F) : Prop where
  node : ∀ v, st.nodeVis v = true → st2.nodeVis v = true
  accp : ∀ v, st.nodeVis v = true → st2.acc v = st.acc v
  edge : ∀ e, st.edgeVis e = true → st2.edgeVis e = true
  backm : ∀ e, st.edgeBack e = true → st2.edgeBack e = true
  tmon : ∀ e, Tedge eps st e → Tedge eps st2 e
  consm : ∃ cs, st2.constraints = st.constraints ++ cs

theorem St1Mono.rfl' (st : St1 F) : St1Mono eps st st :=
  ⟨fun _ h => h, fun _ _ => rfl, fun _ h => h, fun _ h => h, fun _ h => h,
    ⟨[], (List.append_nil _).symm⟩⟩

theorem St1Mono.comp {st st2 st3 : St1 F} (h1 : St1Mono eps st st2)
    (h2 : St1Mono eps st2 st3) : St1Mono eps st st3 := by
  refine ⟨fun v h => h2.node v (h1.node v h), ?_,
    fun e h => h2.edge e (h1.edge e h), fun e h => h2.backm e (h1.backm e h),
    fun e h => h2.tmon e (h1.tmon e h), ?_⟩
  · intro v h
    rw [h2.accp v (h1.node v h), h1.accp v h]
  · obtain ⟨cs1, hc1⟩ := h1.consm
    obtain ⟨cs2, hc2⟩ := h2.consm
    exact ⟨cs1 ++ cs2, by rw [hc2, hc1, List.append_assoc]⟩

theorem Tconn_mono {st st2 : St1 F} (h : ∀ e, Tedge eps st e → Tedge eps st2 e)
    {u w : Nat} (hc : Tconn eps st u w) : Tconn eps st2 u w :=
  Relation.ReflTransGen.mono (fun _ _ hs =>
    let ⟨e, he, ho⟩ := hs; ⟨e, h e he, ho⟩) hc

theorem Tstep_symm {st : St1 F} {u w : Nat} (h : Tstep eps st u w) :
    Tstep eps st w u :=
  let ⟨e, he, ho⟩ := h; ⟨e, he, ho.symm⟩

theorem Tconn_symm {st : St1 F} {u w : Nat} (h : Tconn eps st u w) :
    Tconn eps st w u := by
  induction h with
  | refl => exact Relation.ReflTransGen.refl
  | tail _hc hs ih =>
    exact Relation.ReflTransGen.head (Tstep_symm eps hs) ih

theorem Complete1_mono {st st2 : St1 F}
    (h : ∀ e, st.edgeVis e = true → st2.edgeVis e = true) {u : Nat}
    (hc : Complete1 eps st u) : Complete1 eps st2 u :=
  fun d hd => h d.2 (hc d hd)

/-- The recorded fact for a tree edge: both endpoints visited and one
endpoint's accumulator extends the other's by the edge's constraint parts. -/
def TreeFact (st : St1 F) (e : Nat) : Prop :=
  st.nodeVis (eI eps e) = true ∧ st.nodeVis (eJ eps e) = true ∧
    (st.acc (eJ eps e) = (st.acc (eI eps e)).add_other (edgeCP hm k3 rSize points e) ∨
      st.acc (eI eps e) = (st.acc (eJ eps e)).add_other (edgeCP hm k3 rSize points e))

/-- A tree edge whose child end is the DFS call target `v`, not yet visited:
the parent end is visited and the passed accumulator `total` already extends
the parent's accumulator by the edge. -/
def PendingFact (v : Nat) (total : CP F) (st : St1 F) (e : Nat) : Prop :=
  ∃ a, ((eI eps e = a ∧ eJ eps e = v) ∨ (eI eps e = v ∧ eJ eps e = a)) ∧
    st.nodeVis a = true ∧
    total = (st.acc a).add_other (edgeCP hm k3 rSize points e)

/-- First-DFS invariant (no pending edge). -/
structure Inv1 (st : St1 F) : Prop where
  accLen : ∀ u, (st.acc u).v.length = rSize
  consLen : ∀ c ∈ st.constraints, c.1.length = rSize
  backVis : ∀ e, st.edgeBack e = true → st.edgeVis e = true
  tree : ∀ e, Tedge eps st e → TreeFact hm k3 rSize points eps st e
  backc : ∀ e, e < eps.length → st.edgeBack e = true →
    ∃ a b, ((eI eps e = a ∧ eJ eps e = b) ∨ (eI eps e = b ∧ eJ eps e = a)) ∧
      st.nodeVis a = true ∧ st.nodeVis b = true ∧
      (((st.acc a).add_other (edgeCP hm k3 rSize points e)).add_other
        (st.acc b)).toPair ∈ st.constraints
  backconn : ∀ e, e < eps.length → st.edgeBack e = true →
    Tconn eps st (eI eps e) (eJ eps e)

/-- First-DFS invariant allowing one pending tree edge into the unvisited
call target `v`. -/
structure InvP (v : Nat) (total : CP F) (st : St1 F) : Prop where
  accLen : ∀ u, (st.acc u).v.length = rSize
  consLen : ∀ c ∈ st.constraints, c.1.length = rSize
  backVis : ∀ e, st.edgeBack e = true → st.edgeVis e = true
  tree : ∀ e, Tedge eps st e → TreeFact hm k3 rSize points eps st e ∨
    PendingFact hm k3 rSize points eps v total st e
  backc : ∀ e, e < eps.length → st.edgeBack e = true →
    ∃ a b, ((eI eps e = a ∧ eJ eps e = b) ∨ (eI eps e = b ∧ eJ eps e = a)) ∧
      st.nodeVis a = true ∧ st.nodeVis b = true ∧
      (((st.acc a).add_other (edgeCP hm k3 rSize points e)).add_other
        (st.acc b)).toPair ∈ st.constraints
  backconn : ∀ e, e < eps.length → st.edgeBack e = true →
    Tconn eps st (eI eps e) (eJ eps e)

theorem Inv1.toInvP {st : St1 F} (h : Inv1 hm k3 rSize points eps st)
    (v : Nat) (total : CP F) : InvP hm k3 rSize points eps v total st :=
  ⟨h.accLen, h.consLen, h.backVis, fun e he => Or.inl (h.tree e he),
    h.backc, h.backconn⟩

/-- Precondition of a first-DFS call on an unvisited node. -/
def Pre1 (v : Nat) (total : CP F) (st : St1 F) : Prop :=
  total.v.length = rSize ∧ InvP hm k3 rSize points eps v total st ∧
    ∀ u, st.nodeVis u = true → Tconn eps st u v ∨ Complete1 eps st u

/-- Postcondition of a first-DFS call on an unvisited node. -/
structure Post1 (v : Nat) (total : CP F) (st st2 : St1 F) : Prop where
  mono : St1Mono eps st st2
  inv : Inv1 hm k3 rSize points eps st2
  visv : st2.nodeVis v = true
  accv : st2.acc v = total
  newComplete : ∀ u, st2.nodeVis u = true →
    st.nodeVis u = true ∨ Complete1 eps st2 u
  newConn : ∀ u, st2.nodeVis u = true →
    st.nodeVis u = true ∨ Tconn eps st2 u v

/-- Full specification of one first-DFS call. -/
def StepSpec1 (step : Nat → CP F → St1 F → Option (TofcRecRes F × St1 F)) : Prop :=
  ∀ w tt ss res ss2, step w tt ss = some (res, ss2) →
    (ss.nodeVis w = true → res = TofcRecRes.BackEdge (ss.acc w) ∧ ss2 = ss) ∧
    (ss.nodeVis w = false → Pre1 hm k3 rSize points eps w tt ss →
      res = TofcRecRes.NoProblem ∧ Post1 hm k3 rSize points eps w tt ss ss2)

theorem upd_self {β : Type} (f : Nat → β) (x : Nat) (w : β) : upd f x w x = w := by
  simp [upd]

theorem upd_ne {β : Type} (f : Nat → β) (x : Nat) (w : β) (y : Nat) (h : y ≠ x) :
    upd f x w y = f y := if_neg h

/-- Invariant preservation through the edge loop of the first DFS. -/
theorem tofcLoop_spec [CharP F 2]
    (step : Nat → CP F → St1 F → Option (TofcRecRes F × St1 F))
    (hstep : StepSpec1 hm k3 rSize points eps step) (v : Nat) (total : CP F)
    (htl : total.v.length = rSize) :
    ∀ snap st st3, tofcLoop hm k3 rSize points step total st snap = some st3 →
      (∀ d ∈ snap, d ∈ dirs eps v) →
      st.nodeVis v = true → st.acc v = total →
      Inv1 hm k3 rSize points eps st →
      (∀ u, st.nodeVis u = true → Tconn eps st u v ∨ Complete1 eps st u) →
      St1Mono eps st st3 ∧ Inv1 hm k3 rSize points eps st3 ∧
        st3.nodeVis v = true ∧ st3.acc v = total ∧
        (∀ u, st3.nodeVis u = true → Tconn eps st3 u v ∨ Complete1 eps st3 u) ∧
        (∀ u, st3.nodeVis u = true → st.nodeVis u = true ∨ Complete1 eps st3 u) ∧
        (∀ u, st3.nodeVis u = true → st.nodeVis u = true ∨ Tconn eps st3 u v) ∧
        (∀ d ∈ snap, st3.edgeVis d.2 = true) := by
  intro snap
  induction snap with
  | nil =>
    intro st st3 heq _ hv hacc hinv ha5
    simp only [tofcLoop, Option.some_inj] at heq
    subst heq
    exact ⟨St1Mono.rfl' eps st, hinv, hv, hacc, ha5,
      fun u hu => Or.inl hu, fun u hu => Or.inl hu, by simp⟩
  | cons d rest ih =>
    intro st st3 heq hsnap hv hacc hinv ha5
    simp only [tofcLoop] at heq
    have hdd : d ∈ dirs eps v := hsnap d (List.mem_cons_self d rest)
    obtain ⟨hlt, hend⟩ := dirs_mem_endpoints eps v d hdd
    by_cases hvis : st.edgeVis d.2 = true
    · rw [if_pos hvis] at heq
      obtain ⟨hmono, hinv3, hv3, hacc3, ha53, hcomp3, hconn3, hsv3⟩ :=
        ih st st3 heq (fun d2 hd2 => hsnap d2 (List.mem_cons_of_mem d hd2))
          hv hacc hinv ha5
      refine ⟨hmono, hinv3, hv3, hacc3, ha53, hcomp3, hconn3, ?_⟩
      intro d2 hd2
      rcases List.mem_cons.mp hd2 with hd2 | hd2
      · subst hd2
        exact hmono.edge d2.2 hvis
      · exact hsv3 d2 hd2
    · rw [if_neg hvis] at heq
      have hback : st.edgeBack d.2 = false := by
        cases hbc : st.edgeBack d.2 with
        | false => rfl
        | true => exact absurd (hinv.backVis d.2 hbc) hvis
      -- the state with the edge marked visited
      set cp : CP F := edgeCP hm k3 rSize points d.2 with hcp
      set nt : CP F := total.add_other cp with hnt
      set st1 : St1 F := { st with edgeVis := upd st.edgeVis d.2 true } with hst1
      have hcpLen : cp.v.length ≤ rSize := length_r_le hm k3 (pointOf points d.2).1 rSize
      have hntLen : nt.v.length = rSize := by
        rw [hnt, CP.add_other_length total cp (by rw [htl]; exact hcpLen)]
        exact htl
      have hvis1 : ∀ e, st.edgeVis e = true → st1.edgeVis e = true := by
        intro e he
        by_cases hc : e = d.2
        · subst hc
          exact absurd he hvis
        · show upd st.edgeVis d.2 true e = true
          rw [upd_ne _ _ _ _ hc]
          exact he
      have hvis1d : st1.edgeVis d.2 = true := upd_self st.edgeVis d.2 true
      have htmon1 : ∀ e, Tedge eps st e → Tedge eps st1 e := by
        intro e ⟨h1, h2, h3⟩
        exact ⟨h1, hvis1 e h2, h3⟩
      have htd : Tedge eps st1 d.2 := ⟨hlt, hvis1d, hback⟩
      have hstepd : Tstep eps st1 v d.1 := by
        refine ⟨d.2, htd, ?_⟩
        rcases hend with ⟨h1, h2⟩ | ⟨h1, h2⟩
        · exact Or.inl ⟨h1, h2⟩
        · exact Or.inr ⟨h2, h1⟩
      cases hc : step d.1 nt st1 with
      | none =>
        rw [hc] at heq
        exact absurd heq (by simp)
      | some pr =>
        obtain ⟨res, st2⟩ := pr
        rw [hc] at heq
        cases hw : st.nodeVis d.1 with
        | true =>
          -- back edge: the callee returns immediately
          obtain ⟨hres, hst2⟩ := (hstep d.1 nt st1 res st2 hc).1 hw
          subst hres
          subst hst2
          simp only at heq
          -- the state with the edge flagged back and the constraint pushed
          set cnew : List Bool × F := (nt.add_other (st1.acc d.1)).toPair with hcnew
          set stB : St1 F :=
            { st1 with edgeBack := upd st1.edgeBack d.2 true
                       constraints := st1.constraints ++ [cnew] } with hstB
          have haccB : stB.acc = st.acc := rfl
          have hnodeB : stB.nodeVis = st.nodeVis := rfl
          have hbackB : ∀ e, e ≠ d.2 → stB.edgeBack e = st.edgeBack e := by
            intro e he
            show upd st.edgeBack d.2 true e = st.edgeBack e
            exact upd_ne _ _ _ _ he
          have hbackBd : stB.edgeBack d.2 = true := upd_self st.edgeBack d.2 true
          have htmonB : ∀ e, Tedge eps st e → Tedge eps stB e := by
            intro e ⟨h1, h2, h3⟩
            by_cases hed : e = d.2
            · subst hed
              exact absurd h2 hvis
            · exact ⟨h1, hvis1 e h2, by rw [hbackB e hed]; exact h3⟩
          have hconnd1 : Tconn eps stB d.1 v := by
            rcases ha5 d.1 hw with hcn | hcm
            · refine Tconn_mono eps htmonB hcn
            · exfalso
              have hdir : (eI eps d.2, d.2) ∈ dirs eps d.1 ∨
                  (eJ eps d.2, d.2) ∈ dirs eps d.1 := by
                rcases hend with ⟨h1, h2⟩ | ⟨h1, h2⟩
                · rw [← h2]
                  exact Or.inl (dirs_endpoint_self eps d.2 hlt).2
                · rw [← h2]
                  exact Or.inr (dirs_endpoint_self eps d.2 hlt).1
              rcases hdir with hdir | hdir
              · exact absurd (hcm _ hdir) (by simpa using hvis)
              · exact absurd (hcm _ hdir) (by simpa using hvis)
          have hinvB : Inv1 hm k3 rSize points eps stB := by
            refine ⟨hinv.accLen, ?_, ?_, ?_, ?_, ?_⟩
            · intro c hcmem
              rcases List.mem_append.mp hcmem with hcm | hcm
              · exact hinv.consLen c hcm
              · simp only [List.mem_singleton] at hcm
                subst hcm
                show (nt.add_other (st1.acc d.1)).v.length = rSize
                rw [CP.add_other_length nt (st1.acc d.1)
                  (by rw [hntLen]; exact le_of_eq (hinv.accLen d.1))]
                exact hntLen
            · intro e he
              by_cases hed : e = d.2
              · subst hed
                exact hvis1d
              · rw [hbackB e hed] at he
                exact hvis1 e (hinv.backVis e he)
            · intro e heT
              obtain ⟨h1, h2, h3⟩ := heT
              have hed : e ≠ d.2 := by
                intro hcon
                rw [hcon] at h3
                rw [hbackBd] at h3
                exact Bool.noConfusion h3
              have h2' : st.edgeVis e = true := by
                have : upd st.edgeVis d.2 true e = true := h2
                rw [upd_ne _ _ _ _ hed] at this
                exact this
              have h3' : st.edgeBack e = false := by
                rw [hbackB e hed] at h3
                exact h3
              exact hinv.tree e ⟨h1, h2', h3'⟩
            · intro e he hbe
              by_cases hed : e = d.2
              · subst hed
                refine ⟨v, d.1, ?_, hv, hw, ?_⟩
                · rcases hend with ⟨h1, h2⟩ | ⟨h1, h2⟩
                  · exact Or.inl ⟨h1, h2⟩
                  · exact Or.inr ⟨h2, h1⟩
                · rw [haccB, hacc]
                  exact List.mem_append.mpr (Or.inr (List.mem_singleton.mpr rfl))
              · rw [hbackB e hed] at hbe
                obtain ⟨a, b, hor, hna, hnb, hcm⟩ := hinv.backc e he hbe
                exact ⟨a, b, hor, hna, hnb, List.mem_append.mpr (Or.inl hcm)⟩
            · intro e he hbe
              by_cases hed : e = d.2
              · subst hed
                rcases hend with ⟨h1, h2⟩ | ⟨h1, h2⟩
                · rw [h1, h2]
                  exact Tconn_symm eps hconnd1
                · rw [h1, h2]
                  exact hconnd1
              · rw [hbackB e hed] at hbe
                exact Tconn_mono eps htmonB (hinv.backconn e he hbe)
          have ha5B : ∀ u, stB.nodeVis u = true →
              Tconn eps stB u v ∨ Complete1 eps stB u := by
            intro u hu
            rcases ha5 u hu with hcn | hcm
            · exact Or.inl (Tconn_mono eps htmonB hcn)
            · exact Or.inr (Complete1_mono eps (fun e he => hvis1 e he) hcm)
          obtain ⟨hmono, hinv3, hv3, hacc3, ha53, hcomp3, hconn3, hsv3⟩ :=
            ih stB st3 heq (fun d2 hd2 => hsnap d2 (List.mem_cons_of_mem d hd2))
              hv hacc hinvB ha5B
          have hmonoB : St1Mono eps st stB :=
            ⟨fun _ h => h, fun _ _ => rfl, hvis1,
              fun e he => by
                by_cases hed : e = d.2
                · subst hed
                  exact hbackBd
                · rw [hbackB e hed]
                  exact he,
              htmonB, ⟨[cnew], rfl⟩⟩
          refine ⟨St1Mono.comp eps hmonoB hmono, hinv3, hv3, hacc3, ha53,
            ?_, ?_, ?_⟩
          · intro u hu
            exact hcomp3 u hu
          · intro u hu
            exact hconn3 u hu
          · intro d2 hd2
            rcases List.mem_cons.mp hd2 with hd2 | hd2
            · subst hd2
              exact hmono.edge d2.2 hvis1d
            · exact hsv3 d2 hd2
        | false =>
          -- tree edge: the callee explores a new node
          have hpre : Pre1 hm k3 rSize points eps d.1 nt st1 := by
            refine ⟨hntLen, ?_, ?_⟩
            · refine ⟨hinv.accLen, hinv.consLen, ?_, ?_, hinv.backc, ?_⟩
              · intro e he
                exact hvis1 e (hinv.backVis e he)
              · intro e heT
                obtain ⟨h1, h2, h3⟩ := heT
                by_cases hed : e = d.2
                · subst hed
                  right
                  refine ⟨v, ?_, hv, ?_⟩
                  · rcases hend with ⟨hh1, hh2⟩ | ⟨hh1, hh2⟩
                    · exact Or.inl ⟨hh1, hh2⟩
                    · exact Or.inr ⟨hh2, hh1⟩
                  · show nt = (st.acc v).add_other cp
                    rw [hacc]
                · left
                  have h2' : st.edgeVis e = true := by
                    have : upd st.edgeVis d.2 true e = true := h2
                    rw [upd_ne _ _ _ _ hed] at this
                    exact this
                  exact hinv.tree e ⟨h1, h2', h3⟩
              · intro e he hbe
                exact Tconn_mono eps htmon1 (hinv.backconn e he hbe)
            · intro u hu
              rcases ha5 u hu with hcn | hcm
              · exact Or.inl
                  (Relation.ReflTransGen.tail (Tconn_mono eps htmon1 hcn) hstepd)
              · exact Or.inr (Complete1_mono eps hvis1 hcm)
          obtain ⟨hres, hpost⟩ := (hstep d.1 nt st1 res st2 hc).2 hw hpre
          subst hres
          simp only at heq
          have hstep2 : Tstep eps st2 d.1 v := by
            refine ⟨d.2, hpost.mono.tmon d.2 htd, ?_⟩
            rcases hend with ⟨h1, h2⟩ | ⟨h1, h2⟩
            · exact Or.inr ⟨h1, h2⟩
            · exact Or.inl ⟨h2, h1⟩
          have hv2 : st2.nodeVis v = true := hpost.mono.node v hv
          have hacc2 : st2.acc v = total := by
            rw [hpost.mono.accp v hv]
            exact hacc
          have ha52 : ∀ u, st2.nodeVis u = true →
              Tconn eps st2 u v ∨ Complete1 eps st2 u := by
            intro u hu
            rcases hpost.newConn u hu with hold | hcn
            · rcases ha5 u hold with hcn | hcm
              · exact Or.inl
                  (Tconn_mono eps (fun e he => hpost.mono.tmon e (htmon1 e he)) hcn)
              · exact Or.inr (Complete1_mono eps
                  (fun e he => hpost.mono.edge e (hvis1 e he)) hcm)
            · exact Or.inl (Relation.ReflTransGen.tail hcn hstep2)
          obtain ⟨hmono, hinv3, hv3, hacc3, ha53, hcomp3, hconn3, hsv3⟩ :=
            ih st2 st3 heq (fun d2 hd2 => hsnap d2 (List.mem_cons_of_mem d hd2))
              hv2 hacc2 hpost.inv ha52
          have hmono1 : St1Mono eps st st1 :=
            ⟨fun _ h => h, fun _ _ => rfl, hvis1, fun _ h => h, htmon1,
              ⟨[], (List.append_nil _).symm⟩⟩
          have hmonoAll : St1Mono eps st st3 :=
            St1Mono.comp eps hmono1 (St1Mono.comp eps hpost.mono hmono)
          refine ⟨hmonoAll, hinv3, hv3, hacc3, ha53, ?_, ?_, ?_⟩
          · intro u hu
            rcases hcomp3 u hu with h2v | hcm
            · rcases hpost.newComplete u h2v with hold | hcm
              · exact Or.inl hold
              · exact Or.inr (Complete1_mono eps (fun e he => hmono.edge e he) hcm)
            · exact Or.inr hcm
          · intro u hu
            rcases hconn3 u hu with h2v | hcn
            · rcases hpost.newConn u h2v with hold | hcn
              · exact Or.inl hold
              · refine Or.inr ?_
                have hcn3 : Tconn eps st3 u d.1 :=
                  Tconn_mono eps (fun e he => hmono.tmon e he) hcn
                refine Relation.ReflTransGen.tail hcn3 ?_
                exact ⟨d.2, hmono.tmon d.2 (hpost.mono.tmon d.2 htd), by
                  rcases hend with ⟨h1, h2⟩ | ⟨h1, h2⟩
                  · exact Or.inr ⟨h1, h2⟩
                  · exact Or.inl ⟨h2, h1⟩⟩
            · exact Or.inr hcn
          · intro d2 hd2
            rcases List.mem_cons.mp hd2 with hd2 | hd2
            · subst hd2
              exact hmono.edge d2.2 (hpost.mono.edge d2.2 hvis1d)
            · exact hsv3 d2 hd2

/-- Every call of `dfs_tofc_rec` satisfies the first-DFS step
specification, at any fuel. -/
theorem dfs_tofc_spec [CharP F 2] : ∀ fuel : Nat,
    StepSpec1 hm k3 rSize points eps
      (fun w tt ss => dfs_tofc_rec hm k3 rSize points eps fuel w tt ss) := by
  intro fuel
  induction fuel with
  | zero =>
    intro w tt ss res ss2 heq
    simp [dfs_tofc_rec] at heq
  | succ fuel ihf =>
    intro w tt ss res ss2 heq
    simp only [dfs_tofc_rec] at heq
    constructor
    · intro hw
      rw [if_pos hw] at heq
      simp only [Option.some_inj, Prod.mk.injEq] at heq
      exact ⟨heq.1.symm, heq.2.symm⟩
    · intro hw hpre
      rw [if_neg (by simp [hw])] at heq
      obtain ⟨htl, hinvp, ha5⟩ := hpre
      set st1 : St1 F := { ss with nodeVis := upd ss.nodeVis w true
                                   acc := upd ss.acc w tt } with hst1
      have hnode1 : ∀ u, u ≠ w → st1.nodeVis u = ss.nodeVis u :=
        fun u hu => upd_ne _ _ _ _ hu
      have hnode1w : st1.nodeVis w = true := upd_self ss.nodeVis w true
      have hacc1 : ∀ u, u ≠ w → st1.acc u = ss.acc u :=
        fun u hu => upd_ne _ _ _ _ hu
      have hacc1w : st1.acc w = tt := upd_self ss.acc w tt
      have hmono1 : St1Mono eps ss st1 := by
        refine ⟨?_, ?_, fun _ h => h, fun _ h => h, fun _ h => h,
          ⟨[], (List.append_nil _).symm⟩⟩
        · intro u hu
          by_cases huw : u = w
          · subst huw
            exact hnode1w
          · rw [hnode1 u huw]
            exact hu
        · intro u hu
          have huw : u ≠ w := by
            intro hcon
            rw [hcon, hw] at hu
            exact Bool.noConfusion hu
          exact hacc1 u huw
      have hvisne : ∀ u, ss.nodeVis u = true → u ≠ w := by
        intro u hu hcon
        rw [hcon, hw] at hu
        exact Bool.noConfusion hu
      have hinv1 : Inv1 hm k3 rSize points eps st1 := by
        refine ⟨?_, hinvp.consLen, hinvp.backVis, ?_, ?_, ?_⟩
        · intro u
          by_cases huw : u = w
          · subst huw
            rw [hacc1w]
            exact htl
          · rw [hacc1 u huw]
            exact hinvp.accLen u
        · intro e heT
          have heT0 : Tedge eps ss e := heT
          rcases hinvp.tree e heT0 with ⟨h1, h2, h3⟩ | ⟨a, hor, hna, htt⟩
          · have hIw : eI eps e ≠ w := hvisne _ h1
            have hJw : eJ eps e ≠ w := hvisne _ h2
            refine ⟨hmono1.node _ h1, hmono1.node _ h2, ?_⟩
            rw [hacc1 _ hIw, hacc1 _ hJw]
            exact h3
          · have haw : a ≠ w := hvisne _ hna
            rcases hor with ⟨h1, h2⟩ | ⟨h1, h2⟩
            · refine ⟨?_, ?_, Or.inl ?_⟩
              · rw [h1]
                exact hmono1.node _ hna
              · rw [h2]
                exact hnode1w
              · rw [h1, h2, hacc1 _ haw, hacc1w]
                exact htt
            · refine ⟨?_, ?_, Or.inr ?_⟩
              · rw [h1]
                exact hnode1w
              · rw [h2]
                exact hmono1.node _ hna
              · rw [h1, h2, hacc1 _ haw, hacc1w]
                exact htt
        · intro e he hbe
          obtain ⟨a, b, hor, hna, hnb, hcm⟩ := hinvp.backc e he hbe
          refine ⟨a, b, hor, hmono1.node _ hna, hmono1.node _ hnb, ?_⟩
          rw [hacc1 _ (hvisne _ hna), hacc1 _ (hvisne _ hnb)]
          exact hcm
        · intro e he hbe
          exact Tconn_mono eps (fun e2 h2 => h2) (hinvp.backconn e he hbe)
      have ha51 : ∀ u, st1.nodeVis u = true →
          Tconn eps st1 u w ∨ Complete1 eps st1 u := by
        intro u hu
        by_cases huw : u = w
        · subst huw
          exact Or.inl Relation.ReflTransGen.refl
        · rw [hnode1 u huw] at hu
          rcases ha5 u hu with hcn | hcm
          · exact Or.inl (Tconn_mono eps (fun e h => h) hcn)
          · exact Or.inr hcm
      cases hrun : tofcLoop hm k3 rSize points
          (fun w2 tt2 ss2 => dfs_tofc_rec hm k3 rSize points eps fuel w2 tt2 ss2)
          tt st1 (next_dirs1 eps st1 w) with
      | none =>
        rw [hrun] at heq
        exact absurd heq (by simp)
      | some stL =>
        rw [hrun] at heq
        simp only [Option.some_inj, Prod.mk.injEq] at heq
        obtain ⟨hres, hss2⟩ := heq
        subst hss2
        refine ⟨hres.symm, ?_⟩
        obtain ⟨hmonoL, hinvL, hvL, haccL, _ha5L, hcompL, hconnL, hsvL⟩ :=
          tofcLoop_spec hm k3 rSize points eps _ ihf w tt htl
            (next_dirs1 eps st1 w) st1 stL hrun
            (fun d hd => List.mem_of_mem_filter hd) hnode1w hacc1w hinv1 ha51
        refine ⟨St1Mono.comp eps hmono1 hmonoL, hinvL, hvL, haccL, ?_, ?_⟩
        · intro u hu
          rcases hcompL u hu with h1v | hcm
          · by_cases huw : u = w
            · -- the current node is complete: every direction was either
              -- already visited or in the snapshot
              refine Or.inr ?_
              rw [huw]
              intro d hd
              by_cases hds : d ∈ next_dirs1 eps st1 w
              · exact hsvL d hds
              · have hnd : ¬(st1.edgeVis d.2 || st1.edgeBack d.2) = false := by
                  intro hcon
                  exact hds (List.mem_filter.mpr ⟨hd, by simp [hcon]⟩)
                have hor : st1.edgeVis d.2 = true ∨ st1.edgeBack d.2 = true := by
                  cases hv1 : st1.edgeVis d.2 with
                  | true => exact Or.inl rfl
                  | false =>
                    cases hb1 : st1.edgeBack d.2 with
                    | true => exact Or.inr rfl
                    | false =>
                      rw [hv1, hb1] at hnd
                      simp at hnd
                rcases hor with h | h
                · exact hmonoL.edge d.2 h
                · exact hmonoL.edge d.2 (hinv1.backVis d.2 h)
            · rw [hnode1 u huw] at h1v
              exact Or.inl h1v
          · exact Or.inr hcm
        · intro u hu
          rcases hconnL u hu with h1v | hcn
          · by_cases huw : u = w
            · subst huw
              exact Or.inr Relation.ReflTransGen.refl
            · rw [hnode1 u huw] at h1v
              exact Or.inl h1v
          · exact Or.inr hcn

/-- Invariant preservation through the root loop of the first DFS. -/
theorem tofcRoots_spec [CharP F 2] (fuel : Nat) :
    ∀ vs ng st ng2 st3,
      tofcRoots hm k3 rSize points eps fuel vs ng st = some (ng2, st3) →
      Inv1 hm k3 rSize points eps st →
      (∀ u, st.nodeVis u = true → Complete1 eps st u) →
      (∀ u, st.nodeVis u = true → ∃ rt ∈ ng, Tconn eps st u rt) →
      St1Mono eps st st3 ∧ Inv1 hm k3 rSize points eps st3 ∧
        (∀ u, st3.nodeVis u = true → Complete1 eps st3 u) ∧
        (∀ u, st3.nodeVis u = true → ∃ rt ∈ ng2, Tconn eps st3 u rt) ∧
        (∀ v ∈ vs, st3.nodeVis v = true) := by
  intro vs
  induction vs with
  | nil =>
    intro ng st ng2 st3 heq hinv hcomp hconn
    simp only [tofcRoots, Option.some_inj, Prod.mk.injEq] at heq
    obtain ⟨hng, hst⟩ := heq
    subst hng
    subst hst
    exact ⟨St1Mono.rfl' eps st, hinv, hcomp, hconn, by simp⟩
  | cons v vs ih =>
    intro ng st ng2 st3 heq hinv hcomp hconn
    simp only [tofcRoots] at heq
    by_cases hv : st.nodeVis v = true
    · rw [if_pos hv] at heq
      obtain ⟨hmono, hinv3, hcomp3, hconn3, hvs3⟩ :=
        ih ng st ng2 st3 heq hinv hcomp hconn
      refine ⟨hmono, hinv3, hcomp3, hconn3, ?_⟩
      intro u hu
      rcases List.mem_cons.mp hu with hu | hu
      · subst hu
        exact hmono.node u hv
      · exact hvs3 u hu
    · rw [if_neg hv] at heq
      cases hc : dfs_tofc_rec hm k3 rSize points eps fuel v (CP.zero F rSize) st with
      | none =>
        rw [hc] at heq
        exact absurd heq (by simp)
      | some pr =>
        obtain ⟨res, st2⟩ := pr
        rw [hc] at heq
        have hw : st.nodeVis v = false := by
          cases hb : st.nodeVis v with
          | false => rfl
          | true => exact absurd hb hv
        have hpre : Pre1 hm k3 rSize points eps v (CP.zero F rSize) st := by
          refine ⟨by simp [CP.zero], hinv.toInvP hm k3 rSize points eps v _, ?_⟩
          intro u hu
          exact Or.inr (hcomp u hu)
        obtain ⟨_hres, hpost⟩ :=
          ((dfs_tofc_spec hm k3 rSize points eps fuel) v (CP.zero F rSize)
            st res st2 hc).2 hw hpre
        have hcomp2 : ∀ u, st2.nodeVis u = true → Complete1 eps st2 u := by
          intro u hu
          rcases hpost.newComplete u hu with hold | hcm
          · exact Complete1_mono eps (fun e he => hpost.mono.edge e he) (hcomp u hold)
          · exact hcm
        have hconn2 : ∀ u, st2.nodeVis u = true →
            ∃ rt ∈ ng ++ [v], Tconn eps st2 u rt := by
          intro u hu
          rcases hpost.newConn u hu with hold | hcn
          · obtain ⟨rt, hrt, hcn⟩ := hconn u hold
            exact ⟨rt, List.mem_append.mpr (Or.inl hrt),
              Tconn_mono eps (fun e he => hpost.mono.tmon e he) hcn⟩
          · exact ⟨v, List.mem_append.mpr (Or.inr (List.mem_singleton.mpr rfl)), hcn⟩
        obtain ⟨hmono, hinv3, hcomp3, hconn3, hvs3⟩ :=
          ih (ng ++ [v]) st2 ng2 st3 heq hpost.inv hcomp2 hconn2
        refine ⟨St1Mono.comp eps hpost.mono hmono, hinv3, hcomp3, hconn3, ?_⟩
        intro u hu
        rcases List.mem_cons.mp hu with hu | hu
        · subst hu
          exact hmono.node u hpost.visv
        · exact hvs3 u hu

/-- Final facts of `dfs_to_find_constraints`: the invariant, completeness of
every visited node, tree connectivity of every visited node to a root of
`new_graph`, and the fact that every edge ends up visited. -/
theorem tofc_final [CharP F 2] (fuel : Nat) (cons : List (List Bool × F))
    (ng : List Nat) (stF : St1 F)
    (heq : dfs_to_find_constraints hm k3 rSize points eps fuel =
      some (cons, ng, stF)) :
    cons = stF.constraints ∧ Inv1 hm k3 rSize points eps stF ∧
      (∀ u, stF.nodeVis u = true → Complete1 eps stF u) ∧
      (∀ u, stF.nodeVis u = true → ∃ rt ∈ ng, Tconn eps stF u rt) ∧
      (∀ e, e < eps.length → stF.edgeVis e = true) := by
  unfold dfs_to_find_constraints at heq
  cases hrun : tofcRoots hm k3 rSize points eps fuel (creationOrder eps) []
      (initSt1 F rSize) with
  | none =>
    rw [hrun] at heq
    exact absurd heq (by simp)
  | some pr =>
    obtain ⟨ng0, st0⟩ := pr
    rw [hrun] at heq
    simp only [Option.some_inj, Prod.mk.injEq] at heq
    obtain ⟨hcons, hng, hst⟩ := heq
    subst hng
    subst hst
    have hinv0 : Inv1 hm k3 rSize points eps (initSt1 F rSize) := by
      refine ⟨fun u => by simp [initSt1, CP.zero], ?_, ?_, ?_, ?_, ?_⟩
      · intro c hc
        simp [initSt1] at hc
      · intro e he
        exact absurd he (by simp [initSt1])
      · intro e heT
        exact absurd heT.2.1 (by simp [initSt1])
      · intro e _ he
        exact absurd he (by simp [initSt1])
      · intro e _ he
        exact absurd he (by simp [initSt1])
    obtain ⟨_hmono, hinvF, hcompF, hconnF, hvsF⟩ :=
      tofcRoots_spec hm k3 rSize points eps fuel (creationOrder eps) []
        (initSt1 F rSize) ng0 st0 hrun hinv0
        (fun u hu => absurd hu (by simp [initSt1]))
        (fun u hu => absurd hu (by simp [initSt1]))
    refine ⟨hcons.symm, hinvF, hcompF, hconnF, ?_⟩
    intro e he
    have hget : eps.get? e = some (eI eps e, eJ eps e) := eps_get?_eq eps e he
    have hmemI : eI eps e ∈ creationOrder eps :=
      (endpoint_mem_creationOrder eps e _ _ hget).1
    have hvisI : st0.nodeVis (eI eps e) = true := hvsF _ hmemI
    exact hcompF _ hvisI (eJ eps e, e) (dirs_endpoint_self eps e he).1

theorem bitSum_some_val (vr : List F) :
    ∀ (bits : List Bool) (i : Nat) (s : F), bitSum vr i bits = some s →
      s = GE.rowValFrom vr i bits := by
  intro bits
  induction bits with
  | nil =>
    intro i s h
    simp only [bitSum, Option.some_inj] at h
    simp [GE.rowValFrom, ← h]
  | cons b bs ihb =>
    intro i s h
    simp only [bitSum, Option.bind_eq_bind] at h
    cases hrest : bitSum vr (i + 1) bs with
    | none => rw [hrest] at h; simp at h
    | some rest =>
      rw [hrest] at h
      simp only [Option.some_bind] at h
      have hr := ihb (i + 1) rest hrest
      cases b with
      | false =>
        simp only [if_neg Bool.false_ne_true, Option.some_inj] at h
        simp only [GE.rowValFrom, if_neg Bool.false_ne_true]
        rw [← h, hr, zero_add]
      | true =>
        simp only [if_true] at h
        cases hg : vr.get? i with
        | none => rw [hg] at h; exact Option.noConfusion h
        | some v =>
          rw [hg] at h
          simp only [Option.some_inj] at h
          simp only [GE.rowValFrom, if_true]
          rw [← h, hr, getD_of_get? vr i 0 v hg]

theorem bitSum_total (vr : List F) :
    ∀ (bits : List Bool) (i : Nat), i + bits.length ≤ vr.length →
      bitSum vr i bits = some (GE.rowValFrom vr i bits) := by
  intro bits
  induction bits with
  | nil =>
    intro i _
    simp [bitSum, GE.rowValFrom]
  | cons b bs ihb =>
    intro i hlen
    simp only [List.length_cons] at hlen
    have hrest := ihb (i + 1) (by omega)
    simp only [bitSum, Option.bind_eq_bind, hrest, Option.some_bind]
    cases b with
    | false =>
      simp only [if_neg Bool.false_ne_true]
      simp [GE.rowValFrom]
    | true =>
      simp only [if_true]
      have hi : i < vr.length := by omega
      rw [get?_eq_some_getD vr 0 i hi]
      simp [GE.rowValFrom]

variable (vecR : List F) (back : Nat → Bool) (lSize : Nat)

/-- `⟨r(k3, x_e), R⟩`: the inner product of edge `e`'s bit vector with the
right part of the code. -/
def ipOf (e : Nat) : F :=
  GE.rowValFrom vecR 0 (r hm k3 (pointOf points e).1 rSize)

/-- The decoding equation of edge `e` over the current `vec_l`. -/
def RelEq (st : St2 F) (e : Nat) : Prop :=
  st.vecL.getD (eI eps e) 0 + st.vecL.getD (eJ eps e) 0 =
    ipOf hm k3 rSize points vecR e + (pointOf points e).2

/-- Established fact for a visited-twice edge: both endpoints visited twice
and the decoding equation holds. -/
def EdgeRel (st : St2 F) (e : Nat) : Prop :=
  st.nodeVis (eI eps e) = true ∧ st.nodeVis (eJ eps e) = true ∧
    RelEq hm k3 rSize points eps vecR st e

/-- Second-DFS invariant. -/
structure Inv2 (st : St2 F) : Prop where
  len : st.vecL.length = lSize
  rel : ∀ e, e < eps.length → back e = false → st.edgeVis e = true →
    EdgeRel hm k3 rSize points eps vecR st e

/-- Every direction out of `u` is a back edge or has a visited-twice edge. -/
def Complete2 (st : St2 F) (u : Nat) : Prop :=
  ∀ d ∈ dirs eps u, back d.2 = true ∨ st.edgeVis d.2 = true

/-- Second-DFS invariant allowing the pending edge into the unvisited call
target `w`: its equation already holds and its other endpoint is visited. -/
def InvP2 (w : Nat) (st : St2 F) : Prop :=
  st.vecL.length = lSize ∧
    ∀ e, e < eps.length → back e = false → st.edgeVis e = true →
      EdgeRel hm k3 rSize points eps vecR st e ∨
        (RelEq hm k3 rSize points eps vecR st e ∧
          ((eI eps e = w ∧ st.nodeVis (eJ eps e) = true) ∨
            (eJ eps e = w ∧ st.nodeVis (eI eps e) = true)))

/-- Postcondition of a second-DFS call on an unvisited node. -/
structure Post2 (w : Nat) (ss ss2 : St2 F) : Prop where
  node : ∀ u, ss.nodeVis u = true → ss2.nodeVis u = true
  edge : ∀ e, ss.edgeVis e = true → ss2.edgeVis e = true
  lpres : ∀ u, ss.nodeVis u = true ∨ u = w →
    ss2.vecL.getD u 0 = ss.vecL.getD u 0
  inv : Inv2 hm k3 rSize points eps vecR back lSize ss2
  visw : ss2.nodeVis w = true
  newComplete : ∀ u, ss2.nodeVis u = true →
    ss.nodeVis u = true ∨ Complete2 eps back ss2 u

/-- Full specification of one second-DFS call. -/
def StepSpec2 (step : Nat → St2 F → Option (St2 F)) : Prop :=
  ∀ w ss ss2, step w ss = some ss2 →
    ss.nodeVis w = false ∧
      (InvP2 hm k3 rSize points eps vecR back lSize w ss →
        Post2 hm k3 rSize points eps vecR back lSize w ss ss2)

/-- Invariant preservation through the edge loop of the second DFS. -/
theorem tocvlLoop_spec [CharP F 2] (step : Nat → St2 F → Option (St2 F))
    (hstep : StepSpec2 hm k3 rSize points eps vecR back lSize step) (u : Nat) :
    ∀ snap st st3,
      tocvlLoop hm k3 rSize points vecR back step u st snap = some st3 →
      (∀ d ∈ snap, d ∈ dirs eps u ∧ back d.2 = false) →
      st.nodeVis u = true →
      Inv2 hm k3 rSize points eps vecR back lSize st →
      (∀ u2, st.nodeVis u2 = true → st3.nodeVis u2 = true) ∧
        (∀ e, st.edgeVis e = true → st3.edgeVis e = true) ∧
        (∀ u2, st.nodeVis u2 = true → st3.vecL.getD u2 0 = st.vecL.getD u2 0) ∧
        Inv2 hm k3 rSize points eps vecR back lSize st3 ∧
        (∀ u2, st3.nodeVis u2 = true →
          st.nodeVis u2 = true ∨ Complete2 eps back st3 u2) ∧
        (∀ d ∈ snap, st3.edgeVis d.2 = true) := by
  intro snap
  induction snap with
  | nil =>
    intro st st3 heq _ hvu hinv
    simp only [tocvlLoop, Option.some_inj] at heq
    subst heq
    exact ⟨fun _ h => h, fun _ h => h, fun _ _ => rfl, hinv,
      fun u2 h => Or.inl h, by simp⟩
  | cons d rest ih =>
    intro st st3 heq hsnap hvu hinv
    simp only [tocvlLoop] at heq
    obtain ⟨hdd, hdback⟩ := hsnap d (List.mem_cons_self d rest)
    obtain ⟨hlt, hend⟩ := dirs_mem_endpoints eps u d hdd
    by_cases hvis : st.edgeVis d.2 = true
    · rw [if_pos hvis] at heq
      obtain ⟨hn3, he3, hl3, hinv3, hc3, hs3⟩ :=
        ih st st3 heq (fun d2 hd2 => hsnap d2 (List.mem_cons_of_mem d hd2)) hvu hinv
      refine ⟨hn3, he3, hl3, hinv3, hc3, ?_⟩
      intro d2 hd2
      rcases List.mem_cons.mp hd2 with hd2 | hd2
      · subst hd2
        exact he3 d2.2 hvis
      · exact hs3 d2 hd2
    · rw [if_neg hvis] at heq
      set st1 : St2 F := { st with edgeVis := upd st.edgeVis d.2 true } with hst1
      have hvis1 : ∀ e, st.edgeVis e = true → st1.edgeVis e = true := by
        intro e he
        by_cases hc : e = d.2
        · subst hc
          exact absurd he hvis
        · show upd st.edgeVis d.2 true e = true
          rw [upd_ne _ _ _ _ hc]
          exact he
      have hvis1d : st1.edgeVis d.2 = true := upd_self st.edgeVis d.2 true
      cases hip : calc_r_inner_product hm (pointOf points d.2).1 vecR k3 rSize with
      | none =>
        rw [hip] at heq
        exact absurd heq (by simp)
      | some ip =>
        rw [hip] at heq
        simp only at heq
        cases hlu : st1.vecL.get? u with
        | none =>
          rw [hlu] at heq
          exact absurd heq (by simp)
        | some lu =>
          rw [hlu] at heq
          simp only at heq
          by_cases hdl : d.1 < st.vecL.length
          · rw [if_pos hdl] at heq
            set st2 : St2 F :=
              { st1 with vecL := st1.vecL.set d.1 (lu + ip + (pointOf points d.2).2) }
              with hst2
            cases hrun : step d.1 st2 with
            | none =>
              rw [hrun] at heq
              exact absurd heq (by simp)
            | some stC =>
              rw [hrun] at heq
              obtain ⟨hw, hpost0⟩ := hstep d.1 st2 stC hrun
              have hwst : st.nodeVis d.1 = false := hw
              have hud : u ≠ d.1 := by
                intro hcon
                rw [← hcon] at hwst
                rw [hvu] at hwst
                exact Bool.noConfusion hwst
              have hipv : ip = ipOf hm k3 rSize points vecR d.2 :=
                bitSum_some_val vecR _ 0 ip hip
              have hluv : lu = st.vecL.getD u 0 :=
                (getD_of_get? st.vecL u 0 lu hlu).symm
              have hlen2 : st2.vecL.length = lSize := by
                show (st.vecL.set d.1 _).length = lSize
                rw [List.length_set]
                exact hinv.len
              have hgu : st2.vecL.getD u 0 = lu := by
                show (st.vecL.set d.1 _).getD u 0 = lu
                rw [GE.getD_set_ne st.vecL d.1 u _ 0 (fun hc => hud hc.symm)]
                exact hluv.symm
              have hgd : st2.vecL.getD d.1 0 = lu + ip + (pointOf points d.2).2 := by
                show (st.vecL.set d.1 _).getD d.1 0 = _
                exact GE.getD_set_self st.vecL d.1 _ 0 hdl
              have hreln : RelEq hm k3 rSize points eps vecR st2 d.2 := by
                show st2.vecL.getD (eI eps d.2) 0 + st2.vecL.getD (eJ eps d.2) 0 =
                  ipOf hm k3 rSize points vecR d.2 + (pointOf points d.2).2
                have hsum : lu + (lu + ip + (pointOf points d.2).2) =
                    ipOf hm k3 rSize points vecR d.2 + (pointOf points d.2).2 := by
                  rw [hipv]
                  have h2 : lu + (lu + ipOf hm k3 rSize points vecR d.2 +
                      (pointOf points d.2).2) = (lu + lu) +
                      (ipOf hm k3 rSize points vecR d.2 + (pointOf points d.2).2) := by
                    ring
                  rw [h2, CharTwo.add_self_eq_zero, zero_add]
                rcases hend with ⟨h1, h2⟩ | ⟨h1, h2⟩
                · rw [h1, h2, hgu, hgd]
                  exact hsum
                · rw [h1, h2, hgu, hgd, add_comm]
                  exact hsum
              have hinvp2 : InvP2 hm k3 rSize points eps vecR back lSize d.1 st2 := by
                refine ⟨hlen2, ?_⟩
                intro e he hbe hev
                by_cases hed : e = d.2
                · subst hed
                  refine Or.inr ⟨hreln, ?_⟩
                  rcases hend with ⟨h1, h2⟩ | ⟨h1, h2⟩
                  · refine Or.inr ⟨h2, ?_⟩
                    rw [h1]
                    exact hvu
                  · refine Or.inl ⟨h2, ?_⟩
                    rw [h1]
                    exact hvu
                · have hev0 : st.edgeVis e = true := by
                    have : upd st.edgeVis d.2 true e = true := hev
                    rw [upd_ne _ _ _ _ hed] at this
                    exact this
                  obtain ⟨hnI, hnJ, hrel⟩ := hinv.rel e he hbe hev0
                  have hIne : eI eps e ≠ d.1 := by
                    intro hcon
                    rw [hcon, hwst] at hnI
                    exact Bool.noConfusion hnI
                  have hJne : eJ eps e ≠ d.1 := by
                    intro hcon
                    rw [hcon, hwst] at hnJ
                    exact Bool.noConfusion hnJ
                  refine Or.inl ⟨hnI, hnJ, ?_⟩
                  show st2.vecL.getD (eI eps e) 0 + st2.vecL.getD (eJ eps e) 0 = _
                  have hgI : st2.vecL.getD (eI eps e) 0 = st.vecL.getD (eI eps e) 0 := by
                    show (st.vecL.set d.1 _).getD (eI eps e) 0 = _
                    exact GE.getD_set_ne st.vecL d.1 (eI eps e) _ 0
                      (fun hc => hIne hc.symm)
                  have hgJ : st2.vecL.getD (eJ eps e) 0 = st.vecL.getD (eJ eps e) 0 := by
                    show (st.vecL.set d.1 _).getD (eJ eps e) 0 = _
                    exact GE.getD_set_ne st.vecL d.1 (eJ eps e) _ 0
                      (fun hc => hJne hc.symm)
                  rw [hgI, hgJ]
                  exact hrel
              have hpost := hpost0 hinvp2
              have hn2 : ∀ u2, st.nodeVis u2 = true → stC.nodeVis u2 = true :=
                fun u2 h => hpost.node u2 h
              have hl2 : ∀ u2, st.nodeVis u2 = true →
                  stC.vecL.getD u2 0 = st.vecL.getD u2 0 := by
                intro u2 h
                rw [hpost.lpres u2 (Or.inl h)]
                show (st.vecL.set d.1 _).getD u2 0 = _
                refine GE.getD_set_ne st.vecL d.1 u2 _ 0 (fun hc => ?_)
                rw [← hc, hwst] at h
                exact Bool.noConfusion h
              obtain ⟨hn3, he3, hl3, hinv3, hc3, hs3⟩ :=
                ih stC st3 heq (fun d2 hd2 => hsnap d2 (List.mem_cons_of_mem d hd2))
                  (hn2 u hvu) hpost.inv
              refine ⟨fun u2 h => hn3 u2 (hn2 u2 h),
                fun e he => he3 e (hpost.edge e (hvis1 e he)),
                fun u2 h => by rw [hl3 u2 (hn2 u2 h)]; exact hl2 u2 h,
                hinv3, ?_, ?_⟩
              · intro u2 h
                rcases hc3 u2 h with hC | hcm
                · rcases hpost.newComplete u2 hC with h2v | hcm
                  · exact Or.inl h2v
                  · refine Or.inr ?_
                    intro d2 hd2
                    rcases hcm d2 hd2 with hb | hvv
                    · exact Or.inl hb
                    · exact Or.inr (he3 d2.2 hvv)
                · exact Or.inr hcm
              · intro d2 hd2
                rcases List.mem_cons.mp hd2 with hd2 | hd2
                · subst hd2
                  exact he3 d2.2 (hpost.edge d2.2 hvis1d)
                · exact hs3 d2 hd2
          · rw [if_neg hdl] at heq
            exact absurd heq (by simp)

/-- Every call of `dfs_tocvl_rec` satisfies the second-DFS step
specification, at any fuel. -/
theorem dfs_tocvl_spec [CharP F 2] : ∀ fuel : Nat,
    StepSpec2 hm k3 rSize points eps vecR back lSize
      (fun w ss => dfs_tocvl_rec hm k3 rSize points eps vecR back fuel w ss) := by
  intro fuel
  induction fuel with
  | zero =>
    intro w ss ss2 heq
    simp [dfs_tocvl_rec] at heq
  | succ fuel ihf =>
    intro w ss ss2 heq
    simp only [dfs_tocvl_rec] at heq
    by_cases hw : ss.nodeVis w = true
    · rw [if_pos hw] at heq
      exact absurd heq (by simp)
    · rw [if_neg hw] at heq
      have hw' : ss.nodeVis w = false := by
        cases hb : ss.nodeVis w with
        | false => rfl
        | true => exact absurd hb hw
      refine ⟨hw', ?_⟩
      intro hinvp
      set st1 : St2 F := { ss with nodeVis := upd ss.nodeVis w true } with hst1
      have hnode1 : ∀ u, u ≠ w → st1.nodeVis u = ss.nodeVis u :=
        fun u hu => upd_ne _ _ _ _ hu
      have hnode1w : st1.nodeVis w = true := upd_self ss.nodeVis w true
      have hnode1m : ∀ u, ss.nodeVis u = true → st1.nodeVis u = true := by
        intro u hu
        by_cases huw : u = w
        · subst huw
          exact hnode1w
        · rw [hnode1 u huw]
          exact hu
      have hinv1 : Inv2 hm k3 rSize points eps vecR back lSize st1 := by
        refine ⟨hinvp.1, ?_⟩
        intro e he hbe hev
        rcases hinvp.2 e he hbe hev with ⟨h1, h2, h3⟩ | ⟨hrel, hor⟩
        · exact ⟨hnode1m _ h1, hnode1m _ h2, h3⟩
        · rcases hor with ⟨h1, h2⟩ | ⟨h1, h2⟩
          · refine ⟨?_, hnode1m _ h2, hrel⟩
            rw [h1]
            exact hnode1w
          · refine ⟨hnode1m _ h2, ?_, hrel⟩
            rw [h1]
            exact hnode1w
      obtain ⟨hn, he, hl, hinvL, hcomp, hsv⟩ :=
        tocvlLoop_spec hm k3 rSize points eps vecR back lSize _ ihf w
          (next_dirs2 eps back st1 w) st1 ss2 heq
          (fun d hd => by
            have hdm := List.mem_filter.mp hd
            refine ⟨hdm.1, ?_⟩
            have hb := hdm.2
            cases hbv : back d.2 with
            | false => rfl
            | true =>
              rw [hbv] at hb
              simp at hb)
          hnode1w hinv1
      refine ⟨fun u hu => hn u (hnode1m u hu), he, ?_, hinvL,
        hn w hnode1w, ?_⟩
      · intro u hu
        have h1 : st1.nodeVis u = true := by
          rcases hu with hu | hu
          · exact hnode1m u hu
          · rw [hu]
            exact hnode1w
        exact hl u h1
      · intro u hu
        rcases hcomp u hu with h1v | hcm
        · by_cases huw : u = w
          · refine Or.inr ?_
            rw [huw]
            intro d hd
            by_cases hds : d ∈ next_dirs2 eps back st1 w
            · exact Or.inr (hsv d hds)
            · have hnd : ¬(st1.edgeVis d.2 || back d.2) = false := by
                intro hcon
                exact hds (List.mem_filter.mpr ⟨hd, by simp [hcon]⟩)
              have hor : st1.edgeVis d.2 = true ∨ back d.2 = true := by
                cases hv1 : st1.edgeVis d.2 with
                | true => exact Or.inl rfl
                | false =>
                  cases hb1 : back d.2 with
                  | true => exact Or.inr rfl
                  | false =>
                    rw [hv1, hb1] at hnd
                    simp at hnd
              rcases hor with h | h
              · exact Or.inr (he d.2 h)
              · exact Or.inl h
          · rw [hnode1 u huw] at h1v
            exact Or.inl h1v
        · exact Or.inr hcm

/-- Invariant preservation through the root loop of the second DFS. -/
theorem tocvlRoots_spec [CharP F 2] (fuel : Nat) :
    ∀ vs st st3,
      dfs_to_calc_vec_l hm k3 rSize points eps vecR back fuel vs st = some st3 →
      Inv2 hm k3 rSize points eps vecR back lSize st →
      (∀ u, st.nodeVis u = true → Complete2 eps back st u) →
      (∀ u, st.nodeVis u = true → st3.nodeVis u = true) ∧
        Inv2 hm k3 rSize points eps vecR back lSize st3 ∧
        (∀ u, st3.nodeVis u = true → Complete2 eps back st3 u) ∧
        (∀ v ∈ vs, st3.nodeVis v = true) := by
  intro vs
  induction vs with
  | nil =>
    intro st st3 heq hinv hcomp
    simp only [dfs_to_calc_vec_l, Option.some_inj] at heq
    subst heq
    exact ⟨fun _ h => h, hinv, hcomp, by simp⟩
  | cons v vs ih =>
    intro st st3 heq hinv hcomp
    simp only [dfs_to_calc_vec_l] at heq
    by_cases hv : st.nodeVis v = true
    · rw [if_pos hv] at heq
      obtain ⟨hn3, hinv3, hcomp3, hvs3⟩ := ih st st3 heq hinv hcomp
      refine ⟨hn3, hinv3, hcomp3, ?_⟩
      intro u hu
      rcases List.mem_cons.mp hu with hu | hu
      · subst hu
        exact hn3 u hv
      · exact hvs3 u hu
    · rw [if_neg hv] at heq
      cases hc : dfs_tocvl_rec hm k3 rSize points eps vecR back fuel v st with
      | none =>
        rw [hc] at heq
        exact absurd heq (by simp)
      | some st2 =>
        rw [hc] at heq
        obtain ⟨_hw, hpost0⟩ :=
          (dfs_tocvl_spec hm k3 rSize points eps vecR back lSize fuel) v st st2 hc
        have hpost := hpost0 ⟨hinv.len, fun e he hbe hev => Or.inl (hinv.rel e he hbe hev)⟩
        have hcomp2 : ∀ u, st2.nodeVis u = true → Complete2 eps back st2 u := by
          intro u hu
          rcases hpost.newComplete u hu with hold | hcm
          · intro d hd
            rcases hcomp u hold d hd with hb | hvv
            · exact Or.inl hb
            · exact Or.inr (hpost.edge d.2 hvv)
          · exact hcm
        obtain ⟨hn3, hinv3, hcomp3, hvs3⟩ := ih st2 st3 heq hpost.inv hcomp2
        refine ⟨fun u hu => hn3 u (hpost.node u hu), hinv3, hcomp3, ?_⟩
        intro u hu
        rcases List.mem_cons.mp hu with hu | hu
        · subst hu
          exact hn3 u hpost.visw
        · exact hvs3 u hu

theorem hash2index_some_lt (k : Nat) (x : F) (mx i : Nat)
    (h : hash2index hm k x mx = some i) : i < mx := by
  unfold hash2index at h
  by_cases hc : 8 ≤ (hm.sha256 (u64be k ++ hm.toBytes x)).length ∧ 0 < mx
  · rw [if_pos hc] at h
    simp only [Option.some_inj] at h
    rw [← h]
    exact Nat.mod_lt _ hc.2
  · rw [if_neg hc] at h
    exact Option.noConfusion h

/-- `construct_cuckoo_graph` computes per point the pair of hash indices, in
input order. -/
theorem edgeEndpoints_spec (k1 k2 lSize : Nat) :
    ∀ (pts : List (F × F)) (eps2 : List (Nat × Nat)),
      edgeEndpoints hm k1 k2 lSize pts = some eps2 →
      eps2.length = pts.length ∧
        ∀ e x y, pts.get? e = some (x, y) →
          hash2index hm k1 x lSize = some (eps2.getD e (0, 0)).1 ∧
          hash2index hm k2 x lSize = some (eps2.getD e (0, 0)).2 := by
  intro pts
  induction pts with
  | nil =>
    intro eps2 h
    simp only [edgeEndpoints, Option.some_inj] at h
    subst h
    exact ⟨rfl, fun e x y hx => by simp at hx⟩
  | cons pt pts ih =>
    intro eps2 h
    simp only [edgeEndpoints, Option.pure_def, Option.bind_eq_bind] at h
    cases h1 : hash2index hm k1 pt.1 lSize with
    | none => rw [h1] at h; simp at h
    | some i =>
      rw [h1] at h
      simp only [Option.some_bind] at h
      cases h2 : hash2index hm k2 pt.1 lSize with
      | none => rw [h2] at h; simp at h
      | some j =>
        rw [h2] at h
        simp only [Option.some_bind] at h
        cases h3 : edgeEndpoints hm k1 k2 lSize pts with
        | none =>
          rw [h3] at h
          simp at h
        | some rest =>
          rw [h3] at h
          simp only [Option.some_bind, Option.some_inj] at h
          subst h
          obtain ⟨hlen, hall⟩ := ih rest h3
          refine ⟨by simp [hlen], ?_⟩
          intro e x y hx
          cases e with
          | zero =>
            simp only [List.get?_cons_zero, Option.some_inj] at hx
            subst hx
            simp only [List.getD_cons_zero]
            exact ⟨h1, h2⟩
          | succ e =>
            simp only [List.get?_cons_succ] at hx
            simpa using hall e x y hx

/-- Every node visited by the first DFS gets visited by the second. -/
theorem coverage [CharP F 2] (stF : St1 F) (st2F : St2 F) (ng : List Nat)
    (hconnF : ∀ u, stF.nodeVis u = true → ∃ rt ∈ ng, Tconn eps stF u rt)
    (hroots : ∀ rt ∈ ng, st2F.nodeVis rt = true)
    (hinv2 : Inv2 hm k3 rSize points eps vecR stF.edgeBack lSize st2F)
    (hcomp2 : ∀ u, st2F.nodeVis u = true → Complete2 eps stF.edgeBack st2F u) :
    ∀ u, stF.nodeVis u = true → st2F.nodeVis u = true := by
  intro u hu
  obtain ⟨rt, hrt, hconn⟩ := hconnF u hu
  have hconn' : Tconn eps stF rt u := Tconn_symm eps hconn
  have hstart : st2F.nodeVis rt = true := hroots rt hrt
  clear hconn hu hrt
  induction hconn' with
  | refl => exact hstart
  | tail _hc hs ihc =>
    rename_i b c
    obtain ⟨e, ⟨hlt, hvis, hback⟩, hor⟩ := hs
    have hbdir : (eJ eps e, e) ∈ dirs eps b ∨ (eI eps e, e) ∈ dirs eps b := by
      rcases hor with ⟨h1, _h2⟩ | ⟨_h1, h2⟩
      · rw [← h1]
        exact Or.inl (dirs_endpoint_self eps e hlt).1
      · rw [← h2]
        exact Or.inr (dirs_endpoint_self eps e hlt).2
    have hvis2 : st2F.edgeVis e = true := by
      rcases hbdir with hbd | hbd
      · rcases hcomp2 b ihc _ hbd with hb | hv
        · rw [hback] at hb
          exact Bool.noConfusion hb
        · exact hv
      · rcases hcomp2 b ihc _ hbd with hb | hv
        · rw [hback] at hb
          exact Bool.noConfusion hb
        · exact hv
    obtain ⟨hnI, hnJ, _⟩ := hinv2.rel e hlt hback hvis2
    rcases hor with ⟨_h1, h2⟩ | ⟨h1, _h2⟩
    · rw [← h2]
      exact hnJ
    · rw [← h1]
      exact hnI

/-- The potential whose constancy along tree paths yields the decoding
equation for back edges. -/
def psi (stF : St1 F) (st2F : St2 F) (u : Nat) : F :=
  st2F.vecL.getD u 0 + cpSem vecR (stF.acc u)

theorem cpSem_edgeCP (e : Nat) :
    cpSem vecR (edgeCP hm k3 rSize points e) =
      ipOf hm k3 rSize points vecR e + (pointOf points e).2 := rfl

theorem psi_step [CharP F 2] (stF : St1 F) (st2F : St2 F)
    (hinv1 : Inv1 hm k3 rSize points eps stF)
    (htrel : ∀ e, e < eps.length → stF.edgeBack e = false →
      stF.edgeVis e = true → RelEq hm k3 rSize points eps vecR st2F e)
    {u w : Nat} (hs : Tstep eps stF u w) :
    psi vecR stF st2F u = psi vecR stF st2F w := by
  obtain ⟨e, heT, hor⟩ := hs
  obtain ⟨hlt, hvis, hback⟩ := heT
  have hrel := htrel e hlt hback hvis
  obtain ⟨_, _, hacc⟩ := hinv1.tree e ⟨hlt, hvis, hback⟩
  have hcpLen : (edgeCP hm k3 rSize points e).v.length ≤ rSize :=
    length_r_le hm k3 (pointOf points e).1 rSize
  have hsemIJ : cpSem vecR (stF.acc (eI eps e)) + cpSem vecR (stF.acc (eJ eps e)) =
      cpSem vecR (edgeCP hm k3 rSize points e) := by
    rcases hacc with hacc | hacc
    · rw [hacc, cpSem_add_other vecR _ _
        (by rw [hinv1.accLen (eI eps e)]; exact hcpLen)]
      have h2 : cpSem vecR (stF.acc (eI eps e)) +
          (cpSem vecR (stF.acc (eI eps e)) + cpSem vecR (edgeCP hm k3 rSize points e)) =
          (cpSem vecR (stF.acc (eI eps e)) + cpSem vecR (stF.acc (eI eps e))) +
            cpSem vecR (edgeCP hm k3 rSize points e) := by ring
      rw [h2, CharTwo.add_self_eq_zero, zero_add]
    · rw [hacc, cpSem_add_other vecR _ _
        (by rw [hinv1.accLen (eJ eps e)]; exact hcpLen)]
      have h2 : cpSem vecR (stF.acc (eJ eps e)) + cpSem vecR (edgeCP hm k3 rSize points e) +
          cpSem vecR (stF.acc (eJ eps e)) =
          (cpSem vecR (stF.acc (eJ eps e)) + cpSem vecR (stF.acc (eJ eps e))) +
            cpSem vecR (edgeCP hm k3 rSize points e) := by ring
      rw [h2, CharTwo.add_self_eq_zero, zero_add]
  have hpsiIJ : psi vecR stF st2F (eI eps e) =
      psi vecR stF st2F (eJ eps e) := by
    have hzero : psi vecR stF st2F (eI eps e) +
        psi vecR stF st2F (eJ eps e) = 0 := by
      unfold psi
      have h2 : st2F.vecL.getD (eI eps e) 0 + cpSem vecR (stF.acc (eI eps e)) +
          (st2F.vecL.getD (eJ eps e) 0 + cpSem vecR (stF.acc (eJ eps e))) =
          (st2F.vecL.getD (eI eps e) 0 + st2F.vecL.getD (eJ eps e) 0) +
            (cpSem vecR (stF.acc (eI eps e)) + cpSem vecR (stF.acc (eJ eps e))) := by
        ring
      rw [h2, hrel, hsemIJ, cpSem_edgeCP]
      exact CharTwo.add_self_eq_zero _
    have h3 : psi vecR stF st2F (eI eps e) +
        psi vecR stF st2F (eJ eps e) +
        psi vecR stF st2F (eJ eps e) =
        psi vecR stF st2F (eJ eps e) := by
      rw [hzero, zero_add]
    calc psi vecR stF st2F (eI eps e)
        = psi vecR stF st2F (eI eps e) +
          (psi vecR stF st2F (eJ eps e) +
            psi vecR stF st2F (eJ eps e)) := by
          rw [CharTwo.add_self_eq_zero, add_zero]
      _ = psi vecR stF st2F (eJ eps e) := by
          rw [← add_assoc]
          exact h3
  rcases hor with ⟨h1, h2⟩ | ⟨h1, h2⟩
  · rw [← h1, ← h2]
    exact hpsiIJ
  · rw [← h1, ← h2]
    exact hpsiIJ.symm

theorem psi_conn [CharP F 2] (stF : St1 F) (st2F : St2 F)
    (hinv1 : Inv1 hm k3 rSize points eps stF)
    (htrel : ∀ e, e < eps.length → stF.edgeBack e = false →
      stF.edgeVis e = true → RelEq hm k3 rSize points eps vecR st2F e)
    {u w : Nat} (hc : Tconn eps stF u w) :
    psi vecR stF st2F u = psi vecR stF st2F w := by
  induction hc with
  | refl => rfl
  | tail _hc hs ihc =>
    rw [ihc]
    exact psi_step hm k3 rSize points eps vecR stF st2F hinv1 htrel hs

theorem char2_add_eq_zero {F2 : Type} [CommRing F2] [CharP F2 2] (a b : F2)
    (h : a + b = 0) : a = b := by
  have h2 : a + b + b = b := by rw [h, zero_add]
  rw [add_assoc, CharTwo.add_self_eq_zero, add_zero] at h2
  exact h2

theorem char2_rearrange {F2 : Type} [CommRing F2] [CharP F2 2] (a b c d : F2)
    (h : a + b = c + d) : a + c = b + d := by
  have e1 : (a + b) + (b + c) = a + c := by
    have e0 : (a + b) + (b + c) = a + (b + b) + c := by ring
    rw [e0, CharTwo.add_self_eq_zero, add_zero]
  have e2 : (c + d) + (b + c) = b + d := by
    have e0 : (c + d) + (b + c) = (c + c) + (b + d) := by ring
    rw [e0, CharTwo.add_self_eq_zero, zero_add]
  rw [← e1, h, e2]

/-- The decoding equation also holds for back edges, via constancy of `psi`
along the tree path between the endpoints and the solved constraint. -/
theorem backedge_releq [CharP F 2] (stF : St1 F) (st2F : St2 F)
    (hinv1 : Inv1 hm k3 rSize points eps stF)
    (htrel : ∀ e, e < eps.length → stF.edgeBack e = false →
      stF.edgeVis e = true → RelEq hm k3 rSize points eps vecR st2F e)
    (hsat : ∀ c ∈ stF.constraints, GE.rowValFrom vecR 0 c.1 = c.2)
    (e : Nat) (hlt : e < eps.length) (hbe : stF.edgeBack e = true) :
    RelEq hm k3 rSize points eps vecR st2F e := by
  have hpsi : psi vecR stF st2F (eI eps e) = psi vecR stF st2F (eJ eps e) :=
    psi_conn hm k3 rSize points eps vecR stF st2F hinv1 htrel
      (hinv1.backconn e hlt hbe)
  obtain ⟨a, b, hor, _hna, _hnb, hcm⟩ := hinv1.backc e hlt hbe
  set cp : CP F := edgeCP hm k3 rSize points e with hcp
  have hcpLen : cp.v.length ≤ rSize := length_r_le hm k3 (pointOf points e).1 rSize
  have hrow := hsat _ hcm
  have hsem0 : cpSem vecR (((stF.acc a).add_other cp).add_other (stF.acc b)) = 0 := by
    unfold cpSem
    have hv1 : (((stF.acc a).add_other cp).add_other (stF.acc b)).v =
        (((stF.acc a).add_other cp).add_other (stF.acc b)).toPair.1 := rfl
    have hv2 : (((stF.acc a).add_other cp).add_other (stF.acc b)).f =
        (((stF.acc a).add_other cp).add_other (stF.acc b)).toPair.2 := rfl
    rw [hv1, hv2, hrow]
    exact CharTwo.add_self_eq_zero _
  have hsplit : cpSem vecR (((stF.acc a).add_other cp).add_other (stF.acc b)) =
      cpSem vecR (stF.acc a) + cpSem vecR cp + cpSem vecR (stF.acc b) := by
    rw [cpSem_add_other vecR _ _ (by
      rw [CP.add_other_length (stF.acc a) cp (by rw [hinv1.accLen a]; exact hcpLen),
        hinv1.accLen a, hinv1.accLen b])]
    rw [cpSem_add_other vecR _ _ (by rw [hinv1.accLen a]; exact hcpLen)]
  have hab : cpSem vecR (stF.acc a) + cpSem vecR (stF.acc b) = cpSem vecR cp := by
    refine char2_add_eq_zero _ _ ?_
    have h2 : cpSem vecR (stF.acc a) + cpSem vecR (stF.acc b) + cpSem vecR cp =
        cpSem vecR (stF.acc a) + cpSem vecR cp + cpSem vecR (stF.acc b) := by ring
    rw [h2, ← hsplit]
    exact hsem0
  have hij : cpSem vecR (stF.acc (eI eps e)) + cpSem vecR (stF.acc (eJ eps e)) =
      cpSem vecR cp := by
    rcases hor with ⟨h1, h2⟩ | ⟨h1, h2⟩
    · rw [h1, h2]
      exact hab
    · rw [h1, h2, add_comm]
      exact hab
  have hLL : st2F.vecL.getD (eI eps e) 0 + st2F.vecL.getD (eJ eps e) 0 =
      cpSem vecR (stF.acc (eI eps e)) + cpSem vecR (stF.acc (eJ eps e)) := by
    have hp := hpsi
    unfold psi at hp
    exact char2_rearrange _ _ _ _ hp
  show st2F.vecL.getD (eI eps e) 0 + st2F.vecL.getD (eJ eps e) 0 =
    ipOf hm k3 rSize points vecR e + (pointOf points e).2
  rw [hLL, hij, hcp, cpSem_edgeCP]

/-- Everything a successful `PaxosSolver::encode` guarantees: the output has
exactly `code_length` entries, and every input point decodes to its value. -/
theorem encode_facts [CharP F 2] (rng : Nat → F) (aux : Nat × Nat × Nat)
    (params : Params) (p : List F)
    (henc : encode hm rng points aux params = some p) :
    p.length = params.code_length ∧
      ∀ x y, (x, y) ∈ points → decode hm p x aux params = some y := by
  unfold encode at henc
  cases heps : edgeEndpoints hm aux.1 aux.2.1 params.l_size points with
  | none =>
    rw [heps] at henc
    exact absurd henc (by simp)
  | some eps =>
    rw [heps] at henc
    simp only at henc
    cases hdfs : dfs_to_find_constraints hm aux.2.2 params.r_size points eps
        (params.l_size + 1) with
    | none =>
      rw [hdfs] at henc
      exact absurd henc (by simp)
    | some tr =>
      obtain ⟨cons, ng, stF⟩ := tr
      rw [hdfs] at henc
      simp only at henc
      by_cases hrs : params.r_size < cons.length
      · rw [if_pos hrs] at henc
        exact absurd henc (by simp)
      · rw [if_neg hrs] at henc
        set vecL0 : List F := (List.range params.l_size).map rng with hvecL0
        set vecR0 : List F :=
          (List.range params.r_size).map (fun i => rng (params.l_size + i)) with hvecR0
        have hL0len : vecL0.length = params.l_size := by
          rw [hvecL0, List.length_map, List.length_range]
        have hR0len : vecR0.length = params.r_size := by
          rw [hvecR0, List.length_map, List.length_range]
        obtain ⟨hconsEq, hinv1, hcomp1, hconn1, hallvis⟩ :=
          tofc_final hm aux.2.2 params.r_size points eps (params.l_size + 1)
            cons ng stF hdfs
        cases hvec : (if 0 < cons.length then
            match GE.gaussian_elimination cons with
            | GE.GeResult.err => none
            | GE.GeResult.noSolution => none
            | GE.GeResult.solved equations => some (GE.adjust_vec_r equations vecR0)
          else some vecR0) with
        | none =>
          rw [hvec] at henc
          exact absurd henc (by simp)
        | some vecR =>
          rw [hvec] at henc
          simp only at henc
          have hRfacts : vecR.length = params.r_size ∧
              ∀ c ∈ cons, GE.rowValFrom vecR 0 c.1 = c.2 := by
            by_cases h0 : 0 < cons.length
            · rw [if_pos h0] at hvec
              cases hge : GE.gaussian_elimination cons with
              | err =>
                rw [hge] at hvec
                exact absurd hvec (by simp)
              | noSolution =>
                rw [hge] at hvec
                exact absurd hvec (by simp)
              | solved eqs =>
                rw [hge] at hvec
                simp only [Option.some_inj] at hvec
                have hhead : (cons.headD ([], 0)).1.length = params.r_size := by
                  cases hcc : cons with
                  | nil =>
                    rw [hcc] at h0
                    simp at h0
                  | cons c0 cs =>
                    simp only [List.headD_cons]
                    refine hinv1.consLen c0 ?_
                    rw [← hconsEq, hcc]
                    exact List.mem_cons_self c0 cs
                obtain ⟨_, _, hsolve⟩ := GE.gaussian_solved_props cons eqs hge
                constructor
                · rw [← hvec, GE.adjust_length, hR0len]
                · intro c hc
                  rw [← hvec]
                  exact hsolve vecR0 (by rw [hR0len, hhead]) c hc
            · rw [if_neg h0] at hvec
              simp only [Option.some_inj] at hvec
              have hnil : cons = [] := by
                cases hcc : cons with
                | nil => rfl
                | cons c0 cs =>
                  rw [hcc] at h0
                  simp at h0
              constructor
              · rw [← hvec]
                exact hR0len
              · intro c hc
                rw [hnil] at hc
                simp at hc
          obtain ⟨hRlen, hsat0⟩ := hRfacts
          have hsat : ∀ c ∈ stF.constraints, GE.rowValFrom vecR 0 c.1 = c.2 := by
            rw [← hconsEq]
            exact hsat0
          cases hdcl : dfs_to_calc_vec_l hm aux.2.2 params.r_size points eps vecR
              stF.edgeBack (params.l_size + 1) ng
              ⟨fun _ => false, fun _ => false, vecL0⟩ with
          | none =>
            rw [hdcl] at henc
            exact absurd henc (by simp)
          | some st2F =>
            rw [hdcl] at henc
            simp only [Option.some_inj] at henc
            -- second-DFS invariants
            have hinit2 : Inv2 hm aux.2.2 params.r_size points eps vecR stF.edgeBack
                params.l_size ⟨fun _ => false, fun _ => false, vecL0⟩ := by
              refine ⟨hL0len, ?_⟩
              intro e _ _ hev
              exact absurd hev (by simp)
            obtain ⟨_hn2, hinv2F, hcomp2F, hroots2⟩ :=
              tocvlRoots_spec hm aux.2.2 params.r_size points eps vecR stF.edgeBack
                params.l_size (params.l_size + 1) ng
                ⟨fun _ => false, fun _ => false, vecL0⟩ st2F hdcl hinit2
                (fun u hu => absurd hu (by simp))
            have hcover : ∀ u, stF.nodeVis u = true → st2F.nodeVis u = true :=
              coverage hm aux.2.2 params.r_size points eps vecR params.l_size stF st2F
                ng hconn1 hroots2 hinv2F hcomp2F
            have hvis2edge : ∀ e, e < eps.length → stF.edgeBack e = false →
                st2F.edgeVis e = true := by
              intro e hlt hb
              obtain ⟨hnI, _, _⟩ := hinv1.tree e ⟨hlt, hallvis e hlt, hb⟩
              rcases hcomp2F _ (hcover _ hnI) _ (dirs_endpoint_self eps e hlt).1 with
                hbb | hvv
              · rw [hb] at hbb
                exact Bool.noConfusion hbb
              · exact hvv
            have htrel : ∀ e, e < eps.length → stF.edgeBack e = false →
                stF.edgeVis e = true →
                RelEq hm aux.2.2 params.r_size points eps vecR st2F e :=
              fun e hlt hb _hv =>
                (hinv2F.rel e hlt hb (hvis2edge e hlt hb)).2.2
            have hrelAll : ∀ e, e < eps.length →
                RelEq hm aux.2.2 params.r_size points eps vecR st2F e := by
              intro e hlt
              cases hb : stF.edgeBack e with
              | false => exact htrel e hlt hb (hallvis e hlt)
              | true =>
                exact backedge_releq hm aux.2.2 params.r_size points eps vecR stF st2F
                  hinv1 htrel hsat e hlt hb
            have hlen2 : st2F.vecL.length = params.l_size := hinv2F.len
            obtain ⟨hepslen, hepsall⟩ :=
              edgeEndpoints_spec hm aux.1 aux.2.1 params.l_size points eps heps
            refine ⟨?_, ?_⟩
            · rw [← henc, List.length_append, hlen2, hRlen]
              rfl
            · intro x y hxy
              obtain ⟨e, hxe⟩ := List.mem_iff_get?.mp hxy
              have helt : e < eps.length := by
                rw [hepslen]
                exact GE.lt_length_of_get?_eq_some hxe
              obtain ⟨hi1, hi2⟩ := hepsall e x y hxe
              have hiE : hash2index hm aux.1 x params.l_size = some (eI eps e) := hi1
              have hjE : hash2index hm aux.2.1 x params.l_size = some (eJ eps e) := hi2
              have hilt : eI eps e < params.l_size :=
                hash2index_some_lt hm aux.1 x params.l_size _ hiE
              have hjlt : eJ eps e < params.l_size :=
                hash2index_some_lt hm aux.2.1 x params.l_size _ hjE
              have hpt : pointOf points e = (x, y) :=
                getD_of_get? points e (0, 0) (x, y) hxe
              have hgetI : p.get? (eI eps e) = some (st2F.vecL.getD (eI eps e) 0) := by
                rw [← henc, List.get?_append (by rw [hlen2]; exact hilt)]
                exact get?_eq_some_getD st2F.vecL 0 _ (by rw [hlen2]; exact hilt)
              have hgetJ : p.get? (eJ eps e) = some (st2F.vecL.getD (eJ eps e) 0) := by
                rw [← henc, List.get?_append (by rw [hlen2]; exact hjlt)]
                exact get?_eq_some_getD st2F.vecL 0 _ (by rw [hlen2]; exact hjlt)
              have hdrop : p.drop params.l_size = vecR := by
                rw [← henc, ← hlen2, List.drop_left]
              have hip : calc_r_inner_product hm x vecR aux.2.2 params.r_size =
                  some (GE.rowValFrom vecR 0 (r hm aux.2.2 x params.r_size)) := by
                unfold calc_r_inner_product
                refine bitSum_total vecR _ 0 ?_
                rw [hRlen]
                simpa using length_r_le hm aux.2.2 x params.r_size
              have hrel := hrelAll e helt
              unfold RelEq at hrel
              rw [hpt] at hrel
              simp only at hrel
              have hipeq : ipOf hm aux.2.2 params.r_size points vecR e =
                  GE.rowValFrom vecR 0 (r hm aux.2.2 x params.r_size) := by
                unfold ipOf
                rw [hpt]
              unfold decode
              rw [hiE]
              simp only [Option.some_bind, Option.bind_eq_bind]
              rw [hjE]
              simp only [Option.some_bind]
              rw [hgetI]
              simp only [Option.some_bind]
              rw [hgetJ]
              simp only [Option.some_bind]
              rw [hdrop, hip]
              simp only [Option.some_bind, Option.some_inj]
              rw [← hipeq, hrel]
              have hch : ipOf hm aux.2.2 params.r_size points vecR e + y +
                  ipOf hm aux.2.2 params.r_size points vecR e =
                  (ipOf hm aux.2.2 params.r_size points vecR e +
                    ipOf hm aux.2.2 params.r_size points vecR e) + y := by ring
              rw [hch, CharTwo.add_self_eq_zero, zero_add]

end Paxos

namespace Vand

variable {K : Type} [Field K] [DecidableEq K]

/-- Horner evaluation of a dense coefficient list (constant term first). -/
def evalPoly (cs : List K) (x : K) : K := cs.foldr (fun c acc => c + x * acc) 0

/-- Coefficientwise sum of dense polynomials. -/
def addPoly : List K → List K → List K
  | [], q => q
  | p, [] => p
  | a :: p, b :: q => (a + b) :: addPoly p q

/-- Scalar multiple of a dense polynomial. -/
def scalePoly (c : K) (p : List K) : List K := p.map (fun a => c * a)

/-- Multiplication by the linear factor `(a + X)`. -/
def linMul (a : K) (p : List K) : List K := addPoly (scalePoly a p) ((0 : K) :: p)

/-- The keys of the point list. -/
def xsOf (points : List (K × K)) : List K := points.map Prod.fst

/-- `∏_{j ≠ i} (x_i - x_j)`: the Lagrange basis denominator. -/
def denomAt (xs : List K) (i : Nat) : K :=
  (((List.range xs.length).filter (fun j => j ≠ i)).map
    (fun j => xs.getD i 0 - xs.getD j 0)).prod

/-- `∏_{j ≠ i} (X - x_j)`: the Lagrange basis numerator. -/
def numPolyAt (xs : List K) (i : Nat) : List K :=
  ((List.range xs.length).filter (fun j => j ≠ i)).foldr
    (fun j acc => linMul (-(xs.getD j 0)) acc) [1]

/-- The Lagrange interpolation polynomial `Σ_i y_i · ℓ_i(X)`, padded to
`n` coefficients. -/
def lagrangeInterp (points : List (K × K)) : List K :=
  (List.range points.length).foldr
    (fun i acc => addPoly
      (scalePoly ((points.getD i (0, 0)).2 * (denomAt (xsOf points) i)⁻¹)
        (numPolyAt (xsOf points) i)) acc)
    (List.replicate points.length 0)

/-- `VandelmondeSolver::encode`.  Modelled from the spec for the external
`Polynomial::interpolate` (scuttlebutt): the interpolation polynomial of the
points, returned as `constant ‖ coefficients`; duplicate keys or an empty
input make interpolation impossible (a division by zero), embedded as
`none`. -/
def vandEncode (points : List (K × K)) : Option (List K) :=
  if (points.map Prod.fst).Nodup ∧ 0 < points.length then
    some (lagrangeInterp points)
  else none

/-- `VandelmondeSolver::decode`: the Horner-style accumulation loop
`sum += coeff * temp; temp *= x` over the code vector. -/
def vandDecode (p : List K) (x : K) : K :=
  (p.foldl (fun q c => (q.1 + c * q.2, q.2 * x)) ((0 : K), (1 : K))).1

/-- `VandelmondeSolver::calc_params` (the set size itself). -/
def vandCalcParams (n : Nat) : Nat := n

/-- `VandelmondeSolverParams::code_length`. -/
def vandCodeLength (params : Nat) : Nat := params

theorem evalPoly_nil (x : K) : evalPoly [] x = 0 := rfl

theorem evalPoly_cons (c : K) (p : List K) (x : K) :
    evalPoly (c :: p) x = c + x * evalPoly p x := rfl

theorem evalPoly_addPoly (x : K) :
    ∀ p q : List K, evalPoly (addPoly p q) x = evalPoly p x + evalPoly q x := by
  intro p
  induction p with
  | nil =>
    intro q
    simp [addPoly, evalPoly_nil]
  | cons a p ih =>
    intro q
    cases q with
    | nil => simp [addPoly, evalPoly_nil]
    | cons b q =>
      show evalPoly ((a + b) :: addPoly p q) x = _
      rw [evalPoly_cons, evalPoly_cons, evalPoly_cons, ih q]
      ring

theorem evalPoly_scalePoly (c : K) (p : List K) (x : K) :
    evalPoly (scalePoly c p) x = c * evalPoly p x := by
  induction p with
  | nil => simp [scalePoly, evalPoly_nil]
  | cons a p ih =>
    show evalPoly ((c * a) :: scalePoly c p) x = _
    rw [evalPoly_cons, evalPoly_cons, ih]
    ring

theorem evalPoly_linMul (a : K) (p : List K) (x : K) :
    evalPoly (linMul a p) x = (a + x) * evalPoly p x := by
  unfold linMul
  rw [evalPoly_addPoly, evalPoly_scalePoly, evalPoly_cons]
  ring

theorem evalPoly_replicate (n : Nat) (x : K) :
    evalPoly (List.replicate n (0 : K)) x = 0 := by
  induction n with
  | zero => rfl
  | succ n ih =>
    show evalPoly ((0 : K) :: List.replicate n 0) x = 0
    rw [evalPoly_cons, ih]
    ring

theorem length_addPoly :
    ∀ p q : List K, (addPoly p q).length = max p.length q.length := by
  intro p
  induction p with
  | nil => intro q; simp [addPoly]
  | cons a p ih =>
    intro q
    cases q with
    | nil => simp [addPoly]
    | cons b q =>
      show (addPoly (a :: p) (b :: q)).length = _
      show ((a + b) :: addPoly p q).length = _
      simp [ih q, Nat.succ_max_succ]

theorem length_scalePoly (c : K) (p : List K) :
    (scalePoly c p).length = p.length := List.length_map p _

theorem length_linMul (a : K) (p : List K) :
    (linMul a p).length = p.length + 1 := by
  unfold linMul
  rw [length_addPoly, length_scalePoly]
  simp [Nat.max_eq_right]

theorem length_foldr_linMul (xs : List K) (js : List Nat) :
    (js.foldr (fun j acc => linMul (-(xs.getD j 0)) acc) [(1 : K)]).length =
      js.length + 1 := by
  induction js with
  | nil => rfl
  | cons j js ih =>
    show (linMul _ (js.foldr _ _)).length = _
    rw [length_linMul, ih]
    simp

theorem filter_range_all (n i : Nat) (h : n ≤ i) :
    (List.range n).filter (fun j => decide (j ≠ i)) = List.range n := by
  refine List.filter_eq_self.mpr ?_
  intro j hj
  have hjn : j < n := List.mem_range.mp hj
  simp only [decide_eq_true_eq]
  omega

theorem filter_range_len (n i : Nat) (h : i < n) :
    ((List.range n).filter (fun j => decide (j ≠ i))).length = n - 1 := by
  induction n with
  | zero => omega
  | succ n ihn =>
    rw [List.range_succ, List.filter_append]
    by_cases hin : i < n
    · rw [List.length_append, ihn hin]
      have hni : (n : Nat) ≠ i := by omega
      simp only [List.filter_cons, List.filter_nil]
      rw [if_pos (by simpa using hni)]
      simp only [List.length_cons, List.length_nil]
      omega
    · have hieq : i = n := by omega
      subst hieq
      rw [filter_range_all i i (le_refl i)]
      simp only [List.filter_cons, List.filter_nil]
      rw [if_neg (by simp)]
      simp

theorem length_numPolyAt (xs : List K) (i : Nat) (h : i < xs.length) :
    (numPolyAt xs i).length = xs.length := by
  unfold numPolyAt
  rw [length_foldr_linMul, filter_range_len xs.length i h]
  omega

theorem length_lagrangeInterp (points : List (K × K)) :
    (lagrangeInterp points).length = points.length := by
  unfold lagrangeInterp
  have hgen : ∀ js : List Nat, (∀ i ∈ js, i < points.length) →
      (js.foldr (fun i acc => addPoly
        (scalePoly ((points.getD i (0, 0)).2 * (denomAt (xsOf points) i)⁻¹)
          (numPolyAt (xsOf points) i)) acc)
        (List.replicate points.length 0)).length = points.length := by
    intro js
    induction js with
    | nil =>
      intro _
      simp
    | cons j js ih =>
      intro hjs
      show (addPoly _ _).length = _
      rw [length_addPoly, length_scalePoly,
        length_numPolyAt (xsOf points) j (by
          rw [xsOf, List.length_map]
          exact hjs j (List.mem_cons_self j js)),
        ih (fun i hi => hjs i (List.mem_cons_of_mem j hi))]
      rw [xsOf, List.length_map]
      simp
  exact hgen (List.range points.length) (fun i hi => List.mem_range.mp hi)

theorem foldl_horner (x : K) :
    ∀ (p : List K) (s t : K),
      (p.foldl (fun q c => (q.1 + c * q.2, q.2 * x)) (s, t)).1 =
        s + t * evalPoly p x := by
  intro p
  induction p with
  | nil =>
    intro s t
    simp [evalPoly_nil]
  | cons c p ih =>
    intro s t
    show (p.foldl _ (s + c * t, t * x)).1 = _
    rw [ih (s + c * t) (t * x), evalPoly_cons]
    ring

theorem vandDecode_eval (p : List K) (x : K) : vandDecode p x = evalPoly p x := by
  unfold vandDecode
  rw [foldl_horner x p 0 1]
  ring

theorem sum_map_range_eq (f : Nat → K) (n : Nat) :
    ((List.range n).map f).sum = ∑ i in Finset.range n, f i := by
  induction n with
  | zero => simp
  | succ n ih =>
    rw [List.range_succ, List.map_append, List.sum_append, Finset.sum_range_succ, ih]
    simp

theorem eval_foldr_add (x : K) (f : Nat → List K) (init : List K) :
    ∀ js : List Nat,
      evalPoly (js.foldr (fun i acc => addPoly (f i) acc) init) x =
        (js.map (fun i => evalPoly (f i) x)).sum + evalPoly init x := by
  intro js
  induction js with
  | nil => simp
  | cons j js ih =>
    show evalPoly (addPoly (f j) _) x = _
    rw [evalPoly_addPoly, ih]
    simp [add_assoc]

theorem eval_foldr_linMul (xs : List K) (x : K) :
    ∀ js : List Nat,
      evalPoly (js.foldr (fun j acc => linMul (-(xs.getD j 0)) acc) [(1 : K)]) x =
        (js.map (fun j => x - xs.getD j 0)).prod := by
  intro js
  induction js with
  | nil =>
    show evalPoly [(1 : K)] x = 1
    rw [evalPoly_cons, evalPoly_nil]
    ring
  | cons j js ih =>
    show evalPoly (linMul _ _) x = _
    rw [evalPoly_linMul, ih, List.map_cons, List.prod_cons]
    ring

theorem nodup_getD_ne (l : List K) (h : l.Nodup) (i j : Nat) (hi : i < l.length)
    (hj : j < l.length) (hij : i ≠ j) : l.getD i 0 ≠ l.getD j 0 := by
  intro hc
  have hgi : l.getD i 0 = l.get ⟨i, hi⟩ :=
    Paxos.getD_of_get? l i 0 _ (List.get?_eq_get hi)
  have hgj : l.getD j 0 = l.get ⟨j, hj⟩ :=
    Paxos.getD_of_get? l j 0 _ (List.get?_eq_get hj)
  rw [hgi, hgj] at hc
  exact hij (Fin.mk.injEq i hi j hj ▸ congrArg Fin.val ((List.Nodup.get_inj_iff h).mp hc))

/-- The round trip of the Vandermonde solver: with distinct keys, decoding
the interpolation polynomial at an input key gives its value. -/
theorem vand_roundtrip (points : List (K × K)) (p : List K)
    (henc : vandEncode points = some p) (x y : K) (hxy : (x, y) ∈ points) :
    vandDecode p x = y := by
  unfold vandEncode at henc
  by_cases hcond : (points.map Prod.fst).Nodup ∧ 0 < points.length
  case neg =>
    rw [if_neg hcond] at henc
    exact Option.noConfusion henc
  case pos =>
  rw [if_pos hcond] at henc
  simp only [Option.some_inj] at henc
  obtain ⟨hnd, _hn0⟩ := hcond
  obtain ⟨k, hk⟩ := List.mem_iff_get?.mp hxy
  have hklt : k < points.length := GE.lt_length_of_get?_eq_some hk
  have hptk : points.getD k (0, 0) = (x, y) := Paxos.getD_of_get? points k (0, 0) _ hk
  have hxsk : (xsOf points).getD k 0 = x := by
    refine Paxos.getD_of_get? (xsOf points) k 0 x ?_
    unfold xsOf
    rw [List.get?_map, hk]
    rfl
  have hxslen : (xsOf points).length = points.length := List.length_map points _
  have hndxs : (xsOf points).Nodup := hnd
  rw [vandDecode_eval, ← henc]
  unfold lagrangeInterp
  rw [eval_foldr_add x _ _ (List.range points.length), evalPoly_replicate, add_zero]
  have hmpc : ∀ i, evalPoly (scalePoly ((points.getD i (0, 0)).2 *
      (denomAt (xsOf points) i)⁻¹) (numPolyAt (xsOf points) i)) x =
      (points.getD i (0, 0)).2 * (denomAt (xsOf points) i)⁻¹ *
        evalPoly (numPolyAt (xsOf points) i) x := fun i => evalPoly_scalePoly _ _ x
  rw [List.map_congr_left (fun i _ => hmpc i), sum_map_range_eq]
  rw [Finset.sum_eq_single_of_mem k (Finset.mem_range.mpr hklt)]
  · have hevk : evalPoly (numPolyAt (xsOf points) k) x = denomAt (xsOf points) k := by
      unfold numPolyAt denomAt
      rw [eval_foldr_linMul]
      refine congrArg List.prod (List.map_congr_left ?_)
      intro j _
      rw [hxsk]
    rw [hevk, hptk]
    have hdne : denomAt (xsOf points) k ≠ 0 := by
      unfold denomAt
      refine List.prod_ne_zero ?_
      intro hzero
      obtain ⟨j, hjmem, hjeq⟩ := List.mem_map.mp hzero
      have hjr := List.mem_filter.mp hjmem
      have hjlt : j < points.length := by
        have := List.mem_range.mp hjr.1
        rw [hxslen] at this
        exact this
      have hjk : j ≠ k := by simpa using hjr.2
      have hne := nodup_getD_ne (xsOf points) hndxs k j
        (by rw [hxslen]; exact hklt) (by rw [hxslen]; exact hjlt)
        (fun hc => hjk hc.symm)
      exact hne (sub_eq_zero.mp hjeq)
    show y * (denomAt (xsOf points) k)⁻¹ * denomAt (xsOf points) k = y
    rw [mul_assoc, inv_mul_cancel₀ hdne, mul_one]
  · intro i _hi hik
    have hz : evalPoly (numPolyAt (xsOf points) i) x = 0 := by
      unfold numPolyAt
      rw [eval_foldr_linMul]
      refine List.prod_eq_zero ?_
      refine List.mem_map.mpr ⟨k, ?_, ?_⟩
      · refine List.mem_filter.mpr ⟨?_, ?_⟩
        · rw [List.mem_range, hxslen]
          exact hklt
        · simpa using fun hc => hik hc.symm
      · rw [hxsk]
        ring
    rw [hz, mul_zero]

theorem vand_length (points : List (K × K)) (p : List K)
    (henc : vandEncode points = some p) : p.length = points.length := by
  unfold vandEncode at henc
  by_cases hcond : (points.map Prod.fst).Nodup ∧ 0 < points.length
  · rw [if_pos hcond] at henc
    simp only [Option.some_inj] at henc
    rw [← henc]
    exact length_lagrangeInterp points
  · rw [if_neg hcond] at henc
    exact Option.noConfusion henc

end Vand

/-- Concrete hash model used by solver witnesses: a constant all-ones-bits
digest of 32 bytes, which makes both hash indices of any point collide
(`h1(x) = h2(x)`, a self loop in the cuckoo graph). -/
def hmW2 : HashModel (ZMod 2) :=
  ⟨fun _ => List.replicate 32 255, fun x => [x.val]⟩

/-- The code vector produced by `encode` on the witness self-loop instance. -/
def pW2 : List (ZMod 2) := [0, 0, 1] ++ List.replicate 39 0

theorem calc_params_one : Paxos.calc_params 1 = ⟨2, 40⟩ := by
  have hr : (Paxos.calc_params 1).r_size = 40 := by
    rw [r_size_eq_clog 1 (le_refl 1), Nat.clog_one_right]
  show (⟨2, (Paxos.calc_params 1).r_size⟩ : Paxos.Params) = ⟨2, 40⟩
  rw [hr]

theorem vandEncode_w : Vand.vandEncode [((0 : ZMod 2), 1)] = some [1] := by
  unfold Vand.vandEncode
  rw [if_pos (by constructor <;> decide)]
  refine congrArg some ?_
  have hd : Vand.denomAt (Vand.xsOf [((0 : ZMod 2), 1)]) 0 = 1 := rfl
  have hlag : Vand.lagrangeInterp [((0 : ZMod 2), 1)] =
      [(1 : ZMod 2) * (Vand.denomAt (Vand.xsOf [((0 : ZMod 2), 1)]) 0)⁻¹ * 1 + 0] :=
    rfl
  rw [hlag, hd, inv_one]
  norm_num

/-- C2: for every point list on which `encode` succeeds with
`params = calc_params n` (`n` the list length, keys distinct) and any aux
keys, each input point decodes back to its value:
`decode(encode(points), x) = y`.  This holds for `PaxosSolver` (over the
char-2 field, covering self-loop inputs `h1(x) = h2(x)`), and for
`VandelmondeSolver` via Lagrange interpolation. -/
theorem claim_C2 :
    (∀ (F : Type) [CommRing F] [CharP F 2] (hm : HashModel F)
      (rng : Nat → F) (points : List (F × F)) (aux : Nat × Nat × Nat) (p : List F),
      (points.map Prod.fst).Nodup →
      Paxos.encode hm rng points aux (Paxos.calc_params points.length) = some p →
      ∀ x y, (x, y) ∈ points →
        Paxos.decode hm p x aux (Paxos.calc_params points.length) = some y) ∧
    (∀ (K : Type) [Field K] [DecidableEq K] (points : List (K × K)) (p : List K),
      (points.map Prod.fst).Nodup →
      Vand.vandEncode points = some p →
      ∀ x y, (x, y) ∈ points → Vand.vandDecode p x = y) := by
  constructor
  · intro F _ _ hm rng points aux p _hnd henc x y hxy
    exact (Paxos.encode_facts hm points rng aux (Paxos.calc_params points.length)
      p henc).2 x y hxy
  · intro K _ _ points p hnd henc x y hxy
    exact Vand.vand_roundtrip points p henc x y hxy

theorem claim_C2_witness :
    (([((1 : ZMod 2), (1 : ZMod 2))].map Prod.fst).Nodup ∧
        Paxos.encode hmW2 (fun _ => 0) [((1 : ZMod 2), 1)] (0, 0, 0)
          (Paxos.calc_params 1) = some pW2 ∧
        ((1 : ZMod 2), (1 : ZMod 2)) ∈ [((1 : ZMod 2), (1 : ZMod 2))] ∧
        Paxos.decode hmW2 pW2 1 (0, 0, 0) (Paxos.calc_params 1) = some 1) ∧
      (([((0 : ZMod 2), (1 : ZMod 2))].map Prod.fst).Nodup ∧
        Vand.vandEncode [((0 : ZMod 2), 1)] = some [1] ∧
        ((0 : ZMod 2), (1 : ZMod 2)) ∈ [((0 : ZMod 2), (1 : ZMod 2))] ∧
        Vand.vandDecode [(1 : ZMod 2)] 0 = 1) :=
  ⟨⟨by decide, by rw [calc_params_one]; decide, by decide,
      claim_C2.1 (ZMod 2) hmW2 (fun _ => 0) [((1 : ZMod 2), 1)] (0, 0, 0) pW2
        (by decide)
        (by show Paxos.encode hmW2 (fun _ => 0) [((1 : ZMod 2), 1)] (0, 0, 0)
              (Paxos.calc_params 1) = some pW2
            rw [calc_params_one]
            decide) 1 1 (by decide)⟩,
    ⟨by decide, vandEncode_w, by decide,
      claim_C2.2 (ZMod 2) [((0 : ZMod 2), 1)] [(1 : ZMod 2)]
        (by decide) vandEncode_w 0 1 (by decide)⟩⟩

/-- C7: `PaxosSolver::calc_params n` has `l_size = 2n + ⌊n/100⌋` and
`r_size = ⌈log₂ n⌉ + 40`; `code_length = l_size + r_size`; a successful
`encode` returns exactly `code_length` field elements; and
`VandelmondeSolver`'s code length is `n` (its encode returns `n`
coefficients). -/
theorem claim_C7 :
    (∀ n : Nat, 1 ≤ n →
      (Paxos.calc_params n).l_size = 2 * n + n / 100 ∧
      (Paxos.calc_params n).r_size = Nat.clog 2 n + 40) ∧
    (∀ params : Paxos.Params, params.code_length = params.l_size + params.r_size) ∧
    (∀ (F : Type) [CommRing F] [CharP F 2] (hm : HashModel F) (rng : Nat → F)
      (points : List (F × F)) (aux : Nat × Nat × Nat) (params : Paxos.Params)
      (p : List F), Paxos.encode hm rng points aux params = some p →
        p.length = params.code_length) ∧
    (∀ n : Nat, Vand.vandCodeLength (Vand.vandCalcParams n) = n) ∧
    (∀ (K : Type) [Field K] [DecidableEq K] (points : List (K × K)) (p : List K),
      Vand.vandEncode points = some p → p.length = points.length) := by
  refine ⟨fun n hn => ⟨rfl, r_size_eq_clog n hn⟩, fun _ => rfl, ?_, fun _ => rfl, ?_⟩
  · intro F _ _ hm rng points aux params p henc
    exact (Paxos.encode_facts hm points rng aux params p henc).1
  · intro K _ _ points p henc
    exact Vand.vand_length points p henc

theorem claim_C7_witness :
    ((1 : Nat) ≤ 5 ∧ (Paxos.calc_params 5).l_size = 2 * 5 + 5 / 100 ∧
        (Paxos.calc_params 5).r_size = Nat.clog 2 5 + 40) ∧
      (Paxos.calc_params 7).code_length =
        (Paxos.calc_params 7).l_size + (Paxos.calc_params 7).r_size ∧
      (Paxos.encode hmW2 (fun _ => 0) [((1 : ZMod 2), 1)] (0, 0, 0)
          (Paxos.calc_params 1) = some pW2 ∧
        pW2.length = (Paxos.calc_params 1).code_length) ∧
      Vand.vandCodeLength (Vand.vandCalcParams 9) = 9 ∧
      (Vand.vandEncode [((0 : ZMod 2), 1)] = some [1] ∧
        ([(1 : ZMod 2)]).length = ([((0 : ZMod 2), (1 : ZMod 2))]).length) :=
  ⟨⟨by decide, claim_C7.1 5 (by decide)⟩,
    claim_C7.2.1 (Paxos.calc_params 7),
    ⟨by rw [calc_params_one]; decide,
      claim_C7.2.2.1 (ZMod 2) hmW2 (fun _ => 0) [((1 : ZMod 2), 1)]
        (0, 0, 0) (Paxos.calc_params 1) pW2 (by rw [calc_params_one]; decide)⟩,
    claim_C7.2.2.2.1 9,
    ⟨vandEncode_w, claim_C7.2.2.2.2 (ZMod 2) [((0 : ZMod 2), 1)] [(1 : ZMod 2)]
      vandEncode_w⟩⟩

namespace Vole

/-- The sampling loop of `OtVoleReceiver::receive` (`src/vole/ot_based.rs`):
`for _ in 0..m { let a = rng.gen::<u128>(); if a == 0 { continue; } ...
a_vec.push(F::from_u128(a)); }`.  Each of the `m` iterations consumes one
draw from the stream; a zero draw makes the iteration `continue`, so it is
dropped, not redrawn.  Draws are `u128` values, modelled as `Nat`. -/
def otVoleReceiverAvec (draws : Nat → Nat) (m : Nat) : List Nat :=
  ((List.range m).map draws).filter (fun a => a ≠ 0)

/-- The tail of `OtVoleReceiver::receive`: the receiver obtains one OT
message per choice bit (`F_LENGTH` bits per kept draw), so `c_vec` has one
entry per kept draw, and the function then executes
`assert!(c_vec.len() == m)` before returning `(a_vec, c_vec)`.  The
assertion failure (a Rust panic) is embedded as `none`; on success the
returned `a_vec` is the kept draws. -/
def otVoleReceiverSample (draws : Nat → Nat) (m : Nat) : Option (List Nat) :=
  let a_vec := otVoleReceiverAvec draws m
  if a_vec.length = m then some a_vec else none

end Vole

/-- C4: the claim says a zero sample of `A[i]` is rejected and a fresh one
drawn in its place, with `A` and `C` returned at length exactly `m`.  The
code instead `continue`s past zero draws without replacement, so the kept
vectors come up short and the function's own `assert!(c_vec.len() == m)`
fails: on the run whose first draw is zero with `m = 1`, the kept `a_vec`
is empty and the call panics (`none`) instead of returning length-1
vectors.  The claim does not hold of this code. -/
theorem claim_C4 :
    Vole.otVoleReceiverAvec (fun _ => 0) 1 = [] ∧
      Vole.otVoleReceiverSample (fun _ => 0) 1 = none ∧
      Vole.otVoleReceiverAvec (fun t => if t = 0 then 0 else t) 2 = [1] ∧
      Vole.otVoleReceiverSample (fun t => if t = 0 then 0 else t) 2 = none := by
  refine ⟨rfl, rfl, rfl, rfl⟩

namespace Oprf

variable {F : Type} [CommRing F]

/-- The encode retry loop shared by `SepOprfReceiverWithVole::receive` and
`SepOpprfSenderWithVole::send`:
`let mut aux = gen_aux(rng)?; for _ in 0..2 { p = encode(rng, points, aux,
params); if p.is_ok() { break; } aux = gen_aux(rng)?; } let p = p?;`.
`genAux t` is the `t`-th aux drawn from the rng and `enc aux t` the encode
attempt with that aux at rng stage `t`; the result pairs the encoding with
the aux variable live at loop exit (the one subsequently sent with
`aux_send`).  Exhausting the loop without success surfaces the error
(`none`). -/
def encodeRetry {A P : Type} (genAux : Nat → A) (enc : A → Nat → Option P) :
    Nat → Nat → A → Option (P × A)
  | 0, _t, _aux => none
  | n + 1, t, aux =>
    match enc aux t with
    | some p => some (p, aux)
    | none => encodeRetry genAux enc n (t + 1) (genAux (t + 1))

/-- The retry loop of `SepOprfReceiverWithVole::receive` (oprf.rs): the
points are the receiver's queries paired with `hash_f`. -/
def oprfReceiverRetry (hm : HashModel F) (rngs : Nat → Nat → F)
    (points : List (F × F)) (genAux : Nat → Nat × Nat × Nat)
    (params : Paxos.Params) : Option (List F × (Nat × Nat × Nat)) :=
  encodeRetry genAux
    (fun aux t => Paxos.encode hm (rngs t) points aux params) 2 0 (genAux 0)

/-- The retry loop of `SepOpprfSenderWithVole::send` (opprf.rs): the points
are the programmed pairs `(x, z - fk(x))`. -/
def opprfSenderRetry (hm : HashModel F) (rngs : Nat → Nat → F)
    (points : List (F × F)) (genAux : Nat → Nat × Nat × Nat)
    (params : Paxos.Params) : Option (List F × (Nat × Nat × Nat)) :=
  encodeRetry genAux
    (fun aux t => Paxos.encode hm (rngs t) points aux params) 2 0 (genAux 0)

theorem encodeRetry_spec {A P : Type} (genAux : Nat → A) (enc : A → Nat → Option P) :
    (∀ p a, encodeRetry genAux enc 2 0 (genAux 0) = some (p, a) →
      (enc (genAux 0) 0 = some p ∧ a = genAux 0) ∨
        (enc (genAux 0) 0 = none ∧ enc (genAux 1) 1 = some p ∧ a = genAux 1)) ∧
      (encodeRetry genAux enc 2 0 (genAux 0) = none →
        enc (genAux 0) 0 = none ∧ enc (genAux 1) 1 = none) := by
  constructor
  · intro p a h
    unfold encodeRetry at h
    cases h0 : enc (genAux 0) 0 with
    | some p0 =>
      rw [h0] at h
      simp only [Option.some_inj, Prod.mk.injEq] at h
      refine Or.inl ⟨?_, h.2.symm⟩
      rw [h.1]
    | none =>
      rw [h0] at h
      simp only at h
      unfold encodeRetry at h
      cases h1 : enc (genAux 1) 1 with
      | some p1 =>
        rw [h1] at h
        simp only [Option.some_inj, Prod.mk.injEq] at h
        refine Or.inr ⟨rfl, ?_, h.2.symm⟩
        rw [h.1]
      | none =>
        rw [h1] at h
        simp only at h
        exact absurd h (by simp [encodeRetry])
  · intro h
    unfold encodeRetry at h
    cases h0 : enc (genAux 0) 0 with
    | some p0 =>
      rw [h0] at h
      exact absurd h (by simp)
    | none =>
      rw [h0] at h
      simp only at h
      unfold encodeRetry at h
      cases h1 : enc (genAux 1) 1 with
      | some p1 =>
        rw [h1] at h
        exact absurd h (by simp)
      | none => exact ⟨rfl, rfl⟩

/-- `collect::<Result<Vec<_>, _>>()` over a list of fallible items. -/
def collectResults {α β : Type} (f : α → Option β) : List α → Option (List β)
  | [] => some []
  | x :: xs => do
    let y ← f x
    let ys ← collectResults f xs
    pure (y :: ys)

theorem collectResults_spec {α β : Type} (f : α → Option β) :
    ∀ (l : List α) (res : List β), collectResults f l = some res →
      res.length = l.length ∧
        ∀ i x, l.get? i = some x → ∃ y, res.get? i = some y ∧ f x = some y := by
  intro l
  induction l with
  | nil =>
    intro res h
    simp only [collectResults, Option.some_inj] at h
    subst h
    exact ⟨rfl, fun i x hx => by simp at hx⟩
  | cons a l ih =>
    intro res h
    simp only [collectResults, Option.pure_def, Option.bind_eq_bind] at h
    cases h1 : f a with
    | none => rw [h1] at h; simp at h
    | some y =>
      rw [h1] at h
      simp only [Option.some_bind] at h
      cases h2 : collectResults f l with
      | none => rw [h2] at h; simp at h
      | some ys =>
        rw [h2] at h
        simp only [Option.some_bind, Option.some_inj] at h
        subst h
        obtain ⟨hlen, hall⟩ := ih ys h2
        refine ⟨by simp [hlen], ?_⟩
        intro i x hx
        cases i with
        | zero =>
          simp only [List.get?_cons_zero, Option.some_inj] at hx
          subst hx
          exact ⟨y, rfl, h1⟩
        | succ i =>
          simp only [List.get?_cons_succ] at hx
          simpa using hall i x hx

/-- The result loop of `SepOprfReceiverWithVole::receive`: one
`(x, hash(decode(vec_c, x), x))` pair per query, in query order. -/
def oprfReceiverOut (hm : HashModel F) (hashH : F → F → F) (vecC : List F)
    (aux : Nat × Nat × Nat) (params : Paxos.Params) (queries : List F) :
    Option (List (F × F)) :=
  collectResults (fun x =>
    (Paxos.decode hm vecC x aux params).map (fun d => (x, hashH d x))) queries

/-- The result loop of `SepOpprfReceiverWithVole::receive`: one
`(x, decode(p, x) + fk(x))` pair per OPRF result pair. -/
def opprfReceiverOut (hm : HashModel F) (p : List F) (aux : Nat × Nat × Nat)
    (params : Paxos.Params) (oprfRes : List (F × F)) : Option (List (F × F)) :=
  collectResults (fun q =>
    (Paxos.decode hm p q.1 aux params).map (fun d => (q.1, d + q.2))) oprfRes

/-- The key vector of `SepOprfSenderWithVole::send`:
`k = a_dash.zip(vec_b).map(|(ad, b)| delta * ad + b)`. -/
def oprfSenderKeys (delta : F) (aDash vecB : List F) : List F :=
  (aDash.zip vecB).map (fun q => delta * q.1 + q.2)

/-- The sender's evaluator `fk` from `SepOprfSenderWithVole::send`:
`hash(decode(k, x) - delta * hash_f(x), x)`. -/
def oprfSenderEval (hm : HashModel F) (hashF : F → F) (hashH : F → F → F)
    (k : List F) (delta : F) (aux : Nat × Nat × Nat) (params : Paxos.Params)
    (x : F) : Option F :=
  (Paxos.decode hm k x aux params).map (fun d => hashH (d - delta * hashF x) x)

theorem getD_zip_map (f : F → F → F) (hf0 : f 0 0 = 0) (a b : List F)
    (hlen : a.length = b.length) (i : Nat) :
    ((a.zip b).map (fun q => f q.1 q.2)).getD i 0 = f (a.getD i 0) (b.getD i 0) := by
  rw [GE.getD_eq_option, List.get?_map, GE.get?_zip]
  by_cases hi : i < a.length
  · rw [Paxos.get?_eq_some_getD a 0 i hi, Paxos.get?_eq_some_getD b 0 i (hlen ▸ hi)]
    rfl
  · have h1 : a.get? i = none := List.get?_eq_none.mpr (by omega)
    have h2 : b.get? i = none := List.get?_eq_none.mpr (by omega)
    have h3 : a.getD i 0 = 0 := by
      rw [GE.getD_eq_option, h1]
      rfl
    have h4 : b.getD i 0 = 0 := by
      rw [GE.getD_eq_option, h2]
      rfl
    rw [h1, h3, h4, hf0]
    rfl

theorem rowValFrom_comb (delta : F) (kv pv cv : List F)
    (hk : ∀ i, kv.getD i 0 = delta * pv.getD i 0 + cv.getD i 0) :
    ∀ (bits : List Bool) (j : Nat),
      GE.rowValFrom kv j bits =
        delta * GE.rowValFrom pv j bits + GE.rowValFrom cv j bits := by
  intro bits
  induction bits with
  | nil =>
    intro j
    simp [GE.rowValFrom]
  | cons b bs ih =>
    intro j
    simp only [GE.rowValFrom]
    rw [ih (j + 1), hk j]
    cases b with
    | false => simp
    | true =>
      simp only [if_true]
      ring

theorem rowValFrom_drop (q : List F) (n : Nat) :
    ∀ (bits : List Bool) (j : Nat),
      GE.rowValFrom (q.drop n) j bits = GE.rowValFrom q (n + j) bits := by
  intro bits
  induction bits with
  | nil =>
    intro j
    simp [GE.rowValFrom]
  | cons b bs ih =>
    intro j
    simp only [GE.rowValFrom]
    rw [ih (j + 1), Paxos.getD_drop]
    have h : n + (j + 1) = (n + j) + 1 := by omega
    rw [h]

/-- The value `decode` computes, as a function of the two hash indices. -/
theorem decode_formula (hm : HashModel F) (q : List F) (x : F)
    (aux : Nat × Nat × Nat) (params : Paxos.Params) (i j : Nat)
    (hi : Paxos.hash2index hm aux.1 x params.l_size = some i)
    (hj : Paxos.hash2index hm aux.2.1 x params.l_size = some j)
    (hq : q.length = params.l_size + params.r_size) :
    Paxos.decode hm q x aux params =
      some (q.getD i 0 + q.getD j 0 +
        GE.rowValFrom q params.l_size (Paxos.r hm aux.2.2 x params.r_size)) := by
  have hilt : i < params.l_size := Paxos.hash2index_some_lt hm aux.1 x params.l_size i hi
  have hjlt : j < params.l_size := Paxos.hash2index_some_lt hm aux.2.1 x params.l_size j hj
  unfold Paxos.decode
  rw [hi]
  simp only [Option.bind_eq_bind, Option.some_bind]
  rw [hj]
  simp only [Option.some_bind]
  rw [Paxos.get?_eq_some_getD q 0 i (by omega)]
  simp only [Option.some_bind]
  rw [Paxos.get?_eq_some_getD q 0 j (by omega)]
  simp only [Option.some_bind]
  have hipt : Paxos.calc_r_inner_product hm x (q.drop params.l_size) aux.2.2
      params.r_size = some (GE.rowValFrom q params.l_size
        (Paxos.r hm aux.2.2 x params.r_size)) := by
    unfold Paxos.calc_r_inner_product
    rw [Paxos.bitSum_total (q.drop params.l_size) _ 0 (by
      rw [List.length_drop, hq]
      have := Paxos.length_r_le hm aux.2.2 x params.r_size
      omega)]
    rw [rowValFrom_drop q params.l_size _ 0]
    rw [Nat.add_zero]
  rw [hipt]
  simp only [Option.some_bind]

theorem decode_some_elim (hm : HashModel F) (q : List F) (x : F)
    (aux : Nat × Nat × Nat) (params : Paxos.Params) (d : F)
    (h : Paxos.decode hm q x aux params = some d) :
    ∃ i j, Paxos.hash2index hm aux.1 x params.l_size = some i ∧
      Paxos.hash2index hm aux.2.1 x params.l_size = some j := by
  unfold Paxos.decode at h
  cases hi : Paxos.hash2index hm aux.1 x params.l_size with
  | none =>
    rw [hi] at h
    simp at h
  | some i =>
    rw [hi] at h
    simp only [Option.bind_eq_bind, Option.some_bind] at h
    cases hj : Paxos.hash2index hm aux.2.1 x params.l_size with
    | none =>
      rw [hj] at h
      simp at h
    | some j => exact ⟨i, j, rfl, rfl⟩

end Oprf

/-- C8: in the OPRF receiver's and the OPPRF sender's online phases, solver
encoding is attempted at most twice: once with the initially generated aux
and, on failure, exactly once more with a freshly regenerated aux, after
which the failure surfaces as an error; the aux handed to `aux_send` is the
one used by the successful attempt. -/
theorem claim_C8 {F : Type} [CommRing F] (hm : HashModel F)
    (rngs : Nat → Nat → F) (points : List (F × F))
    (genAux : Nat → Nat × Nat × Nat) (params : Paxos.Params) :
    (∀ p a, Oprf.oprfReceiverRetry hm rngs points genAux params = some (p, a) →
      (Paxos.encode hm (rngs 0) points (genAux 0) params = some p ∧ a = genAux 0) ∨
        (Paxos.encode hm (rngs 0) points (genAux 0) params = none ∧
          Paxos.encode hm (rngs 1) points (genAux 1) params = some p ∧
          a = genAux 1)) ∧
      (Oprf.oprfReceiverRetry hm rngs points genAux params = none →
        Paxos.encode hm (rngs 0) points (genAux 0) params = none ∧
          Paxos.encode hm (rngs 1) points (genAux 1) params = none) ∧
      (∀ p a, Oprf.opprfSenderRetry hm rngs points genAux params = some (p, a) →
        (Paxos.encode hm (rngs 0) points (genAux 0) params = some p ∧ a = genAux 0) ∨
          (Paxos.encode hm (rngs 0) points (genAux 0) params = none ∧
            Paxos.encode hm (rngs 1) points (genAux 1) params = some p ∧
            a = genAux 1)) ∧
      (Oprf.opprfSenderRetry hm rngs points genAux params = none →
        Paxos.encode hm (rngs 0) points (genAux 0) params = none ∧
          Paxos.encode hm (rngs 1) points (genAux 1) params = none) := by
  refine ⟨?_, ?_, ?_, ?_⟩
  · exact (Oprf.encodeRetry_spec genAux
      (fun aux t => Paxos.encode hm (rngs t) points aux params)).1
  · exact (Oprf.encodeRetry_spec genAux
      (fun aux t => Paxos.encode hm (rngs t) points aux params)).2
  · exact (Oprf.encodeRetry_spec genAux
      (fun aux t => Paxos.encode hm (rngs t) points aux params)).1
  · exact (Oprf.encodeRetry_spec genAux
      (fun aux t => Paxos.encode hm (rngs t) points aux params)).2

theorem claim_C8_witness :
    (Oprf.oprfReceiverRetry hmW2 (fun _ _ => 0) [((1 : ZMod 2), 1)]
        (fun _ => (0, 0, 0)) ⟨2, 40⟩ = some (pW2, (0, 0, 0)) ∧
      ((Paxos.encode hmW2 (fun _ => (0 : ZMod 2)) [((1 : ZMod 2), 1)] (0, 0, 0)
          ⟨2, 40⟩ = some pW2 ∧ (0, 0, 0) = ((0, 0, 0) : Nat × Nat × Nat)) ∨
        (Paxos.encode hmW2 (fun _ => (0 : ZMod 2)) [((1 : ZMod 2), 1)] (0, 0, 0)
            ⟨2, 40⟩ = none ∧
          Paxos.encode hmW2 (fun _ => (0 : ZMod 2)) [((1 : ZMod 2), 1)] (0, 0, 0)
            ⟨2, 40⟩ = some pW2 ∧
          (0, 0, 0) = ((0, 0, 0) : Nat × Nat × Nat)))) :=
  ⟨by decide,
    (claim_C8 hmW2 (fun _ _ => 0) [((1 : ZMod 2), 1)] (fun _ => (0, 0, 0))
      ⟨2, 40⟩).1 pW2 (0, 0, 0) (by decide)⟩

/-- C9: the OPRF receiver and the OPPRF receiver return exactly one
`(input, output)` pair per query, positionally aligned with the queries
slice: the `i`-th returned pair has first component `queries[i]`.  The MPSI
accumulation `s_hat_sum[i] += y` indexes shares by position, which this
alignment justifies. -/
theorem claim_C9 {F : Type} [CommRing F] (hm : HashModel F) (hashH : F → F → F)
    (vecC p : List F) (aux : Nat × Nat × Nat) (params : Paxos.Params)
    (queries : List F) :
    (∀ res, Oprf.oprfReceiverOut hm hashH vecC aux params queries = some res →
      res.length = queries.length ∧
        ∀ i x, queries.get? i = some x → ∃ y, res.get? i = some (x, y)) ∧
    (∀ oprfRes res2,
      Oprf.oprfReceiverOut hm hashH vecC aux params queries = some oprfRes →
      Oprf.opprfReceiverOut hm p aux params oprfRes = some res2 →
      res2.length = queries.length ∧
        ∀ i x, queries.get? i = some x → ∃ y, res2.get? i = some (x, y)) := by
  have halign1 : ∀ res,
      Oprf.oprfReceiverOut hm hashH vecC aux params queries = some res →
      res.length = queries.length ∧
        ∀ i x, queries.get? i = some x → ∃ y, res.get? i = some (x, y) := by
    intro res h
    obtain ⟨hlen, hall⟩ := Oprf.collectResults_spec _ queries res h
    refine ⟨hlen, ?_⟩
    intro i x hx
    obtain ⟨q, hq, hfq⟩ := hall i x hx
    obtain ⟨d, _hd, hdq⟩ := Option.map_eq_some'.mp hfq
    exact ⟨hashH d x, by rw [hq, ← hdq]⟩
  refine ⟨halign1, ?_⟩
  intro oprfRes res2 h1 h2
  obtain ⟨hlen1, hall1⟩ := halign1 oprfRes h1
  obtain ⟨hlen2, hall2⟩ := Oprf.collectResults_spec _ oprfRes res2 h2
  refine ⟨by rw [hlen2, hlen1], ?_⟩
  intro i x hx
  obtain ⟨y1, hq1⟩ := hall1 i x hx
  obtain ⟨q2, hq2, hfq2⟩ := hall2 i (x, y1) hq1
  obtain ⟨d, _hd, hdq⟩ := Option.map_eq_some'.mp hfq2
  exact ⟨d + y1, by rw [hq2, ← hdq]⟩

theorem claim_C9_witness :
    Oprf.oprfReceiverOut hmW (fun d x => d + x) [1, 0, 1] (0, 0, 0) ⟨1, 2⟩
        [(0 : ZMod 2)] = some [(0, 0)] ∧
      Oprf.opprfReceiverOut hmW [1, 0, 1] (0, 0, 0) ⟨1, 2⟩
        [((0 : ZMod 2), 0)] = some [(0, 0)] ∧
      [((0 : ZMod 2), (0 : ZMod 2))].length = [(0 : ZMod 2)].length ∧
      [((0 : ZMod 2), (0 : ZMod 2))].length = [(0 : ZMod 2)].length :=
  ⟨by decide, by decide,
    ((claim_C9 hmW (fun d x => d + x) [1, 0, 1] [1, 0, 1] (0, 0, 0)
      ⟨1, 2⟩ [(0 : ZMod 2)]).1 [(0, 0)] (by decide)).1,
    ((claim_C9 hmW (fun d x => d + x) [1, 0, 1] [1, 0, 1] (0, 0, 0)
      ⟨1, 2⟩ [(0 : ZMod 2)]).2 [(0, 0)] [(0, 0)] (by decide) (by decide)).1⟩

/-- C3: OPRF agreement.  Given a VOLE correlation `C = A*Δ + B` and a
successful encoding `P` of the receiver's points `(x, H_F(x))`, the sender's
key vector `K = Δ·(P + A) + B` satisfies `K[i] = Δ·P[i] + C[i]`; decoding is
linear, so `decode(K, x) = Δ·decode(P, x) + decode(C, x)`; and for every
query `x` the sender's evaluator `H(decode(K, x) - Δ·H_F(x), x)` equals the
receiver's output value `H(decode(C, x), x)` paired with `x`. -/
theorem claim_C3 {F : Type} [CommRing F] [CharP F 2] (hm : HashModel F)
    (hashF : F → F) (hashH : F → F → F) (rng : Nat → F) (delta : F)
    (vecA vecB vecC : List F) (queries : List F) (aux : Nat × Nat × Nat)
    (params : Paxos.Params) (p : List F)
    (hlenA : vecA.length = params.code_length)
    (hlenB : vecB.length = params.code_length)
    (hcorr : vecC = (vecA.zip vecB).map (fun q => q.1 * delta + q.2))
    (henc : Paxos.encode hm rng (queries.map (fun x => (x, hashF x))) aux
      params = some p) :
    (∀ i, (Oprf.oprfSenderKeys delta ((p.zip vecA).map (fun q => q.1 + q.2))
        vecB).getD i 0 = delta * p.getD i 0 + vecC.getD i 0) ∧
      (∀ x dp dc, Paxos.decode hm p x aux params = some dp →
        Paxos.decode hm vecC x aux params = some dc →
        Paxos.decode hm (Oprf.oprfSenderKeys delta
          ((p.zip vecA).map (fun q => q.1 + q.2)) vecB) x aux params =
          some (delta * dp + dc)) ∧
      ∀ x, x ∈ queries → ∃ dc, Paxos.decode hm vecC x aux params = some dc ∧
        Oprf.oprfSenderEval hm hashF hashH
          (Oprf.oprfSenderKeys delta ((p.zip vecA).map (fun q => q.1 + q.2))
            vecB) delta aux params x = some (hashH dc x) := by
  have hplen : p.length = params.code_length :=
    (Paxos.encode_facts hm (queries.map (fun x => (x, hashF x))) rng aux
      params p henc).1
  have haDlen : ((p.zip vecA).map (fun q => q.1 + q.2)).length =
      params.code_length := by
    rw [List.length_map, List.length_zip, hplen, hlenA]
    exact Nat.min_self _
  have hClen : vecC.length = params.code_length := by
    rw [hcorr, List.length_map, List.length_zip, hlenA, hlenB]
    exact Nat.min_self _
  have hKi : ∀ i, (Oprf.oprfSenderKeys delta
      ((p.zip vecA).map (fun q => q.1 + q.2)) vecB).getD i 0 =
      delta * p.getD i 0 + vecC.getD i 0 := by
    intro i
    unfold Oprf.oprfSenderKeys
    rw [Oprf.getD_zip_map (fun a b => delta * a + b) (by ring) _ vecB
      (by rw [haDlen, hlenB])]
    rw [Oprf.getD_zip_map (fun a b => a + b) (by ring) p vecA
      (by rw [hplen, hlenA])]
    rw [hcorr, Oprf.getD_zip_map (fun a b => a * delta + b) (by ring) vecA vecB
      (by rw [hlenA, hlenB])]
    ring
  have hKlen : (Oprf.oprfSenderKeys delta
      ((p.zip vecA).map (fun q => q.1 + q.2)) vecB).length =
      params.code_length := by
    unfold Oprf.oprfSenderKeys
    rw [List.length_map, List.length_zip, haDlen, hlenB]
    exact Nat.min_self _
  have hb : ∀ x dp dc, Paxos.decode hm p x aux params = some dp →
      Paxos.decode hm vecC x aux params = some dc →
      Paxos.decode hm (Oprf.oprfSenderKeys delta
        ((p.zip vecA).map (fun q => q.1 + q.2)) vecB) x aux params =
        some (delta * dp + dc) := by
    intro x dp dc hdp hdc
    obtain ⟨i, j, hi, hj⟩ := Oprf.decode_some_elim hm p x aux params dp hdp
    have hFp := Oprf.decode_formula hm p x aux params i j hi hj
      (by rw [hplen]; rfl)
    have hFc := Oprf.decode_formula hm vecC x aux params i j hi hj
      (by rw [hClen]; rfl)
    have hFk := Oprf.decode_formula hm (Oprf.oprfSenderKeys delta
      ((p.zip vecA).map (fun q => q.1 + q.2)) vecB) x aux params i j hi hj
      (by rw [hKlen]; rfl)
    rw [hdp] at hFp
    rw [hdc] at hFc
    have hdp2 := Option.some_inj.mp hFp
    have hdc2 := Option.some_inj.mp hFc
    rw [hFk, hKi i, hKi j,
      Oprf.rowValFrom_comb delta _ p vecC hKi _ params.l_size, hdp2, hdc2]
    refine congrArg some ?_
    ring
  refine ⟨hKi, hb, ?_⟩
  intro x hxq
  have hmem : (x, hashF x) ∈ queries.map (fun x => (x, hashF x)) :=
    List.mem_map_of_mem _ hxq
  have hdp := (Paxos.encode_facts hm (queries.map (fun x => (x, hashF x)))
    rng aux params p henc).2 x (hashF x) hmem
  obtain ⟨i, j, hi, hj⟩ := Oprf.decode_some_elim hm p x aux params _ hdp
  have hdc := Oprf.decode_formula hm vecC x aux params i j hi hj
    (by rw [hClen]; rfl)
  refine ⟨_, hdc, ?_⟩
  unfold Oprf.oprfSenderEval
  rw [hb x (hashF x) _ hdp hdc]
  refine congrArg some ?_
  refine congrArg (fun z => hashH z x) ?_
  ring

theorem claim_C3_witness :
    ((List.replicate 42 (0 : ZMod 2)).length =
        (⟨2, 40⟩ : Paxos.Params).code_length ∧
      List.replicate 42 (0 : ZMod 2) =
        ((List.replicate 42 (0 : ZMod 2)).zip
          (List.replicate 42 (0 : ZMod 2))).map (fun q => q.1 * 1 + q.2) ∧
      Paxos.encode hmW2 (fun _ => 0) ([(1 : ZMod 2)].map (fun x => (x, 1)))
        (0, 0, 0) ⟨2, 40⟩ = some pW2) ∧
      (Oprf.oprfSenderKeys 1
          ((pW2.zip (List.replicate 42 (0 : ZMod 2))).map (fun q => q.1 + q.2))
          (List.replicate 42 (0 : ZMod 2))).getD 2 0 =
        1 * pW2.getD 2 0 + (List.replicate 42 (0 : ZMod 2)).getD 2 0 ∧
      Paxos.decode hmW2 (Oprf.oprfSenderKeys 1
          ((pW2.zip (List.replicate 42 (0 : ZMod 2))).map (fun q => q.1 + q.2))
          (List.replicate 42 (0 : ZMod 2))) 1 (0, 0, 0) ⟨2, 40⟩ =
        some (1 * 1 + 0) :=
  ⟨⟨by decide, by decide, by decide⟩,
    (claim_C3 hmW2 (fun _ => 1) (fun d x => d + x) (fun _ => 0) 1
      (List.replicate 42 0) (List.replicate 42 0) (List.replicate 42 0)
      [(1 : ZMod 2)] (0, 0, 0) ⟨2, 40⟩ pW2 (by decide) (by decide) (by decide)
      (by decide)).1 2,
    (claim_C3 hmW2 (fun _ => 1) (fun d x => d + x) (fun _ => 0) 1
      (List.replicate 42 0) (List.replicate 42 0) (List.replicate 42 0)
      [(1 : ZMod 2)] (0, 0, 0) ⟨2, 40⟩ pW2 (by decide) (by decide) (by decide)
      (by decide)).2.1 1 1 0 (by decide) (by decide)⟩

theorem sum_map_range_add {M : Type} [AddCommMonoid M] (f : Nat → M) (n : Nat) :
    ((List.range n).map f).sum = ∑ i in Finset.range n, f i := by
  induction n with
  | zero => simp
  | succ n ih =>
    rw [List.range_succ, List.map_append, List.sum_append, Finset.sum_range_succ, ih]
    simp

namespace Mpsi

variable {F : Type} [CommRing F] [DecidableEq F]

/-- `secret_sharing_of_zero`: `nparties - 1` random draws followed by their
running sum (the source pushes `sum`, not `-sum`; over the char-2 field the
shares still sum to zero). -/
def secret_sharing_of_zero (nparties : Nat) (draw : Nat → F) : List F :=
  ((List.range (nparties - 1)).map draw) ++
    [((List.range (nparties - 1)).map draw).sum]

/-- An ideal OPPRF evaluator: at a programmed point it returns the
programmed value (first occurrence); elsewhere an arbitrary junk value. -/
def opprfIdeal (points : List (F × F)) (junk : F → F) (x : F) : F :=
  match points.find? (fun q => q.1 = x) with
  | some q => q.2
  | none => junk x

/-- Party `i`'s zero-share vector for its `k`-th item (`s[k]` drawn via
`secret_sharing_of_zero(nparties, rng)`). -/
def shareVec (N : Nat) (draws : Nat → Nat → Nat → F) (i k : Nat) : List F :=
  secret_sharing_of_zero N (draws i k)

/-- The points party `j` programs towards party `i` in conditional zero
sharing: `(x, s[k][other_id])` per input index `k`. -/
def zsPoints (N : Nat) (inputs : Nat → List F) (draws : Nat → Nat → Nat → F)
    (j i : Nat) : List (F × F) :=
  (List.range (inputs j).length).map
    (fun k => ((inputs j).getD k 0, (shareVec N draws j k).getD i 0))

/-- `s_hat_sum[k]` of party `i` after conditional zero sharing: the kept
share `shares[self.id]` plus the OPPRF value received from every other
party at the own input `x = inputs_i[k]`. -/
def zsSum (N : Nat) (inputs : Nat → List F) (draws : Nat → Nat → Nat → F)
    (junkZ : Nat → Nat → F → F) (i k : Nat) : F :=
  (shareVec N draws i k).getD i 0 +
    (((List.range N).filter (fun j => j ≠ i)).map
      (fun j => opprfIdeal (zsPoints N inputs draws j i) (junkZ j i)
        ((inputs i).getD k 0))).sum

/-- The reconstruction points sender `i` programs towards the receiver:
`(x_i[k], s_hat_sum_i[k])`. -/
def rcPoints (N : Nat) (inputs : Nat → List F) (draws : Nat → Nat → Nat → F)
    (junkZ : Nat → Nat → F → F) (i : Nat) : List (F × F) :=
  (List.range (inputs i).length).map
    (fun k => ((inputs i).getD k 0, zsSum N inputs draws junkZ i k))

/-- The receiver's accumulated sum for its `k`-th input after conditional
reconstruction. -/
def finalSum (N : Nat) (inputs : Nat → List F) (draws : Nat → Nat → Nat → F)
    (junkZ : Nat → Nat → F → F) (junkR : Nat → F → F) (k : Nat) : F :=
  zsSum N inputs draws junkZ 0 k +
    (((List.range N).filter (fun i => i ≠ 0)).map
      (fun i => opprfIdeal (rcPoints N inputs draws junkZ i) (junkR i)
        ((inputs 0).getD k 0))).sum

/-- `Receiver::receive`'s output:
`inputs.zip(s_hat_sum).filter_map(|(x, s)| s.is_zero().then(x))`. -/
def mpsiOutput (N : Nat) (inputs : Nat → List F) (draws : Nat → Nat → Nat → F)
    (junkZ : Nat → Nat → F → F) (junkR : Nat → F → F) : List F :=
  ((inputs 0).zip ((List.range (inputs 0).length).map
      (finalSum N inputs draws junkZ junkR))).filterMap
    (fun q => if q.2 = 0 then some q.1 else none)

theorem sum_secret_sharing [CharP F 2] (nparties : Nat) (draw : Nat → F) :
    (secret_sharing_of_zero nparties draw).sum = 0 := by
  unfold secret_sharing_of_zero
  rw [List.sum_append, List.sum_cons, List.sum_nil, add_zero]
  exact CharTwo.add_self_eq_zero _

theorem length_secret_sharing (nparties : Nat) (draw : Nat → F)
    (h : 1 ≤ nparties) : (secret_sharing_of_zero nparties draw).length = nparties := by
  unfold secret_sharing_of_zero
  rw [List.length_append, List.length_map, List.length_range]
  simp only [List.length_cons, List.length_nil]
  omega

theorem sum_getD_eq_sum (l : List F) :
    ((List.range l.length).map (fun i => l.getD i 0)).sum = l.sum := by
  induction l with
  | nil => simp
  | cons a t ih =>
    rw [List.length_cons, List.range_succ_eq_map, List.map_cons, List.map_map,
      List.sum_cons]
    have hc : ((List.range t.length).map ((fun i => (a :: t).getD i 0) ∘ Nat.succ)) =
        (List.range t.length).map (fun i => t.getD i 0) := by
      refine List.map_congr_left ?_
      intro i _
      rfl
    rw [hc, ih]
    rfl

theorem sum_filter_ne (N i : Nat) (hi : i < N) (f : Nat → F) :
    ((List.range N).map f).sum =
      f i + (((List.range N).filter (fun j => j ≠ i)).map f).sum := by
  induction N with
  | zero => omega
  | succ N ihn =>
    rw [List.range_succ, List.map_append, List.sum_append, List.filter_append]
    by_cases hin : i < N
    · rw [ihn hin]
      have hni : (N : Nat) ≠ i := by omega
      simp only [List.filter_cons, List.filter_nil]
      rw [if_pos (by simpa using hni)]
      simp only [List.map_append, List.sum_append, List.map_cons, List.map_nil,
        List.sum_cons, List.sum_nil]
      ring
    · have hieq : i = N := by omega
      subst hieq
      rw [Vand.filter_range_all i i (le_refl i)]
      simp only [List.filter_cons, List.filter_nil]
      rw [if_neg (by simp)]
      simp only [List.map_cons, List.map_nil, List.sum_cons, List.sum_nil,
        List.append_nil, add_zero]
      ring

theorem points_cons (a : F) (rest : List F) (f : Nat → F) :
    (List.range (a :: rest).length).map (fun t => ((a :: rest).getD t 0, f t)) =
      (a, f 0) :: (List.range rest.length).map
        (fun t => (rest.getD t 0, f (t + 1))) := by
  rw [List.length_cons, List.range_succ_eq_map, List.map_cons, List.map_map]
  refine congrArg (List.cons (a, f 0)) ?_
  refine List.map_congr_left ?_
  intro t _
  rfl

theorem opprfIdeal_programmed (junk : F → F) (x : F) :
    ∀ (xs : List F) (f : Nat → F) (k : Nat), xs.Nodup → xs.get? k = some x →
      opprfIdeal ((List.range xs.length).map (fun t => (xs.getD t 0, f t)))
        junk x = f k := by
  intro xs
  induction xs with
  | nil =>
    intro f k _ hk
    simp at hk
  | cons a rest ih =>
    intro f k hnd hk
    rw [points_cons a rest f]
    unfold opprfIdeal
    by_cases hax : a = x
    · have hk0 : k = 0 := by
        cases k with
        | zero => rfl
        | succ k2 =>
          exfalso
          simp only [List.get?_cons_succ] at hk
          have hmem : x ∈ rest := List.mem_iff_get?.mpr ⟨k2, hk⟩
          rw [← hax] at hmem
          exact (List.nodup_cons.mp hnd).1 hmem
      subst hk0
      rw [List.find?_cons_of_pos _ (by simpa using hax)]
    · have hk1 : ∃ k2, k = k2 + 1 := by
        cases k with
        | zero =>
          simp only [List.get?_cons_zero, Option.some_inj] at hk
          exact absurd hk hax
        | succ k2 => exact ⟨k2, rfl⟩
      obtain ⟨k2, hkeq⟩ := hk1
      subst hkeq
      simp only [List.get?_cons_succ] at hk
      rw [List.find?_cons_of_neg _ (by simpa using hax)]
      exact ih (fun t => f (t + 1)) k2 (List.nodup_cons.mp hnd).2 hk

theorem mpsiOutput_mem (N : Nat) (inputs : Nat → List F)
    (draws : Nat → Nat → Nat → F) (junkZ : Nat → Nat → F → F)
    (junkR : Nat → F → F) (x : F) :
    x ∈ mpsiOutput N inputs draws junkZ junkR ↔
      ∃ k, (inputs 0).get? k = some x ∧
        finalSum N inputs draws junkZ junkR k = 0 := by
  unfold mpsiOutput
  rw [List.mem_filterMap]
  constructor
  · rintro ⟨a, ha, hfa⟩
    obtain ⟨k, hk⟩ := List.mem_iff_get?.mp ha
    rw [GE.get?_zip] at hk
    cases h1 : (inputs 0).get? k with
    | none =>
      rw [h1] at hk
      simp at hk
    | some x1 =>
      rw [h1] at hk
      have hkn : k < (inputs 0).length := GE.lt_length_of_get?_eq_some h1
      rw [List.get?_map, List.get?_range hkn] at hk
      simp only [Option.map_some', Option.some_bind, Option.some_inj] at hk
      subst hk
      by_cases hz : finalSum N inputs draws junkZ junkR k = 0
      · rw [if_pos hz] at hfa
        simp only [Option.some_inj] at hfa
        subst hfa
        exact ⟨k, h1, hz⟩
      · rw [if_neg hz] at hfa
        exact Option.noConfusion hfa
  · rintro ⟨k, hk, hz⟩
    have hkn : k < (inputs 0).length := GE.lt_length_of_get?_eq_some hk
    refine ⟨(x, finalSum N inputs draws junkZ junkR k), ?_, ?_⟩
    · refine List.mem_iff_get?.mpr ⟨k, ?_⟩
      rw [GE.get?_zip, hk, List.get?_map, List.get?_range hkn]
      rfl
    · rw [if_pos hz]

theorem finalSum_zero [CharP F 2] (N : Nat) (inputs : Nat → List F)
    (draws : Nat → Nat → Nat → F) (junkZ : Nat → Nat → F → F)
    (junkR : Nat → F → F) (hN : 2 ≤ N)
    (hnd : ∀ i, i < N → (inputs i).Nodup) (x : F) (kf : Nat → Nat)
    (hkf : ∀ i, i < N → (inputs i).get? (kf i) = some x) :
    finalSum N inputs draws junkZ junkR (kf 0) = 0 := by
  have hzs : ∀ i, i < N → zsSum N inputs draws junkZ i (kf i) =
      ∑ j in Finset.range N, (shareVec N draws j (kf j)).getD i 0 := by
    intro i hi
    unfold zsSum
    have hx : (inputs i).getD (kf i) 0 = x :=
      Paxos.getD_of_get? _ _ _ _ (hkf i hi)
    rw [hx]
    have hmapc : ((List.range N).filter (fun j => j ≠ i)).map
        (fun j => opprfIdeal (zsPoints N inputs draws j i) (junkZ j i) x) =
        ((List.range N).filter (fun j => j ≠ i)).map
          (fun j => (shareVec N draws j (kf j)).getD i 0) := by
      refine List.map_congr_left ?_
      intro j hj
      have hjr := List.mem_filter.mp hj
      have hjN : j < N := List.mem_range.mp hjr.1
      exact opprfIdeal_programmed (junkZ j i) x (inputs j)
        (fun k => (shareVec N draws j k).getD i 0) (kf j) (hnd j hjN)
        (hkf j hjN)
    rw [hmapc, ← sum_map_range_add]
    rw [sum_filter_ne N i hi (fun j => (shareVec N draws j (kf j)).getD i 0)]
  have hx0 : (inputs 0).getD (kf 0) 0 = x :=
    Paxos.getD_of_get? _ _ _ _ (hkf 0 (by omega))
  unfold finalSum
  rw [hx0]
  have hmapr : ((List.range N).filter (fun i => i ≠ 0)).map
      (fun i => opprfIdeal (rcPoints N inputs draws junkZ i) (junkR i) x) =
      ((List.range N).filter (fun i => i ≠ 0)).map
        (fun i => zsSum N inputs draws junkZ i (kf i)) := by
    refine List.map_congr_left ?_
    intro i hi
    have hir := List.mem_filter.mp hi
    have hiN : i < N := List.mem_range.mp hir.1
    exact opprfIdeal_programmed (junkR i) x (inputs i)
      (fun k => zsSum N inputs draws junkZ i k) (kf i) (hnd i hiN) (hkf i hiN)
  rw [hmapr]
  have hsum0 : zsSum N inputs draws junkZ 0 (kf 0) +
      (((List.range N).filter (fun i => i ≠ 0)).map
        (fun i => zsSum N inputs draws junkZ i (kf i))).sum =
      ((List.range N).map (fun i => zsSum N inputs draws junkZ i (kf i))).sum :=
    (sum_filter_ne N 0 (by omega) (fun i => zsSum N inputs draws junkZ i (kf i))).symm
  rw [hsum0, sum_map_range_add]
  have hcongr : ∑ i in Finset.range N, zsSum N inputs draws junkZ i (kf i) =
      ∑ i in Finset.range N, ∑ j in Finset.range N,
        (shareVec N draws j (kf j)).getD i 0 := by
    refine Finset.sum_congr rfl ?_
    intro i hi
    exact hzs i (Finset.mem_range.mp hi)
  rw [hcongr, Finset.sum_comm]
  have hinner : ∀ j, j ∈ Finset.range N →
      ∑ i in Finset.range N, (shareVec N draws j (kf j)).getD i 0 = 0 := by
    intro j _
    have hlen : (shareVec N draws j (kf j)).length = N :=
      length_secret_sharing N (draws j (kf j)) (by omega)
    have h2 := sum_getD_eq_sum (shareVec N draws j (kf j))
    rw [hlen] at h2
    rw [← sum_map_range_add, h2]
    exact sum_secret_sharing N (draws j (kf j))
  rw [Finset.sum_congr rfl hinner]
  exact Finset.sum_const_zero

end Mpsi

/-- C1: (i) the receiver outputs exactly those of its inputs whose final
accumulated share sum (own kept zero-shares, plus the zero-sharing OPPRF
values, plus the reconstruction OPPRF values) is zero; (ii) with ideal
OPPRFs returning the programmed value at programmed points, any `x` held by
every party (over the char-2 field, with duplicate-free sets) is output by
the receiver — the completeness half of `output = ⋂ S_i`. -/
theorem claim_C1 {F : Type} [CommRing F] [DecidableEq F] [CharP F 2]
    (N : Nat) (inputs : Nat → List F) (draws : Nat → Nat → Nat → F)
    (junkZ : Nat → Nat → F → F) (junkR : Nat → F → F) :
    (∀ x, x ∈ Mpsi.mpsiOutput N inputs draws junkZ junkR ↔
      ∃ k, (inputs 0).get? k = some x ∧
        Mpsi.finalSum N inputs draws junkZ junkR k = 0) ∧
      (2 ≤ N → (∀ i, i < N → (inputs i).Nodup) →
        ∀ x, (∀ i, i < N → x ∈ inputs i) →
          x ∈ Mpsi.mpsiOutput N inputs draws junkZ junkR) := by
  refine ⟨fun x => Mpsi.mpsiOutput_mem N inputs draws junkZ junkR x, ?_⟩
  intro hN hnd x hmem
  have hex : ∀ i, i < N → ∃ k, (inputs i).get? k = some x := by
    intro i hi
    exact List.mem_iff_get?.mp (hmem i hi)
  have hkf : ∃ kf : Nat → Nat, ∀ i, i < N → (inputs i).get? (kf i) = some x := by
    refine ⟨fun i => if hi : i < N then (hex i hi).choose else 0, ?_⟩
    intro i hi
    simp only [dif_pos hi]
    exact (hex i hi).choose_spec
  obtain ⟨kf, hkfs⟩ := hkf
  refine (Mpsi.mpsiOutput_mem N inputs draws junkZ junkR x).mpr ⟨kf 0, ?_, ?_⟩
  · exact hkfs 0 (by omega)
  · exact Mpsi.finalSum_zero N inputs draws junkZ junkR hN hnd x kf hkfs

theorem claim_C1_witness :
    (((1 : ZMod 2) ∈ Mpsi.mpsiOutput 2 (fun _ => [1]) (fun _ _ _ => 1)
        (fun _ _ _ => 0) (fun _ _ => 0)) ↔
      ∃ k, ([(1 : ZMod 2)]).get? k = some 1 ∧
        Mpsi.finalSum 2 (fun _ => [(1 : ZMod 2)]) (fun _ _ _ => 1)
          (fun _ _ _ => 0) (fun _ _ => 0) k = 0) ∧
      ((2 : Nat) ≤ 2 ∧
        (1 : ZMod 2) ∈ Mpsi.mpsiOutput 2 (fun _ => [1]) (fun _ _ _ => 1)
          (fun _ _ _ => 0) (fun _ _ => 0)) :=
  ⟨(claim_C1 2 (fun _ => [(1 : ZMod 2)]) (fun _ _ _ => 1) (fun _ _ _ => 0)
      (fun _ _ => 0)).1 1,
    ⟨by decide,
      (claim_C1 2 (fun _ => [(1 : ZMod 2)]) (fun _ _ _ => 1) (fun _ _ _ => 0)
        (fun _ _ => 0)).2 (by decide)
        (fun i _ => by simp)
        1 (fun i _ => by simp)⟩⟩

end PPM
